import Mathlib

/-!
Verification of the data-transformation framework (Python source under
`src/framework/`) against its natural-language specification.

The relevant program parts are shallowly embedded below:

* `state.py` / `plan.py`   — model state, change detection, plan classification;
* `executor.py`            — execute-time `$variable` substitution;
* `connection.py`          — query retry loop with exponential backoff;
* `parser.py`              — parse-time error routing;
* `cdc_polars.py`          — CDC materialization with the retirement pattern;
* `dependency.py`          — dependency graph, cycle detection, level-parallel
                             topological sort, subset execution order.

Python dicts are modelled as association lists in insertion order, Python sets
as `Finset`s, machine-independent Python integers as `Int`/`Nat`, and fallible
calls as `Option`/`Except` or explicit outcome oracles.
-/

namespace DTF

/-! ## state.py — ModelState and StateManager.has_changed -/

/-- Python truthiness of an optional string: `None` and `""` are falsy. -/
def pyTruthy : Option String → Bool
  | none => false
  | some s => s ≠ ""

/-- The fields of `ModelState` (state.py) that change detection reads.
Execution counters, timestamps and incremental state are never consulted by
`has_changed` / `_determine_change_type` and are omitted. -/
structure ModelState where
  modelName : String
  fileHash : String
  dependencies : List String
  configHash : Option String
  deriving Repr, DecidableEq

/-- `StateManager.models`: a dict from model name to state, in insertion order. -/
abbrev StateMap := List (String × ModelState)

/-- `StateManager.get_model_state`: `self.models.get(model_name)`. -/
def getModelState (models : StateMap) (name : String) : Option ModelState :=
  (models.find? (fun p => p.1 == name)).map (·.2)

/-- `StateManager.has_changed` (state.py lines 241-266): true when no stored
state exists, when the stored `file_hash` differs, or when a truthy
`config_hash` is passed and differs from the stored one.  The function takes
no dependency argument and never reads `state.dependencies`. -/
def hasChanged (models : StateMap) (modelName : String) (fileHash : String)
    (configHash : Option String) : Bool :=
  match getModelState models modelName with
  | none => true
  | some state =>
    if state.fileHash ≠ fileHash then true
    else if pyTruthy configHash && state.configHash ≠ configHash then true
    else false

/-! ## plan.py — change classification -/

/-- `ChangeType` (plan.py). -/
inductive ChangeType
  | create
  | update
  | delete
  | noChange
  deriving Repr, DecidableEq

/-- The entries of `current_models[name]` that `_determine_change_type` reads:
`model_info.get('file_hash', '')`, `model_info.get('config_hash')`,
`model_info.get('dependencies', [])`. -/
structure ModelInfo where
  fileHash : String
  configHash : Option String
  dependencies : List String
  deriving Repr, DecidableEq

/-- `PlanGenerator._determine_change_type` (plan.py lines 192-226).
Dependency lists are compared as Python sets (`set(...) != set(...)`). -/
def determineChangeType (models : StateMap) (modelName : String) (info : ModelInfo) :
    ChangeType × String :=
  match getModelState models modelName with
  | none => (.create, "New model")
  | some state =>
    if state.fileHash ≠ info.fileHash then (.update, "Model file changed")
    else if pyTruthy info.configHash && state.configHash ≠ info.configHash then
      (.update, "Model configuration changed")
    else if info.dependencies.toFinset ≠ state.dependencies.toFinset then
      (.update, "Dependencies changed")
    else (.noChange, "No changes detected")

/-- The per-model classification step of `PlanGenerator.generate_plan`
(plan.py lines 147-161): `full_refresh` forces an update, otherwise
`_determine_change_type` decides. -/
def classifyModel (models : StateMap) (fullRefresh : Bool) (modelName : String)
    (info : ModelInfo) : ChangeType × String :=
  if fullRefresh then (.update, "Full refresh requested")
  else determineChangeType models modelName info

/-! ## executor.py — execute-time `$variable` substitution -/

/-- The runtime values that `_substitute_variables` formats.  Python floats are
out of scope of the claims (their examples use strings, ints, booleans and
`None`); everything else in the dispatch is modelled. -/
inductive PyVal
  | pstr (s : String)
  | pint (n : Int)
  | pbool (b : Bool)
  | pnone
  deriving Repr, DecidableEq

/-- `isinstance(v, str)`. -/
def isStr : PyVal → Bool
  | .pstr _ => true
  | _ => false

/-- `isinstance(v, (int, float))`.  In Python `bool` is a subclass of `int`,
so boolean values satisfy this check. -/
def isNum : PyVal → Bool
  | .pint _ => true
  | .pbool _ => true
  | _ => false

/-- `v is None`. -/
def isNone : PyVal → Bool
  | .pnone => true
  | _ => false

/-- `isinstance(v, bool)`. -/
def isBool : PyVal → Bool
  | .pbool _ => true
  | _ => false

/-- Python `str(v)` for the embedded values:
`str(True) = "True"`, `str(False) = "False"`, `str(5) = "5"`. -/
def pyStr : PyVal → String
  | .pstr s => s
  | .pint n => toString n
  | .pbool b => if b then "True" else "False"
  | .pnone => "None"

/-- The single-quote character. -/
def squote : Char := Char.ofNat 39

/-- The single-quote string. -/
def squoteS : String := String.mk [squote]

/-- `val.replace("'", "''")`: double every single quote. -/
def escapeQuotes (s : String) : String :=
  String.mk (s.data.foldr (fun c acc => if c = squote then squote :: squote :: acc else c :: acc) [])

/-- The payload string of a `pstr`. -/
def strVal : PyVal → String
  | .pstr s => s
  | _ => ""

/-- The `replace_var` value formatter inside `ModelExecutor._substitute_variables`
(executor.py lines 374-391), with the source's branch order: the `str` check,
then the `(int, float)` check — which booleans also satisfy, `bool` being a
subclass of `int` in Python — then `None`, then the (unreachable) `bool`
branch, then the quote-and-escape fallback. -/
def formatValue (v : PyVal) : String :=
  if isStr v then squoteS ++ escapeQuotes (strVal v) ++ squoteS
  else if isNum v then pyStr v
  else if isNone v then "NULL"
  else if isBool v then (if v = .pbool true then "TRUE" else "FALSE")
  else squoteS ++ escapeQuotes (pyStr v) ++ squoteS

/-- The dollar character. -/
def dollarChar : Char := Char.ofNat 36

/-- One scan position of the alternation regex
`re.escape("$n1")|re.escape("$n2")|…` built by `_substitute_variables`:
alternatives are tried in dict (insertion) order; a hit returns the variable
and the number of matched characters. -/
def findVar : List (String × PyVal) → List Char → Option (PyVal × Nat)
  | [], _ => none
  | (n, v) :: rest, cs =>
    let pat := dollarChar :: n.data
    if pat.isPrefixOf cs then some (v, pat.length) else findVar rest cs

/-- `re.sub(pattern, replace_var, sql)`: leftmost scan, non-overlapping
matches, replacement by `formatValue`. -/
def substChars (vars : List (String × PyVal)) : List Char → List Char
  | [] => []
  | c :: cs =>
    match findVar vars (c :: cs) with
    | some (v, len) => (formatValue v).data ++ substChars vars (List.drop (len - 1) cs)
    | none => c :: substChars vars cs
  termination_by l => l.length
  decreasing_by
    · simp only [List.length_drop, List.length_cons]
      omega
    · simp [List.length_cons]

/-- `ModelExecutor._substitute_variables` (executor.py lines 341-397):
returns the SQL unchanged when no variables are given, otherwise substitutes
every matched `$name` by its formatted runtime value. -/
def substituteVariables (sql : String) (vars : List (String × PyVal)) : String :=
  if vars.isEmpty then sql else String.mk (substChars vars sql.data)

/-! ## connection.py — SnowflakeExecutor.execute_query retry loop -/

/-- Outcome of one warehouse call attempt: success with fetched rows, a
`SnowflakeError` carrying `getattr(e, 'errno', None)`, or a non-Snowflake
exception. -/
inductive AttemptOutcome (α : Type)
  | success (rows : α)
  | sfError (errno : Option Int)
  | otherError
  deriving DecidableEq

/-- Result of `execute_query`: returned rows (`None` when `fetch=False`), a
non-retryable `ConnectionError` with the offending code, or a terminal
`TransientConnectionError` with its `retry_count` and `max_retries`. -/
inductive QueryResult (α : Type)
  | ok (rows : Option α)
  | connError (errorCode : Option Int)
  | transientError (retryCount : Nat) (maxRetries : Nat)
  deriving Repr

/-- The fixed retryable code set of `_is_retryable_error` (connection.py). -/
def retryableCodes : List Int := [253001, 253003, 253008, 390114]

/-- `SnowflakeExecutor._is_retryable_error` (connection.py lines 441-452):
`error_code in retryable_codes if error_code else False`; a missing code and
the falsy code `0` are not retryable. -/
def isRetryableError (errorCode : Option Int) : Bool :=
  match errorCode with
  | none => false
  | some c => if c ≠ 0 then retryableCodes.contains c else false

/-- The `for attempt in range(max_retries)` loop of
`SnowflakeExecutor.execute_query` (connection.py lines 346-425).  `behavior n`
is the outcome of the warehouse call on 0-indexed attempt `n`; the returned
list records the sleeps performed (`retry_delay * 2 ** attempt` before each
retry).  A non-Snowflake exception breaks out of the loop, reaching the same
terminal `TransientConnectionError` as retry exhaustion. -/
def executeQueryLoop (behavior : Nat → AttemptOutcome α) (fetch : Bool)
    (maxRetries : Nat) (retryDelay : ℚ) (attempt : Nat) (delays : List ℚ) :
    QueryResult α × List ℚ :=
  if attempt < maxRetries then
    match behavior attempt with
    | .success rows => (.ok (if fetch then some rows else none), delays)
    | .sfError code =>
      if isRetryableError code then
        executeQueryLoop behavior fetch maxRetries retryDelay (attempt + 1)
          (delays ++ [retryDelay * 2 ^ attempt])
      else (.connError code, delays)
    | .otherError => (.transientError maxRetries maxRetries, delays)
  else (.transientError maxRetries maxRetries, delays)
  termination_by maxRetries - attempt
  decreasing_by omega

/-- `SnowflakeExecutor.execute_query`, starting at attempt 0 with no sleeps. -/
def executeQuery (behavior : Nat → AttemptOutcome α) (fetch : Bool)
    (maxRetries : Nat) (retryDelay : ℚ) : QueryResult α × List ℚ :=
  executeQueryLoop behavior fetch maxRetries retryDelay 0 []

/-! ## parser.py — SQLParser.parse_file / parse_directory error routing -/

/-- Per-file oracle for the fallible external calls made while parsing:
reading the file (`open`/`read`, which can still fail after the `exists`
check), building the Jinja template (`from_string`), rendering it, and
AST-parsing with sqlglot (`some tables` = the table names found). -/
structure FileInfo where
  readResult : Option String
  fromStringOk : Bool
  rendered : Option String
  astTables : Option (List String)
  deriving Repr, DecidableEq

/-- The filesystem: `none` means `file_path.exists()` is false. -/
abbrev FileSys := String → Option FileInfo

/-- The two error classes `parse_file` can raise. -/
inductive ParseErr
  | modelNotFound (path : String)
  | sqlParseError (path : String)
  deriving Repr, DecidableEq

/-- The `ParsedSQL` fields relevant to the error-routing claim. -/
structure ParsedModelE where
  modelName : String
  rawSql : String
  parsedSql : String
  dependencies : Finset String
  sources : List String
  deriving DecidableEq

/-- `SQLParser._render_jinja` (parser.py lines 260-296).  The body is wrapped
in `try/except`: a `from_string` failure is caught before the regex
extraction of `ref()`/`source()` calls, so the raw SQL comes back with empty
sets; a `render` failure is caught after it, so the raw SQL comes back with
the extracted sets.  No exception escapes.  The pure regex extractors are
passed as parameters (`refs`, `srcs`) since the claim does not depend on
them. -/
def renderJinja (raw : String) (fi : FileInfo) (refs : String → Finset String)
    (srcs : String → List String) : String × Finset String × List String :=
  if fi.fromStringOk = false then (raw, ∅, [])
  else
    let deps := refs raw
    let ss := srcs raw
    match fi.rendered with
    | none => (raw, deps, ss)
    | some r => (r, deps, ss)

/-- `SQLParser._extract_dependencies_from_ast` (parser.py lines 307-326): a
sqlglot failure is caught (`logger.debug(..., skipping)`) and the empty set
returned; otherwise tables with truthy names not starting with `__` are
collected. -/
def extractAstDeps (_parsedSql : String) (fi : FileInfo) : Finset String :=
  match fi.astTables with
  | none => ∅
  | some tables => (tables.filter (fun t => t ≠ "" ∧ ¬ t.startsWith "__")).toFinset

/-- `SQLParser.parse_file` (parser.py lines 126-218) with `render_jinja=True`.
A missing file raises `ModelNotFoundError` before the `try` block; any
exception inside the `try` block (here: the read) is wrapped into
`SQLParseError` with file context; render and AST failures are absorbed by
`_render_jinja` / `_extract_dependencies_from_ast` and never reach the
wrapper.  The pure comment/regex extractors are parameters. -/
def parseFile (fs : FileSys) (commentDeps refs : String → Finset String)
    (srcs : String → List String) (modelNameOf : String → String) (path : String) :
    Except ParseErr ParsedModelE :=
  match fs path with
  | none => .error (.modelNotFound path)
  | some fi =>
    match fi.readResult with
    | none => .error (.sqlParseError path)
    | some raw =>
      let cfgDeps := commentDeps raw
      let rjs := renderJinja raw fi refs srcs
      let astDeps := extractAstDeps rjs.1 fi
      .ok { modelName := modelNameOf path
            rawSql := raw
            parsedSql := rjs.1
            dependencies := cfgDeps ∪ rjs.2.1 ∪ astDeps
            sources := rjs.2.2 }

/-- Dict assignment `parsed_models[name] = parsed`: replace in place or append. -/
def upsert (m : List (String × ParsedModelE)) (key : String) (v : ParsedModelE) :
    List (String × ParsedModelE) :=
  if (m.find? (fun p => p.1 == key)).isSome
  then m.map (fun p => if p.1 == key then (p.1, v) else p)
  else m ++ [(key, v)]

/-- `SQLParser.parse_directory` (parser.py lines 388-421): each file is parsed
inside `try/except`; a failing file is logged and skipped (graceful
degradation) and the loop continues. -/
def parseDirectory (fs : FileSys) (commentDeps refs : String → Finset String)
    (srcs : String → List String) (modelNameOf : String → String)
    (files : List String) : List (String × ParsedModelE) :=
  files.foldl
    (fun acc f =>
      match parseFile fs commentDeps refs srcs modelNameOf f with
      | .ok p => upsert acc p.modelName p
      | .error _ => acc)
    []

/-! ## cdc_polars.py — CDC materialization with the retirement pattern

Rows are reduced to the columns the invariant concerns: the `unique_key`
value, the `__CDC_TIMESTAMP`, and `obsolete_date` (`none` = current).  The
key type is abstract with decidable equality, matching the generic SQL
equality used by the `WHERE unique_key IN (…)` statements. -/

/-- The change-type column values `I` / `U` / `D` / `E`. -/
inductive CdcOp
  | I
  | U
  | D
  | E
  deriving Repr, DecidableEq

/-- A staged incremental row: its `unique_key` value and change type. -/
structure CdcRow (κ : Type) where
  key : κ
  op : CdcOp
  deriving Repr, DecidableEq

/-- A source row of the initial load (before CDC columns are added). -/
structure SrcRow (κ : Type) where
  key : κ
  deriving Repr, DecidableEq

/-- A target-table row: `unique_key`, `__CDC_TIMESTAMP`, `obsolete_date`. -/
structure TargetRow (κ : Type) where
  key : κ
  cdcTimestamp : Nat
  obsoleteDate : Option Nat
  deriving Repr, DecidableEq

variable {κ : Type} [DecidableEq κ]

/-- `range(0, len(keys), batch_size)` slicing: split a list into chunks of
`n` (the source uses `batch_size = 1000`). -/
def chunksOf (n : Nat) (l : List κ) : List (List κ) :=
  if l = [] ∨ n = 0 then []
  else l.take n :: chunksOf n (l.drop n)
  termination_by l.length
  decreasing_by
    rename_i h
    simp only [not_or] at h
    cases l with
    | nil => exact absurd rfl h.1
    | cons x xs =>
      simp only [List.length_drop, List.length_cons]
      omega

/-- One batched
`UPDATE target SET obsolete_date = CURRENT_TIMESTAMP() WHERE unique_key IN (batch) AND obsolete_date IS NULL`. -/
def retireBatch (rows : List (TargetRow κ)) (batchKeys : List κ) (now : Nat) :
    List (TargetRow κ) :=
  rows.map (fun r =>
    if decide (r.key ∈ batchKeys) && r.obsoleteDate.isNone
    then { r with obsoleteDate := some now } else r)

/-- The `for i in range(0, len(keys_list), batch_size)` retirement loop of
`_process_cdc_chunk_with_retirement`: batched updates of up to 1000 keys. -/
def retireKeys (rows : List (TargetRow κ)) (keys : List κ) (now : Nat) :
    List (TargetRow κ) :=
  (chunksOf 1000 keys).foldl (fun rs batch => retireBatch rs batch now) rows

/-- `df.select(unique_key).unique()[...].to_list()`: the distinct key values
of a sub-frame (order immaterial downstream, the keys only feed `IN (…)`). -/
def uniqueKeysOf (rows : List (CdcRow κ)) : List κ :=
  (rows.map (·.key)).dedup

/-- `PolarsCDCMaterialization._process_cdc_chunk_with_retirement`
(cdc_polars.py lines 306-423).  In source order: the chunk is split by
change type; `I` rows are inserted with `obsolete_date = NULL` and a fresh
`__CDC_TIMESTAMP`; `U` rows retire every current row of their keys and are
then inserted with `obsolete_date = NULL`; `D` and `E` rows retire only. -/
def processCdcChunk (target : List (TargetRow κ)) (chunk : List (CdcRow κ))
    (now : Nat) : List (TargetRow κ) :=
  let inserts := chunk.filter (fun r => r.op = .I)
  let updates := chunk.filter (fun r => r.op = .U)
  let deletes := chunk.filter (fun r => r.op = .D)
  let expired := chunk.filter (fun r => r.op = .E)
  let t1 :=
    if 0 < inserts.length
    then target ++ inserts.map (fun r => ⟨r.key, now, none⟩)
    else target
  let t2 :=
    if 0 < updates.length then
      let updateKeysList := uniqueKeysOf updates
      let retired :=
        if updateKeysList ≠ [] then retireKeys t1 updateKeysList now else t1
      retired ++ updates.map (fun r => ⟨r.key, now, none⟩)
    else t1
  if 0 < deletes.length ∨ 0 < expired.length then
    let toRetire := if 0 < expired.length then deletes ++ expired else deletes
    let retireKeysList := uniqueKeysOf toRetire
    if retireKeysList ≠ [] then retireKeys t2 retireKeysList now else t2
  else t2

/-- `df.sort(unique_key).unique(subset=[unique_key], keep='last')`: one row
per key, keeping the last occurrence (the stable sort groups equal keys in
input order, so `keep='last'` keeps the last input occurrence; the sorted
output order itself is irrelevant to the invariant). -/
def uniqueKeepLast (rows : List (SrcRow κ)) : List (SrcRow κ) :=
  rows.foldl (fun acc r => acc.filter (fun x => x.key ≠ r.key) ++ [r]) []

/-- `PolarsCDCMaterialization._process_initial_chunk_polars`
(cdc_polars.py lines 425-445): add the CDC columns (`obsolete_date = NULL`,
fresh timestamp) and deduplicate by `unique_key`, keep last. -/
def processInitialChunk (rows : List (SrcRow κ)) (now : Nat) : List (TargetRow κ) :=
  (uniqueKeepLast rows).map (fun r => (⟨r.key, now, none⟩ : TargetRow κ))

/-- `PolarsCDCMaterialization._initial_load`: stream the source in chunks,
process each with `_process_initial_chunk_polars`, bulk-insert into the
(initially empty) target. -/
def initialLoad (chunks : List (List (SrcRow κ) × Nat)) : List (TargetRow κ) :=
  chunks.foldl (fun tgt c => tgt ++ processInitialChunk c.1 c.2) []

/-- A full CDC materialization run: the initial load followed by incremental
chunks processed through the retirement pattern. -/
def runCdc (initChunks : List (List (SrcRow κ) × Nat))
    (incChunks : List (List (CdcRow κ) × Nat)) : List (TargetRow κ) :=
  incChunks.foldl (fun tgt c => processCdcChunk tgt c.1 c.2) (initialLoad initChunks)

/-- Number of rows of the target with the given key and `obsolete_date IS NULL`. -/
def currentCount (rows : List (TargetRow κ)) (k : κ) : Nat :=
  rows.countP (fun r => decide (r.key = k) && r.obsoleteDate.isNone)

/-- The CDC invariant: for each `unique_key` value, at most one row with
`obsolete_date IS NULL`. -/
def CdcInvariant (rows : List (TargetRow κ)) : Prop :=
  ∀ k : κ, currentCount rows k ≤ 1

/-! ## dependency.py — DependencyGraph

`self.nodes` is a Python dict (insertion order), modelled as an association
list.  The Python sets held in each node (`dependencies`, `dependents`,
`visited`, `rec_stack`, `all_deps`, `required_models`) are modelled as
duplicate-free `List String` values with membership semantics: `set.add` is
`pyInsert` (a no-op on a present element), `set.discard` is `pyDiscard`, and
`len` is `List.length`.  Set iteration order is unspecified in Python and
immaterial in every loop below; the list order fixes one.  The dataclass
field `level` is omitted: it is only written during `topological_sort` and
read by `export_graphviz`, which no claim concerns, and no embedded operation
reads it. -/

/-- `s.add (x)` on a set modelled as a duplicate-free list. -/
def pyInsert (l : List String) (x : String) : List String :=
  if x ∈ l then l else l ++ [x]

/-- `s.discard (x)` (also `s.remove (x)`, used only on present elements). -/
def pyDiscard (l : List String) (x : String) : List String :=
  l.filter (fun y => y ≠ x)

/-- `DependencyNode` (dependency.py lines 17-23), without `level`. -/
structure DependencyNode where
  name : String
  dependencies : List String
  dependents : List String
  deriving Repr, DecidableEq

/-- `DependencyGraph.nodes`. -/
structure DepGraph where
  nodes : List (String × DependencyNode)
  deriving Repr, DecidableEq

namespace DepGraph

/-- The dict keys, in insertion order. -/
def keys (g : DepGraph) : List String := g.nodes.map Prod.fst

/-- `self.nodes.get(n)` / `self.nodes[n]`. -/
def lookup (g : DepGraph) (n : String) : Option DependencyNode :=
  (g.nodes.find? (fun p => p.1 == n)).map (·.2)

/-- `n in self.nodes`. -/
def memKeys (g : DepGraph) (n : String) : Prop := n ∈ g.keys

instance (g : DepGraph) (n : String) : Decidable (g.memKeys n) := by
  unfold memKeys; infer_instance

/-- The dependencies of a node (`∅` when the node is absent). -/
def depsOf (g : DepGraph) (n : String) : List String :=
  match g.lookup n with
  | none => []
  | some node => node.dependencies

/-- The dependents of a node (`∅` when the node is absent). -/
def dependentsOf (g : DepGraph) (n : String) : List String :=
  match g.lookup n with
  | none => []
  | some node => node.dependents

/-- In-place update `self.nodes[name].field = …` of an existing entry. -/
def updateNode (g : DepGraph) (name : String) (f : DependencyNode → DependencyNode) :
    DepGraph :=
  ⟨g.nodes.map (fun p => if p.1 == name then (p.1, f p.2) else p)⟩

/-- `if name not in self.nodes: self.nodes[name] = DependencyNode(name, ∅, ∅)`. -/
def ensureNode (g : DepGraph) (name : String) : DepGraph :=
  if (g.lookup name).isSome then g
  else ⟨g.nodes ++ [(name, ⟨name, [], []⟩)]⟩

/-- `DependencyGraph.add_model` (dependency.py lines 36-69): ensure the node,
replace its dependency set by a copy of the argument, then for each
dependency ensure its node and add `model_name` to its dependents.  The
argument list models the `dependencies` set of the source (duplicate-free
wherever the claims' hypotheses apply). -/
def addModel (g : DepGraph) (modelName : String) (dependencies : List String) :
    DepGraph :=
  let g1 := ensureNode g modelName
  let g2 := updateNode g1 modelName (fun n => { n with dependencies := dependencies })
  dependencies.foldl
    (fun g dep =>
      let g := ensureNode g dep
      updateNode g dep (fun n => { n with dependents := pyInsert n.dependents modelName }))
    g2

/-- `del self.nodes[name]`. -/
def eraseKey (g : DepGraph) (name : String) : DepGraph :=
  ⟨g.nodes.filter (fun p => p.1 ≠ name)⟩

/-- `DependencyGraph.remove_model` (dependency.py lines 71-94): discard the
model from the dependents of its dependencies and from the dependencies of
its dependents, then delete its entry.  A missing model is a no-op. -/
def removeModel (g : DepGraph) (modelName : String) : DepGraph :=
  match g.lookup modelName with
  | none => g
  | some node =>
    let g1 := node.dependencies.foldl
      (fun g dep =>
        if (g.lookup dep).isSome then
          updateNode g dep (fun n => { n with dependents := pyDiscard n.dependents modelName })
        else g)
      g
    let g2 := node.dependents.foldl
      (fun g dependent =>
        if (g.lookup dependent).isSome then
          updateNode g dependent
            (fun n => { n with dependencies := pyDiscard n.dependencies modelName })
        else g)
      g1
    eraseKey g2 modelName

/-- The recursive `traverse` of `DependencyGraph.get_all_dependencies`
(dependency.py lines 124-151), on state `(all_deps, visited)`.  The fuel
bounds the recursion depth; `get_all_dependencies` supplies `|nodes| + 1`,
which suffices since every recursive call visits a fresh node name. -/
def traverseDeps (g : DepGraph) : Nat → String → List String × List String →
    List String × List String
  | 0, _, st => st
  | fuel + 1, name, st =>
    if name ∈ st.2 then st
    else
      let st1 := (st.1, pyInsert st.2 name)
      (g.depsOf name).foldl
        (fun st dep => traverseDeps g fuel dep (pyInsert st.1 dep, st.2)) st1

/-- `DependencyGraph.get_all_dependencies`. -/
def getAllDependencies (g : DepGraph) (modelName : String) : List String :=
  if (g.lookup modelName).isSome then
    (traverseDeps g (g.nodes.length + 1) modelName ([], [])).1
  else []

/-- The mutable state of `detect_circular_dependencies`: `visited`,
`rec_stack` and `path`. -/
structure DfsState where
  visited : List String
  recStack : List String
  path : List String
  deriving Repr, DecidableEq

mutual

/-- The inner `dfs` of `DependencyGraph.detect_circular_dependencies`
(dependency.py lines 193-210): mark the node visited, push it on the
recursion stack and path, scan its dependencies; on a false return pop the
path and stack.  Note the source computes `cycle_start = path.index(dep)` on
a back-edge and never uses it: the full path is what the caller returns.
The fuel (one unit per call) bounds the work; `detectLoop` passes a bound
that cannot be exhausted on a well-formed graph, and an exhausted call
reports no cycle and leaves the state untouched. -/
def dfsVisit (g : DepGraph) : Nat → String → DfsState → Bool × DfsState
  | 0, _, st => (false, st)
  | fuel + 1, nodeName, st =>
    let st1 : DfsState :=
      ⟨pyInsert st.visited nodeName, pyInsert st.recStack nodeName, st.path ++ [nodeName]⟩
    match dfsDeps g fuel (g.depsOf nodeName) st1 with
    | (true, st2) => (true, st2)
    | (false, st2) =>
      (false, ⟨st2.visited, pyDiscard st2.recStack nodeName, st2.path.dropLast⟩)

/-- The `for dep in self.nodes[node_name].dependencies` loop of `dfs`:
recurse into unvisited dependencies, report a cycle on a recursion-stack
hit, else continue. -/
def dfsDeps (g : DepGraph) : Nat → List String → DfsState → Bool × DfsState
  | 0, _, st => (false, st)
  | _ + 1, [], st => (false, st)
  | fuel + 1, dep :: rest, st =>
    if dep ∉ st.visited then
      match dfsVisit g fuel dep st with
      | (true, st2) => (true, st2)
      | (false, st2) => dfsDeps g fuel rest st2
    else if dep ∈ st.recStack then (true, st)
    else dfsDeps g fuel rest st

end

/-- The fuel budget for one DFS: enough for every node visit plus every
dependency-edge step on a well-formed graph. -/
def dfsFuel (g : DepGraph) : Nat := (g.nodes.length + 1) * (g.nodes.length + 1)

/-- The `for node_name in self.nodes` loop of `detect_circular_dependencies`
(dependency.py lines 212-215). -/
def detectLoop (g : DepGraph) : List String → DfsState → Option (List String)
  | [], _ => none
  | n :: ns, st =>
    if n ∉ st.visited then
      match dfsVisit g (dfsFuel g) n st with
      | (true, st2) => some st2.path
      | (false, st2) => detectLoop g ns st2
    else detectLoop g ns st

/-- `DependencyGraph.detect_circular_dependencies` (dependency.py lines
182-217): DFS from every unvisited node in dict order; on a cycle the shared
`path` list is returned as-is. -/
def detectCircularDependencies (g : DepGraph) : Option (List String) :=
  detectLoop g g.keys ⟨[], [], []⟩

/-- `in_degree[k]` (0 default never hit on well-formed graphs, where every
decremented key is present; Python would raise `KeyError` otherwise). -/
def degOf (deg : List (String × Int)) (k : String) : Int :=
  (((deg.find? (fun p => p.1 == k)).map (·.2)).getD 0)

/-- `in_degree[k] -= 1`. -/
def bumpDown (deg : List (String × Int)) (k : String) : List (String × Int) :=
  deg.map (fun p => if p.1 == k then (p.1, p.2 - 1) else p)

/-- Processing one popped node inside the `while queue` loop of
`topological_sort` (dependency.py lines 251-264): decrement every dependent
and append those reaching in-degree 0 to the queue (collected here as the
next level). -/
def processNode (g : DepGraph) (st : List (String × Int) × List String)
    (nodeName : String) : List (String × Int) × List String :=
  (g.dependentsOf nodeName).foldl
    (fun st dependent =>
      let deg := bumpDown st.1 dependent
      if degOf deg dependent = 0 then (deg, st.2 ++ [dependent]) else (deg, st.2))
    st

/-- One iteration of the `while queue` loop: the whole current queue is the
level (`level_size = len(queue)`); nodes enqueued while processing it form
the next level. -/
def kahnLevel (g : DepGraph) (deg : List (String × Int)) (queue : List String) :
    List (String × Int) × List String :=
  queue.foldl (fun st n => processNode g st n) (deg, [])

/-- The `while queue` loop.  The fuel bounds the number of levels; each
nonempty level processes at least one node, so `|nodes| + 1` suffices. -/
def kahnLoop (g : DepGraph) : Nat → List (String × Int) → List String →
    List (List String)
  | 0, _, _ => []
  | fuel + 1, deg, queue =>
    if queue = [] then []
    else
      let st := kahnLevel g deg queue
      queue :: kahnLoop g fuel st.1 st.2

deriving instance DecidableEq for Except

/-- The errors `topological_sort` raises (`CircularDependencyError`, with and
without a cycle path). -/
inductive TopoError
  | circular (path : List String)
  | incomplete
  deriving Repr, DecidableEq

/-- `DependencyGraph.topological_sort` (dependency.py lines 219-277): run the
cycle detector first, then the level-parallel Kahn loop from the in-degree-0
queue, and check that every node was processed.  `len(node.dependencies)` is
the size of a set: the length of its duplicate-free list model. -/
def topologicalSort (g : DepGraph) : Except TopoError (List (List String)) :=
  match detectCircularDependencies g with
  | some cycle => .error (.circular cycle)
  | none =>
    let deg0 := g.nodes.map (fun p => (p.1, (p.2.dependencies.length : Int)))
    let queue0 := (deg0.filter (fun p => p.2 = 0)).map (·.1)
    let result := kahnLoop g (g.nodes.length + 1) deg0 queue0
    if (result.map List.length).sum ≠ g.nodes.length then .error .incomplete
    else .ok result

/-- `DependencyGraph.get_execution_order` (dependency.py lines 279-308): for a
model list, collect the models plus all their transitive dependencies into
the `required_models` set, build the filtered subgraph, and topologically
sort it. -/
def getExecutionOrder (g : DepGraph) (models : Option (List String)) :
    Except TopoError (List (List String)) :=
  match models with
  | none => topologicalSort g
  | some ms =>
    let required := ms.foldl
      (fun req m => (g.getAllDependencies m).foldl pyInsert req)
      (ms.foldl pyInsert [])
    let subgraph := required.foldl
      (fun sub m =>
        if (g.lookup m).isSome then
          sub.addModel m ((g.depsOf m).filter (fun d => d ∈ required))
        else sub)
      ⟨[]⟩
    topologicalSort subgraph

end DepGraph

/-- The empty graph (`DependencyGraph.__init__`). -/
def emptyGraph : DepGraph := ⟨[]⟩

/-- `a` directly depends on `b`: `b ∈ self.nodes[a].dependencies`. -/
def dependsOn (g : DepGraph) (a b : String) : Prop := b ∈ g.depsOf a

instance (g : DepGraph) (a b : String) : Decidable (dependsOn g a b) := by
  unfold dependsOn; infer_instance

/-- `b` is a transitive dependency of `a`. -/
def TransDep (g : DepGraph) (a b : String) : Prop :=
  Relation.TransGen (dependsOn g) a b

/-- The graph has no dependency cycles. -/
def Acyclic (g : DepGraph) : Prop := ∀ n, ¬ TransDep g n n

/-- Structural well-formedness of a graph as maintained by
`add_model`/`remove_model`: unique dict keys, duplicate-free set lists, every
dependency and dependent present as a node, and the
`dependencies`/`dependents` adjacency kept symmetric.  Stated with bounded
quantifiers so that it is decidable on concrete graphs. -/
def WellFormed (g : DepGraph) : Prop :=
  g.keys.Nodup ∧
  (∀ p ∈ g.nodes, p.2.dependencies.Nodup ∧ p.2.dependents.Nodup) ∧
  (∀ p ∈ g.nodes, ∀ a ∈ p.2.dependencies, g.memKeys a ∧ p.1 ∈ g.dependentsOf a) ∧
  (∀ p ∈ g.nodes, ∀ b ∈ p.2.dependents, g.memKeys b ∧ p.1 ∈ g.depsOf b)

instance (g : DepGraph) : Decidable (WellFormed g) := by
  unfold WellFormed; infer_instance
/-! ## Claim C6 — unchanged models classify as no_change -/

/-- Claim C6: for every model whose stored state exists and whose current file
hash, config hash, and dependency set all equal the stored values, and when
`full_refresh` is not requested, the planner classifies the model as
`no_change`. -/
theorem planner_unchanged_no_change (models : StateMap) (name : String)
    (info : ModelInfo) (state : ModelState)
    (hstate : getModelState models name = some state)
    (hfile : state.fileHash = info.fileHash)
    (hcfg : state.configHash = info.configHash)
    (hdeps : state.dependencies.toFinset = info.dependencies.toFinset) :
    classifyModel models false name info = (.noChange, "No changes detected") := by
  simp [classifyModel, determineChangeType, hstate, hfile, hcfg, hdeps]

/-- Witness for C6 at a concrete state map, model and parsed info. -/
theorem planner_unchanged_no_change_witness :
    getModelState [("m", ⟨"m", "h", ["a"], none⟩)] "m" = some ⟨"m", "h", ["a"], none⟩ ∧
    classifyModel [("m", ⟨"m", "h", ["a"], none⟩)] false "m" ⟨"h", none, ["a"]⟩ =
      (.noChange, "No changes detected") :=
  ⟨rfl, planner_unchanged_no_change _ "m" _ _ rfl rfl rfl rfl⟩

/-! ## Claim C4 — StateManager.has_changed -/

/-- The change predicate exactly as the spec words it (`changed_since` returns
true if the stored state is absent, or any of `file_hash`, `config_hash`, or
`dependencies` differ), written beside the source function `hasChanged` for
comparison. -/
def specHasChanged (models : StateMap) (name : String) (fileHash : String)
    (configHash : Option String) (currentDeps : List String) : Bool :=
  match getModelState models name with
  | none => true
  | some st =>
    st.fileHash ≠ fileHash || st.configHash ≠ configHash ||
      st.dependencies.toFinset ≠ currentDeps.toFinset

/-- Counterexample for C4: with stored state
`{file_hash: "h", config_hash: None, dependencies: ["a"]}` and current values
`file_hash = "h"`, `config_hash = None`, `dependencies = ["b"]`, the spec
predicate says changed (dependencies differ) but `has_changed` returns false:
the source never consults dependencies. -/
theorem hasChanged_claim_false :
    ¬ (∀ (models : StateMap) (name fileHash : String) (configHash : Option String)
        (currentDeps : List String),
        hasChanged models name fileHash configHash =
          specHasChanged models name fileHash configHash currentDeps) := by
  intro h
  exact absurd (h [("m", ⟨"m", "h", ["a"], none⟩)] "m" "h" none ["b"]) (by decide)

/-- Amended C4: `has_changed` returns true iff the stored state is absent, or
the stored `file_hash` differs from the current one, or a truthy (non-`None`,
non-empty) `config_hash` is passed and differs from the stored one.  The
current dependency set is not an input and is never consulted. -/
theorem hasChanged_amended (models : StateMap) (name fileHash : String)
    (configHash : Option String) :
    hasChanged models name fileHash configHash = true ↔
      getModelState models name = none ∨
      ∃ st, getModelState models name = some st ∧
        (st.fileHash ≠ fileHash ∨ (pyTruthy configHash = true ∧ st.configHash ≠ configHash)) := by
  unfold hasChanged
  cases h : getModelState models name with
  | none => simp
  | some st =>
    by_cases hf : st.fileHash = fileHash <;>
      by_cases hp : pyTruthy configHash <;>
      by_cases hc : st.configHash = configHash <;>
      simp [hf, hp, hc]

/-! ## Claim C5 — execute-time variable substitution -/

/-- Claim C5 at the failing input (and at the spec's own worked example): a
boolean value is formatted by Python `str()` as `True`, not as `TRUE`: in the
source the `isinstance(var_value, (int, float))` branch precedes the
`isinstance(var_value, bool)` branch, and Python booleans are instances of
`int`, so the `TRUE`/`FALSE` branch is dead code.  Strings and numbers behave
as claimed. -/
theorem substituteVariables_bool_python_str :
    substituteVariables "x=$b" [("b", .pbool true)] = "x=True" ∧
    substituteVariables "x=$b" [("b", .pbool false)] = "x=False" ∧
    substituteVariables "SELECT * FROM t WHERE d=$start_date AND x=$n"
      [("start_date", .pstr "2024-01-01"), ("n", .pint 5)] =
      "SELECT * FROM t WHERE d='2024-01-01' AND x=5" ∧
    formatValue (.pbool true) ≠ "TRUE" := by
  refine ⟨?_, ?_, ?_, by decide⟩ <;>
    (simp [substituteVariables, substChars, findVar, formatValue, isStr, isNum, isNone,
      pyStr, dollarChar, List.isPrefixOf, squote, squoteS, escapeQuotes, strVal] <;> rfl)

/-! ## Claim C7 — retry with exponential backoff -/

theorem executeQueryLoop_success {α : Type} (behavior : Nat → AttemptOutcome α)
    (maxRetries : Nat) (d : ℚ) (r : α) :
    ∀ (k a : Nat) (delays : List ℚ),
      a + k < maxRetries →
      (∀ i, i < k → ∃ c, behavior (a + i) = .sfError c ∧ isRetryableError c = true) →
      behavior (a + k) = .success r →
      executeQueryLoop behavior true maxRetries d a delays =
        (.ok (some r), delays ++ (List.range k).map (fun i => d * 2 ^ (a + i))) := by
  intro k
  induction k with
  | zero =>
    intro a delays hlt _ hsucc
    rw [executeQueryLoop]
    simp only [Nat.add_zero] at hlt hsucc
    simp [hlt, hsucc]
  | succ k ih =>
    intro a delays hlt herr hsucc
    obtain ⟨c, hc, hcr⟩ := herr 0 (Nat.succ_pos k)
    rw [executeQueryLoop]
    have ha : a < maxRetries := by omega
    simp only [Nat.add_zero] at hc
    rw [if_pos ha, hc]
    simp only [hcr, if_pos]
    have := ih (a + 1) (delays ++ [d * 2 ^ a]) (by omega)
      (fun i hi => by
        have := herr (i + 1) (by omega)
        simpa [Nat.add_assoc, Nat.add_comm 1 i] using this)
      (by simpa [Nat.add_assoc, Nat.add_comm 1 k] using hsucc)
    rw [this]
    congr 1
    rw [List.append_assoc]
    congr 1
    rw [List.range_succ_eq_map, List.map_cons, List.map_map]
    simp [Function.comp_def, Nat.add_comm, Nat.add_assoc, Nat.add_left_comm]

theorem executeQueryLoop_exhaust {α : Type} (behavior : Nat → AttemptOutcome α)
    (maxRetries : Nat) (d : ℚ) :
    ∀ (n a : Nat) (delays : List ℚ),
      maxRetries - a = n →
      (∀ i, a ≤ i → i < maxRetries → ∃ c, behavior i = .sfError c ∧ isRetryableError c = true) →
      executeQueryLoop behavior true maxRetries d a delays =
        (.transientError maxRetries maxRetries,
          delays ++ (List.range n).map (fun i => d * 2 ^ (a + i))) := by
  intro n
  induction n with
  | zero =>
    intro a delays hn _
    rw [executeQueryLoop]
    have : ¬ a < maxRetries := by omega
    simp [this]
  | succ n ih =>
    intro a delays hn herr
    have ha : a < maxRetries := by omega
    obtain ⟨c, hc, hcr⟩ := herr a (Nat.le_refl a) ha
    rw [executeQueryLoop, if_pos ha, hc]
    simp only [hcr, if_pos]
    have := ih (a + 1) (delays ++ [d * 2 ^ a]) (by omega)
      (fun i hi hi2 => herr i (by omega) hi2)
    rw [this]
    congr 1
    rw [List.append_assoc]
    congr 1
    rw [List.range_succ_eq_map, List.map_cons, List.map_map]
    simp [Function.comp_def, Nat.add_comm, Nat.add_assoc, Nat.add_left_comm]

/-- Claim C7: (i) a transient (retryable) error resolved on 0-indexed attempt
`k < max_retries` yields the fetched result, after sleeps of
`retry_delay * 2 ^ attempt` between attempts; (ii) a transient error on every
attempt yields a terminal `TransientConnectionError` whose `retry_count`
equals `max_retries`; (iii) a non-retryable error code raises a
`ConnectionError` immediately, with no retry and no sleep. -/
theorem executor_retry_spec {α : Type} (behavior : Nat → AttemptOutcome α)
    (maxRetries : Nat) (d : ℚ) (r : α) (k : Nat) :
    ((∀ i, i < k → ∃ c, behavior i = .sfError c ∧ isRetryableError c = true) →
      behavior k = .success r → k < maxRetries →
      executeQuery behavior true maxRetries d =
        (.ok (some r), (List.range k).map (fun i => d * 2 ^ i))) ∧
    ((∀ i, i < maxRetries → ∃ c, behavior i = .sfError c ∧ isRetryableError c = true) →
      executeQuery behavior true maxRetries d =
        (.transientError maxRetries maxRetries,
          (List.range maxRetries).map (fun i => d * 2 ^ i))) ∧
    (∀ c, 0 < maxRetries → behavior 0 = .sfError c → isRetryableError c = false →
      executeQuery behavior true maxRetries d = (.connError c, [])) := by
  refine ⟨fun herr hsucc hk => ?_, fun herr => ?_, fun c h0 hc hcr => ?_⟩
  · have := executeQueryLoop_success behavior maxRetries d r k 0 [] (by omega)
      (fun i hi => by simpa using herr i hi) (by simpa using hsucc)
    simpa [executeQuery] using this
  · have := executeQueryLoop_exhaust behavior maxRetries d maxRetries 0 [] (by omega)
      (fun i _ hi => herr i hi)
    simpa [executeQuery] using this
  · rw [executeQuery, executeQueryLoop, if_pos h0, hc]
    simp [hcr]

/-- Witness for C7: `max_retries = 3`, `retry_delay = 1`; a behavior that
fails retryably on attempts 0 and 1 and succeeds on attempt 2; a behavior
that always fails retryably; a behavior with the non-retryable code 100. -/
theorem executor_retry_spec_witness :
    executeQuery (fun n => if n < 2 then .sfError (some 253001) else .success [42]) true 3 1 =
      (.ok (some [42]), [1 * 2 ^ 0, 1 * 2 ^ 1]) ∧
    executeQuery (α := List Nat) (fun _ => .sfError (some 253003)) true 3 1 =
      (.transientError 3 3, [1 * 2 ^ 0, 1 * 2 ^ 1, 1 * 2 ^ 2]) ∧
    executeQuery (α := List Nat) (fun _ => .sfError (some 100)) true 3 1 =
      (.connError (some 100), []) := by
  refine ⟨?_, ?_, ?_⟩
  · have := (executor_retry_spec
      (fun n => if n < 2 then .sfError (some 253001) else .success [42]) 3 1 [42] 2).1
      (fun i hi => ⟨some 253001, by interval_cases i <;> decide, by decide⟩)
      (by decide) (by decide)
    simpa using this
  · have := (executor_retry_spec (α := List Nat)
      (fun _ => .sfError (some 253003)) 3 1 [0] 0).2.1
      (fun i _ => ⟨some 253003, rfl, by decide⟩)
    simpa using this
  · exact (executor_retry_spec (α := List Nat)
      (fun _ => .sfError (some 100)) 3 1 [0] 0).2.2 (some 100) (by decide) rfl (by decide)

/-! ## Claim C8 — parser failure modes -/

/-- Counterexample for C8: a file whose template construction fails
(`fromStringOk = false`), whose render would fail, and whose AST parse fails,
is still parsed successfully — `_render_jinja` falls back to the raw SQL and
`_extract_dependencies_from_ast` returns the empty set, both catching their
exceptions internally — contradicting "raises SQLParseError ... whenever
rendering the template fails or AST-parsing the rendered SQL fails". -/
theorem parseFile_swallow_claim_false :
    ¬ (∀ (fs : FileSys) (cd rf : String → Finset String) (sr : String → List String)
        (mn : String → String) (path : String) (fi : FileInfo),
        fs path = some fi → (fi.rendered = none ∨ fi.astTables = none) →
        parseFile fs cd rf sr mn path = .error (.sqlParseError path)) := by
  intro h
  have := h (fun p => if p = "m.sql" then some ⟨some "select 1", false, none, none⟩ else none)
    (fun _ => ∅) (fun _ => ∅) (fun _ => []) (fun _ => "m") "m.sql"
    ⟨some "select 1", false, none, none⟩ (by decide) (Or.inl rfl)
  have hok : parseFile
      (fun p => if p = "m.sql" then some ⟨some "select 1", false, none, none⟩ else none)
      (fun _ => ∅) (fun _ => ∅) (fun _ => []) (fun _ => "m") "m.sql" =
      .ok ⟨"m", "select 1", "select 1", ∅, []⟩ := by rfl
  rw [hok] at this
  exact Except.noConfusion this

theorem parseDirectory_skips_failures (fs : FileSys) (cd rf : String → Finset String)
    (sr : String → List String) (mn : String → String) :
    ∀ (files : List String) (acc : List (String × ParsedModelE)),
      files.foldl
        (fun acc f =>
          match parseFile fs cd rf sr mn f with
          | .ok p => upsert acc p.modelName p
          | .error _ => acc) acc =
      (files.filter (fun f => (parseFile fs cd rf sr mn f).isOk)).foldl
        (fun acc f =>
          match parseFile fs cd rf sr mn f with
          | .ok p => upsert acc p.modelName p
          | .error _ => acc) acc := by
  intro files
  induction files with
  | nil => intro acc; rfl
  | cons f rest ih =>
    intro acc
    by_cases h : (parseFile fs cd rf sr mn f).isOk
    · rw [List.filter_cons_of_pos (by simpa using h)]
      simp only [List.foldl_cons]
      exact ih _
    · rw [List.filter_cons_of_neg (by simpa using h)]
      simp only [List.foldl_cons]
      cases hp : parseFile fs cd rf sr mn f with
      | ok p => rw [hp] at h; simp [Except.isOk, Except.toBool] at h
      | error e => exact ih acc

/-- Amended C8: `parse_file` raises `ModelNotFound` for a missing file, and
`SQLParseError` with file context only when a step not internally guarded
(here: the read, racing the existence check) fails inside the `try` block.  A
template-construction or render failure falls back to the raw source, an AST
failure contributes no AST dependencies, and neither raises.  A failing file
contributes nothing to `parse_directory`, which processes exactly the
successfully parsed files. -/
theorem parser_error_routing_amended (fs : FileSys) (cd rf : String → Finset String)
    (sr : String → List String) (mn : String → String) (path : String) :
    (fs path = none → parseFile fs cd rf sr mn path = .error (.modelNotFound path)) ∧
    (∀ fi, fs path = some fi → fi.readResult = none →
      parseFile fs cd rf sr mn path = .error (.sqlParseError path)) ∧
    (∀ fi raw, fs path = some fi → fi.readResult = some raw →
      ∃ pm, parseFile fs cd rf sr mn path = .ok pm ∧
        ((fi.fromStringOk = false ∨ fi.rendered = none) → pm.parsedSql = raw) ∧
        (fi.astTables = none →
          pm.dependencies = cd raw ∪ (renderJinja raw fi rf sr).2.1)) ∧
    (∀ (files : List String),
      parseDirectory fs cd rf sr mn files =
        (files.filter (fun f => (parseFile fs cd rf sr mn f).isOk)).foldl
          (fun acc f =>
            match parseFile fs cd rf sr mn f with
            | .ok p => upsert acc p.modelName p
            | .error _ => acc) []) := by
  refine ⟨fun h => ?_, fun fi hfi hr => ?_, fun fi raw hfi hr => ?_, fun files => ?_⟩
  · simp [parseFile, h]
  · simp [parseFile, hfi, hr]
  · refine ⟨⟨mn path, raw, (renderJinja raw fi rf sr).1,
      cd raw ∪ (renderJinja raw fi rf sr).2.1 ∪ extractAstDeps (renderJinja raw fi rf sr).1 fi,
      (renderJinja raw fi rf sr).2.2⟩, by simp [parseFile, hfi, hr], ?_, ?_⟩
    · intro hfail
      rcases hfail with hfs | hrn
      · simp [renderJinja, hfs]
      · by_cases hfs : fi.fromStringOk = false
        · simp [renderJinja, hfs]
        · simp only [Bool.not_eq_false] at hfs
          simp [renderJinja, hfs, hrn]
    · intro hast
      simp [extractAstDeps, hast]
  · exact parseDirectory_skips_failures fs cd rf sr mn files []

/-- Witness for C8: a two-file directory where `a.sql` is missing its read
(raising `SQLParseError`), and `b.sql` parses with a failing renderer and a
failing AST pass; `parse_directory` keeps exactly `b`. -/
theorem parser_error_routing_amended_witness :
    (parseFile (fun _ => none) (fun _ => ∅) (fun _ => ∅) (fun _ => []) (fun _ => "m")
        "missing.sql" = .error (.modelNotFound "missing.sql")) ∧
    (parseFile (fun _ => some ⟨none, true, none, none⟩) (fun _ => ∅) (fun _ => ∅)
        (fun _ => []) (fun _ => "m") "a.sql" = .error (.sqlParseError "a.sql")) ∧
    (∃ pm, parseFile (fun _ => some ⟨some "select 1", true, none, none⟩) (fun _ => ∅)
        (fun _ => ∅) (fun _ => []) (fun _ => "b") "b.sql" = .ok pm ∧
        pm.parsedSql = "select 1") := by
  refine ⟨(parser_error_routing_amended _ _ _ _ _ "missing.sql").1 rfl,
    (parser_error_routing_amended _ _ _ _ _ "a.sql").2.1 ⟨none, true, none, none⟩ rfl rfl,
    ?_⟩
  obtain ⟨pm, h1, h2, _⟩ :=
    (parser_error_routing_amended (fun _ => some ⟨some "select 1", true, none, none⟩)
      (fun _ => ∅) (fun _ => ∅) (fun _ => []) (fun _ => "b") "b.sql").2.2.1
      ⟨some "select 1", true, none, none⟩ "select 1" rfl rfl
  exact ⟨pm, h1, h2 (Or.inr rfl)⟩

/-! ## Claim C1 — the CDC `obsolete_date IS NULL` invariant -/

section CdcProofs

variable {κ : Type} [DecidableEq κ]

theorem join_chunksOf (n : Nat) (hn : n ≠ 0) :
    ∀ l : List κ, (chunksOf n l).flatten = l
  | [] => by rw [chunksOf]; simp
  | x :: xs => by
    rw [chunksOf]
    have hne : ¬ (x :: xs = [] ∨ n = 0) := by simp [hn]
    rw [if_neg hne]
    have hlt : (List.drop n (x :: xs)).length < (x :: xs).length := by
      simp only [List.length_drop, List.length_cons]
      omega
    rw [List.flatten_cons, join_chunksOf n hn (List.drop n (x :: xs))]
    exact List.take_append_drop n (x :: xs)
  termination_by l => l.length

theorem currentCount_append (a b : List (TargetRow κ)) (k : κ) :
    currentCount (a ++ b) k = currentCount a k + currentCount b k :=
  List.countP_append _ _ _

theorem currentCount_retireBatch (rows : List (TargetRow κ)) (b : List κ) (now : Nat)
    (k : κ) :
    currentCount (retireBatch rows b now) k =
      if k ∈ b then 0 else currentCount rows k := by
  rw [retireBatch, currentCount, List.countP_map]
  by_cases hk : k ∈ b
  · rw [if_pos hk, List.countP_eq_zero.mpr]
    intro r _
    by_cases hm : r.key ∈ b <;> cases ho : r.obsoleteDate <;>
      by_cases hr : r.key = k <;>
      simp_all [Function.comp]
  · rw [if_neg hk, currentCount]
    apply List.countP_congr
    intro r _
    by_cases hm : r.key ∈ b <;> cases ho : r.obsoleteDate <;>
      by_cases hr : r.key = k <;>
      simp_all [Function.comp]

theorem currentCount_foldl_retire (batches : List (List κ))
    (rows : List (TargetRow κ)) (now : Nat) (k : κ) :
    currentCount (batches.foldl (fun rs b => retireBatch rs b now) rows) k =
      if k ∈ batches.flatten then 0 else currentCount rows k := by
  induction batches generalizing rows with
  | nil => simp
  | cons b bs ih =>
    simp only [List.foldl_cons, List.flatten_cons, List.mem_append]
    rw [ih, currentCount_retireBatch]
    by_cases h1 : k ∈ b <;> by_cases h2 : k ∈ bs.flatten <;> simp [h1, h2]

theorem currentCount_retireKeys (rows : List (TargetRow κ)) (keys : List κ)
    (now : Nat) (k : κ) :
    currentCount (retireKeys rows keys now) k =
      if k ∈ keys then 0 else currentCount rows k := by
  rw [retireKeys, currentCount_foldl_retire, join_chunksOf 1000 (by omega)]

theorem currentCount_insertRows (l : List (CdcRow κ)) (now : Nat) (k : κ) :
    currentCount (l.map (fun r => (⟨r.key, now, none⟩ : TargetRow κ))) k =
      l.countP (fun r => decide (r.key = k)) := by
  rw [currentCount, List.countP_map]
  congr 1
  funext r
  simp [Function.comp]

theorem mem_uniqueKeysOf (l : List (CdcRow κ)) (k : κ) :
    k ∈ uniqueKeysOf l ↔ ∃ r ∈ l, r.key = k := by
  simp [uniqueKeysOf, List.mem_dedup]

theorem uniqueKeysOf_ne_nil (l : List (CdcRow κ)) (h : 0 < l.length) :
    uniqueKeysOf l ≠ [] := by
  cases l with
  | nil => simp at h
  | cons r rs =>
    intro hnil
    have : r.key ∈ uniqueKeysOf (r :: rs) := by
      rw [mem_uniqueKeysOf]
      exact ⟨r, List.mem_cons_self _ _, rfl⟩
    rw [hnil] at this
    exact absurd this (List.not_mem_nil _)

theorem countP_key_le_one (chunk : List (CdcRow κ)) (k : κ)
    (hnd : (chunk.map (·.key)).Nodup) :
    chunk.countP (fun r => decide (r.key = k)) ≤ 1 := by
  induction chunk with
  | nil => simp
  | cons r rs ih =>
    simp only [List.map_cons, List.nodup_cons] at hnd
    rw [List.countP_cons]
    by_cases hr : r.key = k
    · have : rs.countP (fun r => decide (r.key = k)) = 0 := by
        rw [List.countP_eq_zero]
        intro a ha
        simp only [decide_eq_true_eq]
        intro hak
        exact hnd.1 (by rw [hr, ← hak]; exact List.mem_map_of_mem _ ha)
      simp [hr, this]
    · simp only [hr, decide_False, if_neg]
      simpa using ih hnd.2

theorem countP_filter_key_le_one (chunk : List (CdcRow κ)) (p : CdcRow κ → Bool) (k : κ)
    (hnd : (chunk.map (·.key)).Nodup) :
    (chunk.filter p).countP (fun r => decide (r.key = k)) ≤ 1 := by
  calc (chunk.filter p).countP (fun r => decide (r.key = k))
      ≤ chunk.countP (fun r => decide (r.key = k)) :=
        (List.filter_sublist chunk).countP_le _
    _ ≤ 1 := countP_key_le_one chunk k hnd

/-- Preservation of the CDC invariant by one incremental chunk, under the CDC
input contract: at most one row per `unique_key` in the chunk, and `I` rows
only for keys with no current row. -/
theorem processCdcChunk_preserves (tgt : List (TargetRow κ)) (chunk : List (CdcRow κ))
    (now : Nat) (hinv : CdcInvariant tgt)
    (hnd : (chunk.map (·.key)).Nodup)
    (hI : ∀ r ∈ chunk, r.op = .I → currentCount tgt r.key = 0) :
    CdcInvariant (processCdcChunk tgt chunk now) := by
  intro k
  unfold processCdcChunk
  set inserts := chunk.filter (fun r => decide (r.op = .I)) with hins
  set updates := chunk.filter (fun r => decide (r.op = .U)) with hupd
  set deletes := chunk.filter (fun r => decide (r.op = .D)) with hdel
  set expired := chunk.filter (fun r => decide (r.op = .E)) with hexp
  simp only []
  set cI := inserts.countP (fun r => decide (r.key = k)) with hcI
  set cU := updates.countP (fun r => decide (r.key = k)) with hcU
  -- counts of the sub-frames are at most 1
  have hcI1 : cI ≤ 1 := countP_filter_key_le_one chunk _ k hnd
  have hcU1 : cU ≤ 1 := countP_filter_key_le_one chunk _ k hnd
  -- step 1: the I inserts
  have h1 : currentCount
      (if 0 < inserts.length then
        tgt ++ inserts.map (fun r => (⟨r.key, now, none⟩ : TargetRow κ))
      else tgt) k = currentCount tgt k + cI := by
    by_cases hp : 0 < inserts.length
    · rw [if_pos hp, currentCount_append, currentCount_insertRows]
    · rw [if_neg hp]
      have : inserts = [] := by
        cases h : inserts with
        | nil => rfl
        | cons a l => rw [h] at hp; simp at hp
      simp [hcI, this]
  set t1 := (if 0 < inserts.length then
      tgt ++ inserts.map (fun r => (⟨r.key, now, none⟩ : TargetRow κ))
    else tgt) with ht1
  -- step 2: retire + re-insert the U rows
  have h2 : currentCount
      (if 0 < updates.length then
        (if uniqueKeysOf updates ≠ [] then retireKeys t1 (uniqueKeysOf updates) now
          else t1) ++ updates.map (fun r => (⟨r.key, now, none⟩ : TargetRow κ))
      else t1) k =
      (if k ∈ uniqueKeysOf updates then 0 else currentCount t1 k) + cU := by
    by_cases hp : 0 < updates.length
    · rw [if_pos hp, if_pos (uniqueKeysOf_ne_nil updates hp), currentCount_append,
        currentCount_retireKeys, currentCount_insertRows]
    · rw [if_neg hp]
      have hnil : updates = [] := by
        cases h : updates with
        | nil => rfl
        | cons a l => rw [h] at hp; simp at hp
      simp [hcU, hnil, uniqueKeysOf]
  set t2 := (if 0 < updates.length then
      (if uniqueKeysOf updates ≠ [] then retireKeys t1 (uniqueKeysOf updates) now
        else t1) ++ updates.map (fun r => (⟨r.key, now, none⟩ : TargetRow κ))
    else t1) with ht2
  -- step 3: the D/E retirement
  have h3 : currentCount
      (if 0 < deletes.length ∨ 0 < expired.length then
        (if uniqueKeysOf (if 0 < expired.length then deletes ++ expired else deletes) ≠ []
          then retireKeys t2
            (uniqueKeysOf (if 0 < expired.length then deletes ++ expired else deletes)) now
          else t2)
      else t2) k ≤ currentCount t2 k := by
    by_cases hp : 0 < deletes.length ∨ 0 < expired.length
    · rw [if_pos hp]
      by_cases hq : uniqueKeysOf (if 0 < expired.length then deletes ++ expired else deletes) ≠ []
      · rw [if_pos hq, currentCount_retireKeys]
        by_cases hk : k ∈ uniqueKeysOf (if 0 < expired.length then deletes ++ expired else deletes) <;>
          simp [hk]
      · rw [if_neg hq]
    · rw [if_neg hp]
  -- assemble the bound
  refine le_trans h3 ?_
  rw [h2, h1]
  by_cases hk : k ∈ uniqueKeysOf updates
  · simpa [hk] using hcU1
  · -- no U row for k, so cU = 0
    have hcU0 : cU = 0 := by
      rw [hcU, List.countP_eq_zero]
      intro r hr
      simp only [decide_eq_true_eq]
      intro hrk
      exact hk ((mem_uniqueKeysOf _ _).mpr ⟨r, hr, hrk⟩)
    rw [if_neg hk, hcU0]
    by_cases hcIp : 0 < cI
    · -- an I row for k exists: the contract gives no current row in tgt
      rw [hcI] at hcIp
      obtain ⟨r, hr, hrk⟩ := List.countP_pos_iff.mp hcIp
      simp only [decide_eq_true_eq] at hrk
      have hrI : r.op = .I := by
        have := List.of_mem_filter hr
        simpa using this
      have h0 : currentCount tgt r.key = 0 := hI r (List.mem_of_mem_filter hr) hrI
      rw [hrk] at h0
      omega
    · have : cI = 0 := by omega
      have := hinv k
      omega

/-- Members of the deduplicated initial chunk come from the chunk. -/
theorem mem_uniqueKeepLast (rows : List (SrcRow κ)) :
    ∀ x ∈ uniqueKeepLast rows, x ∈ rows := by
  have : ∀ acc : List (SrcRow κ),
      ∀ x ∈ rows.foldl (fun acc r => acc.filter (fun a => a.key ≠ r.key) ++ [r]) acc,
        x ∈ acc ∨ x ∈ rows := by
    induction rows with
    | nil => intro acc x hx; exact Or.inl hx
    | cons r rs ih =>
      intro acc x hx
      rcases ih (acc.filter (fun a => a.key ≠ r.key) ++ [r]) x hx with h | h
      · rcases List.mem_append.mp h with h | h
        · exact Or.inl (List.mem_of_mem_filter h)
        · simp only [List.mem_singleton] at h
          exact Or.inr (h ▸ List.mem_cons_self _ _)
      · exact Or.inr (List.mem_cons_of_mem _ h)
  intro x hx
  rcases this [] x hx with h | h
  · exact absurd h (List.not_mem_nil _)
  · exact h

/-- The deduplicated initial chunk has pairwise distinct keys. -/
theorem uniqueKeepLast_keys_nodup (rows : List (SrcRow κ)) :
    ((uniqueKeepLast rows).map (·.key)).Nodup := by
  have : ∀ acc : List (SrcRow κ), (acc.map (·.key)).Nodup →
      (((rows.foldl (fun acc r => acc.filter (fun a => a.key ≠ r.key) ++ [r]) acc)).map
        (·.key)).Nodup := by
    induction rows with
    | nil => intro acc h; exact h
    | cons r rs ih =>
      intro acc hacc
      apply ih
      rw [List.map_append, List.map_singleton]
      apply List.Nodup.append
      · exact hacc.sublist ((List.filter_sublist acc).map _)
      · exact List.nodup_singleton _
      · intro a ha hb
        simp only [List.mem_singleton] at hb
        subst hb
        obtain ⟨x, hx, hxk⟩ := List.mem_map.mp ha
        have := List.of_mem_filter hx
        simp only [decide_eq_true_eq] at this
        exact this hxk
  exact this [] (by simp)

theorem countP_srckey_le_one (l : List (SrcRow κ)) (k : κ)
    (hnd : (l.map (·.key)).Nodup) :
    l.countP (fun r => decide (r.key = k)) ≤ 1 := by
  induction l with
  | nil => simp
  | cons r rs ih =>
    simp only [List.map_cons, List.nodup_cons] at hnd
    rw [List.countP_cons]
    by_cases hr : r.key = k
    · have : rs.countP (fun r => decide (r.key = k)) = 0 := by
        rw [List.countP_eq_zero]
        intro a ha
        simp only [decide_eq_true_eq]
        intro hak
        exact hnd.1 (by rw [hr, ← hak]; exact List.mem_map_of_mem _ ha)
      simp [hr, this]
    · simp only [hr, decide_False, if_neg]
      simpa using ih hnd.2

theorem currentCount_processInitialChunk (rows : List (SrcRow κ)) (now : Nat) (k : κ) :
    currentCount (processInitialChunk rows now) k =
      (uniqueKeepLast rows).countP (fun r => decide (r.key = k)) := by
  rw [processInitialChunk, currentCount, List.countP_map]
  congr 1
  funext r
  simp [Function.comp]

theorem processInitialChunk_le_one (rows : List (SrcRow κ)) (now : Nat) (k : κ) :
    currentCount (processInitialChunk rows now) k ≤ 1 := by
  rw [currentCount_processInitialChunk]
  exact countP_srckey_le_one _ k (uniqueKeepLast_keys_nodup rows)

theorem processInitialChunk_pos (rows : List (SrcRow κ)) (now : Nat) (k : κ)
    (h : 0 < currentCount (processInitialChunk rows now) k) :
    ∃ r ∈ rows, r.key = k := by
  rw [currentCount_processInitialChunk] at h
  obtain ⟨r, hr, hrk⟩ := List.countP_pos_iff.mp h
  exact ⟨r, mem_uniqueKeepLast rows r hr, by simpa using hrk⟩

/-- Two initial-load chunks with no shared `unique_key` value. -/
def chunkKeysDisjoint (c1 c2 : List (SrcRow κ)) : Prop :=
  ∀ r ∈ c1, r.key ∉ c2.map (·.key)

instance (c1 c2 : List (SrcRow κ)) : Decidable (chunkKeysDisjoint c1 c2) := by
  unfold chunkKeysDisjoint; infer_instance

/-- The chunks of the initial load carry pairwise disjoint key sets (the
LIMIT/OFFSET streaming deduplicates only within a chunk). -/
def InitChunksDisjoint (chunks : List (List (SrcRow κ) × Nat)) : Prop :=
  chunks.Pairwise (fun a b => chunkKeysDisjoint a.1 b.1)

instance (chunks : List (List (SrcRow κ) × Nat)) : Decidable (InitChunksDisjoint chunks) := by
  unfold InitChunksDisjoint; infer_instance

theorem currentCount_initialLoad_foldl (k : κ) :
    ∀ (chunks : List (List (SrcRow κ) × Nat)) (acc : List (TargetRow κ)),
      currentCount (chunks.foldl (fun tgt c => tgt ++ processInitialChunk c.1 c.2) acc) k =
        currentCount acc k +
          (chunks.map (fun c => currentCount (processInitialChunk c.1 c.2) k)).sum := by
  intro chunks
  induction chunks with
  | nil => intro acc; simp
  | cons c cs ih =>
    intro acc
    simp only [List.foldl_cons, List.map_cons, List.sum_cons]
    rw [ih, currentCount_append]
    omega

theorem sum_le_one_of_pairwise_zero (l : List Nat) (h1 : ∀ x ∈ l, x ≤ 1)
    (h2 : l.Pairwise (fun a b => a = 0 ∨ b = 0)) : l.sum ≤ 1 := by
  induction l with
  | nil => simp
  | cons x xs ih =>
    rw [List.pairwise_cons] at h2
    by_cases hx : x = 0
    · rw [List.sum_cons, hx]
      simpa using ih (fun y hy => h1 y (List.mem_cons_of_mem _ hy)) h2.2
    · have hx1 : x ≤ 1 := h1 x (List.mem_cons_self _ _)
      have : xs.sum = 0 := by
        rw [List.sum_eq_zero_iff]
        intro y hy
        rcases h2.1 y hy with h | h
        · exact absurd h hx
        · exact h
      rw [List.sum_cons, this]
      omega

/-- The initial load establishes the CDC invariant when its chunks carry
pairwise disjoint keys (each chunk is individually deduplicated by
`_process_initial_chunk_polars`). -/
theorem initialLoad_invariant (chunks : List (List (SrcRow κ) × Nat))
    (hd : InitChunksDisjoint chunks) : CdcInvariant (initialLoad chunks) := by
  intro k
  rw [initialLoad, currentCount_initialLoad_foldl]
  have hz : currentCount ([] : List (TargetRow κ)) k = 0 := rfl
  rw [hz, Nat.zero_add]
  apply sum_le_one_of_pairwise_zero
  · intro x hx
    obtain ⟨c, _, hc⟩ := List.mem_map.mp hx
    exact hc ▸ processInitialChunk_le_one c.1 c.2 k
  · refine List.Pairwise.map _ ?_ hd
    intro a b hab
    by_cases ha : currentCount (processInitialChunk a.1 a.2) k = 0
    · exact Or.inl ha
    · right
      by_contra hb
      obtain ⟨r1, hr1, hk1⟩ := processInitialChunk_pos a.1 a.2 k (Nat.pos_of_ne_zero ha)
      obtain ⟨r2, hr2, hk2⟩ := processInitialChunk_pos b.1 b.2 k (Nat.pos_of_ne_zero hb)
      exact hab r1 hr1 (by rw [hk1, ← hk2]; exact List.mem_map_of_mem _ hr2)

/-- The CDC input contract for one chunk against the current target: at most
one row per key, and `I` rows only for keys with no current row. -/
def goodChunk (tgt : List (TargetRow κ)) (chunk : List (CdcRow κ)) : Prop :=
  (chunk.map (·.key)).Nodup ∧
  ∀ r ∈ chunk, r.op = .I → currentCount tgt r.key = 0

instance (tgt : List (TargetRow κ)) (chunk : List (CdcRow κ)) :
    Decidable (goodChunk tgt chunk) := by
  unfold goodChunk; infer_instance

/-- The input contract along a run: each chunk is good against the target
state that the preceding chunks produced. -/
def goodIncRun : List (TargetRow κ) → List (List (CdcRow κ) × Nat) → Prop
  | _, [] => True
  | tgt, c :: cs => goodChunk tgt c.1 ∧ goodIncRun (processCdcChunk tgt c.1 c.2) cs

instance goodIncRunDec : (tgt : List (TargetRow κ)) →
    (cs : List (List (CdcRow κ) × Nat)) → Decidable (goodIncRun tgt cs)
  | _, [] => isTrue trivial
  | tgt, c :: cs =>
    @instDecidableAnd _ _ inferInstance (goodIncRunDec (processCdcChunk tgt c.1 c.2) cs)

theorem foldl_chunks_invariant :
    ∀ (cs : List (List (CdcRow κ) × Nat)) (tgt : List (TargetRow κ)),
      CdcInvariant tgt → goodIncRun tgt cs →
      CdcInvariant (cs.foldl (fun tgt c => processCdcChunk tgt c.1 c.2) tgt) := by
  intro cs
  induction cs with
  | nil => intro tgt hinv _; exact hinv
  | cons c cs ih =>
    intro tgt hinv hrun
    obtain ⟨⟨hnd, hI⟩, hrest⟩ := hrun
    exact ih _ (processCdcChunk_preserves tgt c.1 c.2 hinv hnd hI) hrest

end CdcProofs

/-- Counterexample for C1: starting from an initial load of the single key 7,
one incremental chunk carrying `(key 7, I)` inserts a second row with
`obsolete_date IS NULL` for key 7 — `_process_cdc_chunk_with_retirement`
inserts `I` rows without checking for an existing current row — so two rows
with `obsolete_date IS NULL` share the key. -/
theorem cdc_invariant_claim_false :
    ¬ CdcInvariant (runCdc (κ := Int) [([⟨7⟩], 0)] [([⟨7, .I⟩], 1)]) := by
  intro h
  exact absurd (h 7) (by decide)

/-- Amended C1: after an initial load whose chunks carry pairwise disjoint
keys, and any sequence of incremental CDC chunks that each contain at most
one row per `unique_key` and whose `I` rows only target keys with no current
row, every `unique_key` value has at most one row with
`obsolete_date IS NULL`. -/
theorem cdc_invariant_amended {κ : Type} [DecidableEq κ]
    (initChunks : List (List (SrcRow κ) × Nat))
    (incChunks : List (List (CdcRow κ) × Nat))
    (hd : InitChunksDisjoint initChunks)
    (hrun : goodIncRun (initialLoad initChunks) incChunks) :
    CdcInvariant (runCdc initChunks incChunks) :=
  foldl_chunks_invariant incChunks (initialLoad initChunks)
    (initialLoad_invariant initChunks hd) hrun

/-- Witness for C1 (amended) at a concrete run: initial load of keys 7 and 9,
then an incremental chunk updating key 7 and deleting key 9. -/
theorem cdc_invariant_amended_witness :
    InitChunksDisjoint (κ := Int) [([⟨7⟩], 0), ([⟨9⟩], 0)] ∧
    goodIncRun (initialLoad (κ := Int) [([⟨7⟩], 0), ([⟨9⟩], 0)])
      [([⟨7, .U⟩, ⟨9, .D⟩], 1)] ∧
    CdcInvariant (runCdc (κ := Int) [([⟨7⟩], 0), ([⟨9⟩], 0)] [([⟨7, .U⟩, ⟨9, .D⟩], 1)]) :=
  ⟨by decide, by decide,
    cdc_invariant_amended [([⟨7⟩], 0), ([⟨9⟩], 0)] [([⟨7, .U⟩, ⟨9, .D⟩], 1)]
      (by decide) (by decide)⟩

/-! ## Claim C3 — the returned cycle path -/

/-- Claim C3 at the failing input: on the graph built by
`add_model('x', {'a'})`, `add_model('a', {'b'})`, `add_model('b', {'a'})`
(cycle `a ↔ b`, reached from the non-cycle node `x`),
`detect_circular_dependencies` returns the full DFS path `['x','a','b']`:
`'x'` is not on the cycle, and the last element `'b'` is not a dependency of
the first element `'x'`.  The source computes
`cycle_start = path.index(dep)` and never uses it, so the slice the spec
describes (`['a','b']`) is never taken. -/
theorem detectCircular_unsliced_path :
    DepGraph.detectCircularDependencies
        (((emptyGraph.addModel "x" ["a"]).addModel "a" ["b"]).addModel "b" ["a"]) =
      some ["x", "a", "b"] ∧
    "b" ∉ DepGraph.depsOf
        (((emptyGraph.addModel "x" ["a"]).addModel "a" ["b"]).addModel "b" ["a"]) "x" ∧
    "x" ∉ DepGraph.depsOf
        (((emptyGraph.addModel "x" ["a"]).addModel "a" ["b"]).addModel "b" ["a"]) "a" ∧
    "x" ∉ DepGraph.depsOf
        (((emptyGraph.addModel "x" ["a"]).addModel "a" ["b"]).addModel "b" ["a"]) "b" := by
  decide

/-! ## Claim C9 — dependencies/dependents symmetry -/

theorem mem_pyInsert (l : List String) (x y : String) :
    y ∈ pyInsert l x ↔ y ∈ l ∨ y = x := by
  unfold pyInsert
  by_cases h : x ∈ l
  · simp only [if_pos h]
    constructor
    · exact Or.inl
    · rintro (hy | rfl)
      · exact hy
      · exact h
  · simp [if_neg h]

theorem pyInsert_idem (l : List String) (x : String) :
    pyInsert (pyInsert l x) x = pyInsert l x := by
  unfold pyInsert
  by_cases h : x ∈ l <;> simp [h]

theorem mem_pyDiscard (l : List String) (x y : String) :
    y ∈ pyDiscard l x ↔ y ∈ l ∧ y ≠ x := by
  simp [pyDiscard]

theorem pyDiscard_idem (l : List String) (x : String) :
    pyDiscard (pyDiscard l x) x = pyDiscard l x := by
  unfold pyDiscard
  rw [List.filter_filter]
  simp

theorem find?_map_keyfix {α : Type} (x : String) (f : String × α → String × α)
    (hf : ∀ p, (f p).1 = p.1) :
    ∀ l : List (String × α),
      (l.map f).find? (fun p => p.1 == x) = (l.find? (fun p => p.1 == x)).map f := by
  intro l
  induction l with
  | nil => rfl
  | cons p l ih =>
    by_cases h : (p.1 == x) = true
    · rw [List.map_cons,
        @List.find?_cons_of_pos _ (fun q => q.1 == x) (f p) (l.map f) (by simpa [hf] using h),
        @List.find?_cons_of_pos _ (fun q => q.1 == x) p l h]
      simp
    · rw [List.map_cons,
        @List.find?_cons_of_neg _ (fun q => q.1 == x) (f p) (l.map f) (by simpa [hf] using h),
        @List.find?_cons_of_neg _ (fun q => q.1 == x) p l h]
      exact ih

theorem lookup_updateNode (g : DepGraph) (k : String) (f : DependencyNode → DependencyNode)
    (x : String) :
    (g.updateNode k f).lookup x = if x = k then (g.lookup k).map f else g.lookup x := by
  unfold DepGraph.lookup DepGraph.updateNode
  rw [show (fun p : String × DependencyNode => if p.1 == k then (p.1, f p.2) else p) =
      (fun p : String × DependencyNode => if p.1 == k then (p.1, f p.2) else p) from rfl]
  rw [find?_map_keyfix x _ (fun p => by by_cases h : p.1 == k <;> simp [h])]
  cases h : g.nodes.find? (fun p => p.1 == x) with
  | none =>
    by_cases hxk : x = k
    · subst hxk; rw [h]; simp
    · simp [hxk]
  | some p =>
    have hx : p.1 = x := by
      have := List.find?_some h
      simpa using this
    by_cases hxk : x = k
    · subst hxk
      rw [h]
      simp [hx]
    · simp only [Option.map_some, if_neg hxk]
      have hnk : ¬ p.1 = k := by rw [hx]; exact hxk
      simp [hnk]

theorem lookup_ensureNode (g : DepGraph) (k x : String) :
    (g.ensureNode k).lookup x =
      if (g.lookup k).isSome then g.lookup x
      else if x = k then some ⟨k, [], []⟩ else g.lookup x := by
  unfold DepGraph.ensureNode
  by_cases h : (g.lookup k).isSome
  · rw [if_pos h, if_pos h]
  · rw [if_neg h, if_neg h]
    show (DepGraph.lookup ⟨g.nodes ++ [(k, ⟨k, [], []⟩)]⟩ x) = _
    unfold DepGraph.lookup
    rw [List.find?_append]
    cases hx : g.nodes.find? (fun p => p.1 == x) with
    | some p =>
      by_cases hxk : x = k
      · exact absurd (by rw [hxk] at hx; simp [DepGraph.lookup, hx]) h
      · simp [hx, hxk]
    | none =>
      by_cases hxk : x = k
      · subst hxk
        simp
      · have hne : (k == x) = false := by simp [Ne.symm hxk]
        simp [hne, hxk]

theorem lookup_eraseKey (g : DepGraph) (k x : String) :
    (g.eraseKey k).lookup x = if x = k then none else g.lookup x := by
  unfold DepGraph.eraseKey DepGraph.lookup
  induction g.nodes with
  | nil => by_cases h : x = k <;> simp [h]
  | cons p l ih =>
    by_cases hp : p.1 = k
    · rw [List.filter_cons_of_neg (by simpa using hp)]
      rw [ih]
      by_cases hxk : x = k
      · simp [hxk]
      · have hne : (p.1 == x) = false := by
          simp only [beq_eq_false_iff_ne, ne_eq]
          intro he
          exact hxk (by rw [← he, hp])
        simp [hne, hxk]
    · rw [List.filter_cons_of_pos (by simpa using hp)]
      by_cases hpx : (p.1 == x) = true
      · have hx : ¬ x = k := by
          intro hh
          exact hp (by rw [eq_of_beq hpx, hh])
        rw [@List.find?_cons_of_pos _ (fun q => q.1 == x) p _ hpx,
          @List.find?_cons_of_pos _ (fun q => q.1 == x) p l hpx, if_neg hx]
      · rw [@List.find?_cons_of_neg _ (fun q => q.1 == x) p _ hpx,
          @List.find?_cons_of_neg _ (fun q => q.1 == x) p l hpx]
        exact ih

theorem depsOf_eq (g : DepGraph) (x : String) :
    g.depsOf x = ((g.lookup x).map (·.dependencies)).getD [] := by
  unfold DepGraph.depsOf
  cases g.lookup x <;> rfl

theorem dependentsOf_eq (g : DepGraph) (x : String) :
    g.dependentsOf x = ((g.lookup x).map (·.dependents)).getD [] := by
  unfold DepGraph.dependentsOf
  cases g.lookup x <;> rfl

theorem lookup_addStep (g : DepGraph) (dep m x : String) :
    ((g.ensureNode dep).updateNode dep
        (fun n => { n with dependents := pyInsert n.dependents m })).lookup x =
      if x = dep then
        some (match g.lookup dep with
          | none => ⟨dep, [], pyInsert [] m⟩
          | some nd => { nd with dependents := pyInsert nd.dependents m })
      else g.lookup x := by
  rw [lookup_updateNode]
  by_cases hxd : x = dep
  · subst hxd
    rw [if_pos rfl, if_pos rfl, lookup_ensureNode]
    cases h : g.lookup x with
    | none => simp [h]
    | some nd => simp [h]
  · rw [if_neg hxd, if_neg hxd, lookup_ensureNode]
    cases h : g.lookup dep with
    | none => simp [h, hxd]
    | some nd => simp [h]

theorem depsOf_addStep (g : DepGraph) (dep m x : String) :
    ((g.ensureNode dep).updateNode dep
        (fun n => { n with dependents := pyInsert n.dependents m })).depsOf x =
      g.depsOf x := by
  rw [depsOf_eq, lookup_addStep, depsOf_eq]
  by_cases hxd : x = dep
  · subst hxd
    cases h : g.lookup x <;> simp [h]
  · simp [hxd]

theorem dependentsOf_addStep (g : DepGraph) (dep m x : String) :
    ((g.ensureNode dep).updateNode dep
        (fun n => { n with dependents := pyInsert n.dependents m })).dependentsOf x =
      if x = dep then pyInsert (g.dependentsOf x) m else g.dependentsOf x := by
  rw [dependentsOf_eq, lookup_addStep, dependentsOf_eq]
  by_cases hxd : x = dep
  · subst hxd
    cases h : g.lookup x <;> simp [h]
  · simp [hxd]

theorem depsOf_addFold (m : String) (L : List String) :
    ∀ (g : DepGraph) (x : String),
      (L.foldl
        (fun g dep =>
          let g := g.ensureNode dep
          g.updateNode dep (fun n => { n with dependents := pyInsert n.dependents m }))
        g).depsOf x = g.depsOf x := by
  induction L with
  | nil => intro g x; rfl
  | cons d L ih =>
    intro g x
    simp only [List.foldl_cons]
    rw [ih, depsOf_addStep]

theorem dependentsOf_addFold (m : String) (L : List String) :
    ∀ (g : DepGraph) (x : String),
      (L.foldl
        (fun g dep =>
          let g := g.ensureNode dep
          g.updateNode dep (fun n => { n with dependents := pyInsert n.dependents m }))
        g).dependentsOf x =
      if x ∈ L then pyInsert (g.dependentsOf x) m else g.dependentsOf x := by
  induction L with
  | nil => intro g x; simp
  | cons d L ih =>
    intro g x
    simp only [List.foldl_cons]
    rw [ih, dependentsOf_addStep]
    by_cases hxd : x = d
    · subst hxd
      by_cases hxl : x ∈ L
      · simp [hxl, pyInsert_idem]
      · simp [hxl]
    · by_cases hxl : x ∈ L <;> simp [hxd, hxl]

theorem depsOf_addModel (g : DepGraph) (m : String) (D : List String) (x : String) :
    (g.addModel m D).depsOf x = if x = m then D else g.depsOf x := by
  unfold DepGraph.addModel
  rw [depsOf_addFold]
  by_cases hxm : x = m
  · subst hxm
    rw [if_pos rfl, depsOf_eq, lookup_updateNode, if_pos rfl, lookup_ensureNode]
    cases h : g.lookup x <;> simp [h]
  · rw [if_neg hxm, depsOf_eq, lookup_updateNode, if_neg hxm, lookup_ensureNode, depsOf_eq]
    cases h : g.lookup m <;> simp [h, hxm]

theorem dependentsOf_addModel (g : DepGraph) (m : String) (D : List String) (x : String) :
    (g.addModel m D).dependentsOf x =
      if x ∈ D then pyInsert (g.dependentsOf x) m else g.dependentsOf x := by
  unfold DepGraph.addModel
  rw [dependentsOf_addFold]
  have hbase : ∀ y, (((g.ensureNode m).updateNode m
      (fun n => { n with dependencies := D })).dependentsOf y) = g.dependentsOf y := by
    intro y
    by_cases hym : y = m
    · subst hym
      rw [dependentsOf_eq, lookup_updateNode, if_pos rfl, lookup_ensureNode, dependentsOf_eq]
      cases h : g.lookup y <;> simp [h]
    · rw [dependentsOf_eq, lookup_updateNode, if_neg hym, lookup_ensureNode, dependentsOf_eq]
      cases h : g.lookup m <;> simp [h, hym]
  by_cases hxd : x ∈ D <;> simp [hxd, hbase]

theorem lookup_rStep (g : DepGraph) (dep x : String)
    (f : DependencyNode → DependencyNode) :
    ((if (g.lookup dep).isSome then g.updateNode dep f else g).lookup x) =
      if x = dep then (g.lookup dep).map f else g.lookup x := by
  by_cases h : (g.lookup dep).isSome
  · rw [if_pos h, lookup_updateNode]
  · rw [if_neg h]
    by_cases hxd : x = dep
    · subst hxd
      rw [if_pos rfl]
      rw [Option.not_isSome_iff_eq_none] at h
      rw [h]
      rfl
    · rw [if_neg hxd]

theorem dependentsOf_rFold1 (m : String) (L : List String) :
    ∀ (g : DepGraph) (x : String),
      (L.foldl
        (fun g dep =>
          if (g.lookup dep).isSome then
            g.updateNode dep (fun n => { n with dependents := pyDiscard n.dependents m })
          else g)
        g).dependentsOf x =
      if x ∈ L then pyDiscard (g.dependentsOf x) m else g.dependentsOf x := by
  induction L with
  | nil => intro g x; simp
  | cons d L ih =>
    intro g x
    simp only [List.foldl_cons]
    rw [ih]
    have hstep : ∀ y, ((if (g.lookup d).isSome then
        g.updateNode d (fun n => { n with dependents := pyDiscard n.dependents m })
      else g).dependentsOf y) =
        if y = d then pyDiscard (g.dependentsOf y) m else g.dependentsOf y := by
      intro y
      rw [dependentsOf_eq, lookup_rStep, dependentsOf_eq]
      by_cases hyd : y = d
      · subst hyd
        cases h : g.lookup y <;> simp [h, pyDiscard]
      · simp [hyd]
    by_cases hxd : x = d
    · subst hxd
      by_cases hxl : x ∈ L
      · simp [hxl, hstep, pyDiscard_idem]
      · simp [hxl, hstep]
    · by_cases hxl : x ∈ L <;> simp [hxd, hxl, hstep]

theorem depsOf_rFold1 (m : String) (L : List String) :
    ∀ (g : DepGraph) (x : String),
      (L.foldl
        (fun g dep =>
          if (g.lookup dep).isSome then
            g.updateNode dep (fun n => { n with dependents := pyDiscard n.dependents m })
          else g)
        g).depsOf x = g.depsOf x := by
  induction L with
  | nil => intro g x; rfl
  | cons d L ih =>
    intro g x
    simp only [List.foldl_cons]
    rw [ih]
    rw [depsOf_eq, lookup_rStep, depsOf_eq]
    by_cases hxd : x = d
    · subst hxd
      cases h : g.lookup x <;> simp [h]
    · simp [hxd]

theorem depsOf_rFold2 (m : String) (L : List String) :
    ∀ (g : DepGraph) (x : String),
      (L.foldl
        (fun g dependent =>
          if (g.lookup dependent).isSome then
            g.updateNode dependent
              (fun n => { n with dependencies := pyDiscard n.dependencies m })
          else g)
        g).depsOf x =
      if x ∈ L then pyDiscard (g.depsOf x) m else g.depsOf x := by
  induction L with
  | nil => intro g x; simp
  | cons d L ih =>
    intro g x
    simp only [List.foldl_cons]
    rw [ih]
    have hstep : ∀ y, ((if (g.lookup d).isSome then
        g.updateNode d (fun n => { n with dependencies := pyDiscard n.dependencies m })
      else g).depsOf y) =
        if y = d then pyDiscard (g.depsOf y) m else g.depsOf y := by
      intro y
      rw [depsOf_eq, lookup_rStep, depsOf_eq]
      by_cases hyd : y = d
      · subst hyd
        cases h : g.lookup y <;> simp [h, pyDiscard]
      · simp [hyd]
    by_cases hxd : x = d
    · subst hxd
      by_cases hxl : x ∈ L
      · simp [hxl, hstep, pyDiscard_idem]
      · simp [hxl, hstep]
    · by_cases hxl : x ∈ L <;> simp [hxd, hxl, hstep]

theorem dependentsOf_rFold2 (m : String) (L : List String) :
    ∀ (g : DepGraph) (x : String),
      (L.foldl
        (fun g dependent =>
          if (g.lookup dependent).isSome then
            g.updateNode dependent
              (fun n => { n with dependencies := pyDiscard n.dependencies m })
          else g)
        g).dependentsOf x = g.dependentsOf x := by
  induction L with
  | nil => intro g x; rfl
  | cons d L ih =>
    intro g x
    simp only [List.foldl_cons]
    rw [ih]
    rw [dependentsOf_eq, lookup_rStep, dependentsOf_eq]
    by_cases hxd : x = d
    · subst hxd
      cases h : g.lookup x <;> simp [h]
    · simp [hxd]

theorem depsOf_removeModel (g : DepGraph) (m : String) (node : DependencyNode)
    (h : g.lookup m = some node) (x : String) :
    (g.removeModel m).depsOf x =
      if x = m then []
      else if x ∈ node.dependents then pyDiscard (g.depsOf x) m else g.depsOf x := by
  unfold DepGraph.removeModel
  rw [h]
  simp only []
  rw [depsOf_eq, lookup_eraseKey]
  by_cases hxm : x = m
  · simp [hxm]
  · rw [if_neg hxm, if_neg hxm, ← depsOf_eq]
    rw [depsOf_rFold2, depsOf_rFold1]

theorem dependentsOf_removeModel (g : DepGraph) (m : String) (node : DependencyNode)
    (h : g.lookup m = some node) (x : String) :
    (g.removeModel m).dependentsOf x =
      if x = m then []
      else if x ∈ node.dependencies then pyDiscard (g.dependentsOf x) m
      else g.dependentsOf x := by
  unfold DepGraph.removeModel
  rw [h]
  simp only []
  rw [dependentsOf_eq, lookup_eraseKey]
  by_cases hxm : x = m
  · simp [hxm]
  · rw [if_neg hxm, if_neg hxm, ← dependentsOf_eq]
    rw [dependentsOf_rFold2, dependentsOf_rFold1]

/-- The forward half of the adjacency symmetry. -/
def SymmFwd (g : DepGraph) : Prop :=
  ∀ a b : String, a ∈ g.depsOf b → b ∈ g.dependentsOf a

/-- The full adjacency symmetry: `A ∈ B.dependencies ⇔ B ∈ A.dependents`. -/
def SymmIff (g : DepGraph) : Prop :=
  ∀ a b : String, a ∈ g.depsOf b ↔ b ∈ g.dependentsOf a

theorem symmFwd_addModel (g : DepGraph) (m : String) (D : List String)
    (h : SymmFwd g) : SymmFwd (g.addModel m D) := by
  intro a b
  rw [depsOf_addModel, dependentsOf_addModel]
  by_cases hbm : b = m
  · subst hbm
    rw [if_pos rfl]
    intro ha
    rw [if_pos ha, mem_pyInsert]
    exact Or.inr rfl
  · rw [if_neg hbm]
    intro ha
    by_cases haD : a ∈ D
    · rw [if_pos haD, mem_pyInsert]
      exact Or.inl (h a b ha)
    · rw [if_neg haD]
      exact h a b ha

theorem symmFwd_removeModel (g : DepGraph) (m : String)
    (h : SymmFwd g) : SymmFwd (g.removeModel m) := by
  cases hm : g.lookup m with
  | none =>
    unfold DepGraph.removeModel
    rw [hm]
    exact h
  | some node =>
    intro a b
    rw [depsOf_removeModel g m node hm, dependentsOf_removeModel g m node hm]
    by_cases hbm : b = m
    · rw [if_pos hbm]
      intro ha
      exact absurd ha (List.not_mem_nil a)
    · rw [if_neg hbm]
      by_cases hbd : b ∈ node.dependents
      · rw [if_pos hbd]
        rw [mem_pyDiscard]
        rintro ⟨ha, ham⟩
        have hb := h a b ha
        rw [if_neg ham]
        by_cases had : a ∈ node.dependencies
        · rw [if_pos had, mem_pyDiscard]
          exact ⟨hb, hbm⟩
        · rw [if_neg had]
          exact hb
      · rw [if_neg hbd]
        intro ha
        have ham : a ≠ m := by
          intro hh
          subst hh
          have := h a b ha
          rw [dependentsOf_eq, hm] at this
          exact hbd (by simpa using this)
        have hb := h a b ha
        rw [if_neg ham]
        by_cases had : a ∈ node.dependencies
        · rw [if_pos had, mem_pyDiscard]
          exact ⟨hb, hbm⟩
        · rw [if_neg had]
          exact hb

theorem symmIff_addModel (g : DepGraph) (m : String) (D : List String)
    (h : SymmIff g) (hsub : ∀ x ∈ g.depsOf m, x ∈ D) : SymmIff (g.addModel m D) := by
  intro a b
  constructor
  · exact symmFwd_addModel g m D (fun a b => (h a b).mp) a b
  · rw [depsOf_addModel, dependentsOf_addModel]
    by_cases haD : a ∈ D
    · rw [if_pos haD, mem_pyInsert]
      rintro (hb | rfl)
      · have := (h a b).mpr hb
        by_cases hbm : b = m
        · subst hbm
          rw [if_pos rfl]
          exact hsub a this
        · rw [if_neg hbm]
          exact this
      · rw [if_pos rfl]
        exact haD
    · rw [if_neg haD]
      intro hb
      have := (h a b).mpr hb
      by_cases hbm : b = m
      · subst hbm
        exact absurd (hsub a this) haD
      · rw [if_neg hbm]
        exact this

theorem symmIff_removeModel (g : DepGraph) (m : String)
    (h : SymmIff g) : SymmIff (g.removeModel m) := by
  cases hm : g.lookup m with
  | none =>
    unfold DepGraph.removeModel
    rw [hm]
    exact h
  | some node =>
    intro a b
    constructor
    · exact symmFwd_removeModel g m (fun a b => (h a b).mp) a b
    · rw [depsOf_removeModel g m node hm, dependentsOf_removeModel g m node hm]
      by_cases ham : a = m
      · rw [if_pos ham]
        intro hb
        exact absurd hb (List.not_mem_nil b)
      · rw [if_neg ham]
        by_cases had : a ∈ node.dependencies
        · rw [if_pos had, mem_pyDiscard]
          rintro ⟨hb, hbm⟩
          have ha := (h a b).mpr hb
          rw [if_neg hbm]
          by_cases hbd : b ∈ node.dependents
          · rw [if_pos hbd, mem_pyDiscard]
            exact ⟨ha, ham⟩
          · rw [if_neg hbd]
            exact ha
        · rw [if_neg had]
          intro hb
          have hbm : b ≠ m := by
            intro hh
            subst hh
            have := (h a b).mpr hb
            rw [depsOf_eq, hm] at this
            exact had (by simpa using this)
          have ha := (h a b).mpr hb
          rw [if_neg hbm]
          by_cases hbd : b ∈ node.dependents
          · rw [if_pos hbd, mem_pyDiscard]
            exact ⟨ha, ham⟩
          · rw [if_neg hbd]
            exact ha

/-- One `add_model`/`remove_model` call. -/
inductive GraphOp
  | add (name : String) (deps : List String)
  | remove (name : String)
  deriving Repr, DecidableEq

/-- Apply one operation. -/
def applyOp (g : DepGraph) : GraphOp → DepGraph
  | .add n d => g.addModel n d
  | .remove n => g.removeModel n

/-- Apply a sequence of operations. -/
def applyOps (g : DepGraph) (ops : List GraphOp) : DepGraph :=
  ops.foldl applyOp g

/-- The condition under which re-adding keeps the adjacency symmetric: each
`add_model(n, d)` keeps the model's current dependencies (`deps(n) ⊆ d`), so
no stale dependent entry is left behind. -/
def GoodOps : DepGraph → List GraphOp → Prop
  | _, [] => True
  | g, (.add n d) :: ops => (∀ x ∈ g.depsOf n, x ∈ d) ∧ GoodOps (g.addModel n d) ops
  | g, (.remove n) :: ops => GoodOps (g.removeModel n) ops

instance goodOpsDec : (g : DepGraph) → (ops : List GraphOp) → Decidable (GoodOps g ops)
  | _, [] => isTrue trivial
  | g, (.add n d) :: ops =>
    @instDecidableAnd _ _ inferInstance (goodOpsDec (g.addModel n d) ops)
  | g, (.remove n) :: ops => goodOpsDec (g.removeModel n) ops

theorem symmFwd_applyOps : ∀ (ops : List GraphOp) (g : DepGraph),
    SymmFwd g → SymmFwd (applyOps g ops) := by
  intro ops
  induction ops with
  | nil => intro g h; exact h
  | cons op ops ih =>
    intro g h
    cases op with
    | add n d => exact ih _ (symmFwd_addModel g n d h)
    | remove n => exact ih _ (symmFwd_removeModel g n h)

theorem symmIff_applyOps : ∀ (ops : List GraphOp) (g : DepGraph),
    SymmIff g → GoodOps g ops → SymmIff (applyOps g ops) := by
  intro ops
  induction ops with
  | nil => intro g h _; exact h
  | cons op ops ih =>
    intro g h hg
    cases op with
    | add n d => exact ih _ (symmIff_addModel g n d h hg.1) hg.2
    | remove n => exact ih _ (symmIff_removeModel g n h) hg

/-- Counterexample for C9: after `add_model('b', {'a'})` followed by
`add_model('b', ∅)` (re-adding `b` with a smaller dependency set), both `a`
and `b` are present, `b` is still recorded as a dependent of `a`, but `a` is
no longer a dependency of `b`: `add_model` replaces the dependency set
without cleaning the stale reverse edges. -/
theorem graph_symm_claim_false :
    "b" ∈ (applyOps emptyGraph [.add "b" ["a"], .add "b" []]).dependentsOf "a" ∧
    "a" ∉ (applyOps emptyGraph [.add "b" ["a"], .add "b" []]).depsOf "b" ∧
    (applyOps emptyGraph [.add "b" ["a"], .add "b" []]).memKeys "a" ∧
    (applyOps emptyGraph [.add "b" ["a"], .add "b" []]).memKeys "b" := by
  decide

/-- Amended C9: after any sequence of `add_model`/`remove_model` operations
on an initially empty graph, the forward implication
`A ∈ B.dependencies → B ∈ A.dependents` always holds; the full equivalence
`A ∈ B.dependencies ⇔ B ∈ A.dependents` holds provided every `add_model`
call that re-adds an existing model keeps its current dependencies (no
dependency is dropped by a re-add, which is what leaves stale dependents). -/
theorem graph_symm_amended (ops : List GraphOp) :
    SymmFwd (applyOps emptyGraph ops) ∧
    (GoodOps emptyGraph ops → SymmIff (applyOps emptyGraph ops)) := by
  constructor
  · exact symmFwd_applyOps ops emptyGraph (by intro a b hb; exact absurd hb (by simp [DepGraph.depsOf, DepGraph.lookup, emptyGraph]))
  · intro hg
    refine symmIff_applyOps ops emptyGraph ?_ hg
    intro a b
    simp [DepGraph.depsOf, DepGraph.dependentsOf, DepGraph.lookup, emptyGraph]

/-- Witness for C9 (amended) at a concrete operation sequence with a
dependency-keeping re-add and a removal. -/
theorem graph_symm_amended_witness :
    GoodOps emptyGraph [.add "b" ["a"], .add "b" ["a", "c"], .remove "a"] ∧
    SymmIff (applyOps emptyGraph [.add "b" ["a"], .add "b" ["a", "c"], .remove "a"]) :=
  ⟨by decide, (graph_symm_amended [.add "b" ["a"], .add "b" ["a", "c"], .remove "a"]).2
    (by decide)⟩

/-! ## DFS soundness: a reported cycle is a real cycle -/

open DepGraph

theorem pyDiscard_of_not_mem (l : List String) (x : String) (h : x ∉ l) :
    pyDiscard l x = l := by
  unfold pyDiscard
  apply List.filter_eq_self.mpr
  intro a ha
  simp only [decide_eq_true_eq]
  intro he
  exact h (he ▸ ha)

theorem pyDiscard_pyInsert (l : List String) (x : String) (h : x ∉ l) :
    pyDiscard (pyInsert l x) x = l := by
  unfold pyInsert
  rw [if_neg h]
  unfold pyDiscard
  rw [List.filter_append]
  rw [show List.filter (fun y => decide (y ≠ x)) [x] = [] by simp]
  rw [List.append_nil]
  exact pyDiscard_of_not_mem l x h

/-- The DFS state invariant: the path is a dependency chain, the recursion
stack holds exactly the path's members, and the path is visited. -/
def DfsInv (g : DepGraph) (st : DfsState) : Prop :=
  List.Chain' (dependsOn g) st.path ∧
  (∀ x, x ∈ st.recStack ↔ x ∈ st.path) ∧
  (∀ x ∈ st.path, x ∈ st.visited)

/-- What a false-returning DFS call guarantees: path and stack restored,
visited set only grown. -/
def DfsPost (st stq : DfsState) : Prop :=
  stq.path = st.path ∧ stq.recStack = st.recStack ∧ ∀ x ∈ st.visited, x ∈ stq.visited

theorem dfsPost_trans {st1 st2 st3 : DfsState} (h1 : DfsPost st1 st2)
    (h2 : DfsPost st2 st3) : DfsPost st1 st3 :=
  ⟨h2.1.trans h1.1, h2.2.1.trans h1.2.1, fun x hx => h2.2.2 x (h1.2.2 x hx)⟩

theorem chain_reflTransGen (g : DepGraph) :
    ∀ (l : List String) (x lastN : String), List.Chain' (dependsOn g) (x :: l) →
      (x :: l).getLast? = some lastN → Relation.ReflTransGen (dependsOn g) x lastN := by
  intro l
  induction l with
  | nil =>
    intro x lastN _ hlast
    simp only [List.getLast?_singleton, Option.some.injEq] at hlast
    exact hlast ▸ Relation.ReflTransGen.refl
  | cons y l ih =>
    intro x lastN hchain hlast
    rw [List.chain'_cons] at hchain
    exact Relation.ReflTransGen.head hchain.1 (ih y lastN hchain.2 (by simpa using hlast))

theorem chain_cycle (g : DepGraph) (path : List String) (dep lastN : String)
    (hchain : List.Chain' (dependsOn g) path) (hdep : dep ∈ path)
    (hlast : path.getLast? = some lastN) (hedge : dependsOn g lastN dep) :
    TransDep g dep dep := by
  obtain ⟨l1, l2, rfl⟩ := List.append_of_mem hdep
  have hsuf : List.Chain' (dependsOn g) (dep :: l2) :=
    hchain.suffix ⟨l1, rfl⟩
  have hlast2 : (dep :: l2).getLast? = some lastN := by
    rw [List.getLast?_append] at hlast
    cases h2 : (dep :: l2).getLast? with
    | none => simp at h2
    | some z =>
      rw [h2] at hlast
      simpa using hlast
  exact Relation.TransGen.tail' (chain_reflTransGen g l2 dep lastN hsuf hlast2) hedge

theorem dfs_sound (g : DepGraph) : ∀ fuel : Nat,
    (∀ (n : String) (st : DfsState), DfsInv g st → n ∉ st.visited →
      (∀ lastN ∈ st.path.getLast?, dependsOn g lastN n) →
      ((dfsVisit g fuel n st).1 = true → ∃ x, TransDep g x x) ∧
      ((dfsVisit g fuel n st).1 = false →
        DfsPost st (dfsVisit g fuel n st).2 ∧ DfsInv g (dfsVisit g fuel n st).2)) ∧
    (∀ (L : List String) (st : DfsState), DfsInv g st →
      (∀ d ∈ L, ∀ lastN ∈ st.path.getLast?, dependsOn g lastN d) →
      ((dfsDeps g fuel L st).1 = true → ∃ x, TransDep g x x) ∧
      ((dfsDeps g fuel L st).1 = false →
        DfsPost st (dfsDeps g fuel L st).2 ∧ DfsInv g (dfsDeps g fuel L st).2)) := by
  intro fuel
  induction fuel with
  | zero =>
    constructor
    · intro n st hinv _ _
      refine ⟨fun h => absurd h (by rw [dfsVisit]; simp), fun _ => ?_⟩
      rw [dfsVisit]
      exact ⟨⟨rfl, rfl, fun x hx => hx⟩, hinv⟩
    · intro L st hinv _
      refine ⟨fun h => absurd h (by rw [dfsDeps]; simp), fun _ => ?_⟩
      rw [dfsDeps]
      exact ⟨⟨rfl, rfl, fun x hx => hx⟩, hinv⟩
  | succ fuel ih =>
    obtain ⟨ihV, ihD⟩ := ih
    have hVisit : ∀ (n : String) (st : DfsState), DfsInv g st → n ∉ st.visited →
        (∀ lastN ∈ st.path.getLast?, dependsOn g lastN n) →
        ((dfsVisit g (fuel + 1) n st).1 = true → ∃ x, TransDep g x x) ∧
        ((dfsVisit g (fuel + 1) n st).1 = false →
          DfsPost st (dfsVisit g (fuel + 1) n st).2 ∧
          DfsInv g (dfsVisit g (fuel + 1) n st).2) := by
      intro n st hinv hn hlast
      have hnotrec : n ∉ st.recStack := fun h => hn (hinv.2.2 n ((hinv.2.1 n).mp h))
      have hnotpath : n ∉ st.path := fun h => hn (hinv.2.2 n h)
      set st1 : DfsState :=
        ⟨pyInsert st.visited n, pyInsert st.recStack n, st.path ++ [n]⟩ with hst1
      have hinv1 : DfsInv g st1 := by
        refine ⟨?_, ?_, ?_⟩
        · rw [hst1]
          rw [List.chain'_append]
          refine ⟨hinv.1, List.chain'_singleton n, ?_⟩
          intro x hx y hy
          simp only [List.head?_cons, Option.mem_def, Option.some.injEq] at hy
          subst hy
          exact hlast x hx
        · intro x
          rw [hst1]
          simp only [mem_pyInsert, List.mem_append, List.mem_singleton]
          rw [hinv.2.1 x]
        · intro x hx
          rw [hst1] at hx ⊢
          simp only [List.mem_append, List.mem_singleton] at hx
          rcases hx with hx | rfl
          · simp [mem_pyInsert, hinv.2.2 x hx]
          · simp [mem_pyInsert]
      have hlast1 : ∀ d ∈ g.depsOf n, ∀ lastN ∈ st1.path.getLast?, dependsOn g lastN d := by
        intro d hd lastN hl
        rw [hst1] at hl
        simp only [List.getLast?_concat, Option.mem_def, Option.some.injEq] at hl
        subst hl
        exact hd
      have hD := ihD (g.depsOf n) st1 hinv1 hlast1
      rcases hres : dfsDeps g fuel (g.depsOf n) st1 with ⟨b, st2⟩
      cases b with
      | true =>
        constructor
        · intro _
          exact hD.1 (by rw [hres])
        · intro hfalse
          rw [dfsVisit, ← hst1, hres] at hfalse
          simp at hfalse
      | false =>
        have hpost := hD.2 (by rw [hres])
        rw [hres] at hpost
        obtain ⟨⟨hp, hr, hv⟩, hinv2⟩ := hpost
        constructor
        · intro htrue
          rw [dfsVisit, ← hst1, hres] at htrue
          simp at htrue
        · intro _
          rw [dfsVisit, ← hst1, hres]
          simp only []
          constructor
          · refine ⟨?_, ?_, ?_⟩
            · rw [hp, hst1]
              exact List.dropLast_concat
            · rw [hr, hst1]
              exact pyDiscard_pyInsert st.recStack n hnotrec
            · intro x hx
              exact hv x (by rw [hst1]; simp [mem_pyInsert, hx])
          · refine ⟨?_, ?_, ?_⟩
            · rw [hp, hst1]
              rw [List.dropLast_concat]
              exact hinv.1
            · intro x
              rw [hp, hr, hst1]
              rw [List.dropLast_concat, pyDiscard_pyInsert st.recStack n hnotrec]
              exact hinv.2.1 x
            · intro x hx
              rw [hp, hst1, List.dropLast_concat] at hx
              exact hv x (by rw [hst1]; simp [mem_pyInsert, hinv.2.2 x hx])
    refine ⟨hVisit, ?_⟩
    intro L st hinv hlast
    cases L with
    | nil =>
      refine ⟨fun h => absurd h (by rw [dfsDeps]; simp), fun _ => ?_⟩
      rw [dfsDeps]
      exact ⟨⟨rfl, rfl, fun x hx => hx⟩, hinv⟩
    | cons dep rest =>
      by_cases hdv : dep ∈ st.visited
      · by_cases hdr : dep ∈ st.recStack
        · constructor
          · intro _
            have hdp : dep ∈ st.path := (hinv.2.1 dep).mp hdr
            have hne : st.path ≠ [] := by
              intro h
              rw [h] at hdp
              exact absurd hdp (List.not_mem_nil dep)
            obtain ⟨lastN, hlastN⟩ := List.getLast?_isSome.mpr hne |> Option.isSome_iff_exists.mp
            exact ⟨dep, chain_cycle g st.path dep lastN hinv.1 hdp hlastN
              (hlast dep (List.mem_cons_self _ _) lastN hlastN)⟩
          · intro hfalse
            rw [dfsDeps, if_neg (by simpa using hdv), if_pos hdr] at hfalse
            simp at hfalse
        · have hres := ihD rest st hinv
            (fun d hd => hlast d (List.mem_cons_of_mem _ hd))
          constructor
          · intro htrue
            rw [dfsDeps, if_neg (by simpa using hdv), if_neg hdr] at htrue
            exact hres.1 htrue
          · intro hfalse
            rw [dfsDeps, if_neg (by simpa using hdv), if_neg hdr] at hfalse ⊢
            exact hres.2 hfalse
      · have hV := ihV dep st hinv hdv (hlast dep (List.mem_cons_self _ _))
        rcases hres : dfsVisit g fuel dep st with ⟨b, st2⟩
        cases b with
        | true =>
          constructor
          · intro _
            exact hV.1 (by rw [hres])
          · intro hfalse
            rw [dfsDeps, if_pos hdv, hres] at hfalse
            simp at hfalse
        | false =>
          have hpost := hV.2 (by rw [hres])
          rw [hres] at hpost
          obtain ⟨⟨hp, hr, hv⟩, hinv2⟩ := hpost
          have hres2 := ihD rest st2 hinv2
            (fun d hd lastN hl => hlast d (List.mem_cons_of_mem _ hd) lastN (by rw [← hp]; exact hl))
          constructor
          · intro htrue
            rw [dfsDeps, if_pos hdv, hres] at htrue
            exact hres2.1 htrue
          · intro hfalse
            rw [dfsDeps, if_pos hdv, hres] at hfalse ⊢
            refine ⟨dfsPost_trans ⟨hp, hr, hv⟩ (hres2.2 hfalse).1, (hres2.2 hfalse).2⟩

theorem detectLoop_sound (g : DepGraph) (p : List String) :
    ∀ (ks : List String) (st : DfsState), DfsInv g st → st.path = [] →
      detectLoop g ks st = some p → ∃ x, TransDep g x x := by
  intro ks
  induction ks with
  | nil => intro st _ _ h; exact absurd h (by rw [detectLoop]; simp)
  | cons n ns ih =>
    intro st hinv hpath h
    rw [detectLoop] at h
    by_cases hn : n ∈ st.visited
    · rw [if_neg (by simpa using hn)] at h
      exact ih st hinv hpath h
    · rw [if_pos (by simpa using hn)] at h
      have hV := (dfs_sound g (dfsFuel g)).1 n st hinv hn
        (by rw [hpath]; intro lastN hl; simp at hl)
      rcases hres : dfsVisit g (dfsFuel g) n st with ⟨b, st2⟩
      cases b with
      | true => exact hV.1 (by rw [hres])
      | false =>
        rw [hres] at h
        have hpost := hV.2 (by rw [hres])
        rw [hres] at hpost
        exact ih st2 hpost.2 (by rw [hpost.1.1, hpath]) h

/-- On an acyclic graph the cycle detector reports nothing: any reported path
would witness a genuine dependency cycle. -/
theorem acyclic_detect_none (g : DepGraph) (hacyc : Acyclic g) :
    g.detectCircularDependencies = none := by
  cases h : g.detectCircularDependencies with
  | none => rfl
  | some p =>
    obtain ⟨x, hx⟩ := detectLoop_sound g p g.keys ⟨[], [], []⟩
      ⟨List.chain'_nil, fun x => by simp, fun x hx => absurd hx (List.not_mem_nil x)⟩
      rfl h
    exact absurd hx (hacyc x)

/-! ## Bridges between lookup, keys and the well-formedness predicate -/

theorem lookup_mem {g : DepGraph} {n : String} {node : DependencyNode}
    (h : g.lookup n = some node) : (n, node) ∈ g.nodes := by
  unfold DepGraph.lookup at h
  cases hf : g.nodes.find? (fun p => p.1 == n) with
  | none => rw [hf] at h; simp at h
  | some p =>
    rw [hf] at h
    have hp1 : p.1 = n := by simpa using List.find?_some hf
    have hmem := List.mem_of_find?_eq_some hf
    simp only [Option.map_some', Option.some.injEq] at h
    have hpn : p = (n, node) := by
      cases p
      simp_all
    rw [hpn] at hmem
    exact hmem

theorem mem_keys_of_lookup {g : DepGraph} {n : String} {node : DependencyNode}
    (h : g.lookup n = some node) : n ∈ g.keys :=
  List.mem_map.mpr ⟨(n, node), lookup_mem h, rfl⟩

theorem lookup_isSome_of_mem {g : DepGraph} {n : String} (h : n ∈ g.keys) :
    (g.lookup n).isSome := by
  obtain ⟨p, hp, hp1⟩ := List.mem_map.mp h
  have hs : (g.nodes.find? (fun q => q.1 == n)).isSome :=
    List.find?_isSome.mpr ⟨p, hp, by simp [hp1]⟩
  unfold DepGraph.lookup
  cases hf : g.nodes.find? (fun q => q.1 == n) with
  | none => rw [hf] at hs; simp at hs
  | some q => simp

theorem find?_key_of_nodup :
    ∀ (l : List (String × DependencyNode)), (l.map Prod.fst).Nodup →
      ∀ {n : String} {node : DependencyNode}, (n, node) ∈ l →
        l.find? (fun p => p.1 == n) = some (n, node) := by
  intro l
  induction l with
  | nil => intro _ n node h; exact absurd h (List.not_mem_nil _)
  | cons p l ih =>
    intro hnd n node h
    rcases List.mem_cons.mp h with rfl | hmem
    · rw [@List.find?_cons_of_pos _ (fun q => q.1 == n) _ l (by simp)]
    · have hpn : ¬ p.1 = n := by
        intro he
        have hin : p.1 ∈ l.map Prod.fst := by
          rw [he]
          exact List.mem_map.mpr ⟨(n, node), hmem, rfl⟩
        exact (List.nodup_cons.mp (by simpa using hnd)).1 hin
      rw [@List.find?_cons_of_neg _ (fun q => q.1 == n) p l (by simpa using hpn)]
      exact ih (by simpa using (List.nodup_cons.mp (by simpa using hnd)).2) hmem

theorem mem_lookup_of_nodup {g : DepGraph} (hnd : g.keys.Nodup) {n : String}
    {node : DependencyNode} (h : (n, node) ∈ g.nodes) : g.lookup n = some node := by
  unfold DepGraph.lookup
  rw [find?_key_of_nodup g.nodes hnd h]
  rfl

theorem mem_keys_of_depsOf {g : DepGraph} {n d : String} (h : d ∈ g.depsOf n) :
    n ∈ g.keys := by
  unfold DepGraph.depsOf at h
  cases hl : g.lookup n with
  | none => rw [hl] at h; exact absurd h (List.not_mem_nil d)
  | some node => exact mem_keys_of_lookup hl

theorem wf_deps_nodup {g : DepGraph} (hwf : WellFormed g) (n : String) :
    (g.depsOf n).Nodup := by
  unfold DepGraph.depsOf
  cases h : g.lookup n with
  | none => exact List.nodup_nil
  | some node => exact (hwf.2.1 (n, node) (lookup_mem h)).1

theorem wf_dependents_nodup {g : DepGraph} (hwf : WellFormed g) (n : String) :
    (g.dependentsOf n).Nodup := by
  unfold DepGraph.dependentsOf
  cases h : g.lookup n with
  | none => exact List.nodup_nil
  | some node => exact (hwf.2.1 (n, node) (lookup_mem h)).2

theorem wf_dep_edge {g : DepGraph} (hwf : WellFormed g) {n d : String}
    (h : d ∈ g.depsOf n) :
    n ∈ g.keys ∧ d ∈ g.keys ∧ n ∈ g.dependentsOf d := by
  unfold DepGraph.depsOf at h
  cases hl : g.lookup n with
  | none => rw [hl] at h; exact absurd h (List.not_mem_nil d)
  | some node =>
    rw [hl] at h
    have hmem := lookup_mem hl
    have hc := hwf.2.2.1 (n, node) hmem d h
    exact ⟨mem_keys_of_lookup hl, hc.1, hc.2⟩

theorem wf_dependent_edge {g : DepGraph} (hwf : WellFormed g) {d n : String}
    (h : n ∈ g.dependentsOf d) :
    d ∈ g.keys ∧ n ∈ g.keys ∧ d ∈ g.depsOf n := by
  unfold DepGraph.dependentsOf at h
  cases hl : g.lookup d with
  | none => rw [hl] at h; exact absurd h (List.not_mem_nil n)
  | some node =>
    rw [hl] at h
    have hmem := lookup_mem hl
    have hc := hwf.2.2.2 (d, node) hmem n h
    exact ⟨mem_keys_of_lookup hl, hc.1, hc.2⟩

theorem wf_keys_nodup {g : DepGraph} (hwf : WellFormed g) : g.keys.Nodup := hwf.1

/-! ## The in-degree map -/

theorem degOf_cons (p : String × Int) (l : List (String × Int)) (n : String) :
    degOf (p :: l) n = if p.1 = n then p.2 else degOf l n := by
  unfold DepGraph.degOf
  by_cases h : p.1 = n
  · rw [@List.find?_cons_of_pos _ (fun r => r.1 == n) p l (by simp [h]), if_pos h]
    rfl
  · rw [@List.find?_cons_of_neg _ (fun r => r.1 == n) p l (by simp [h]), if_neg h]

theorem bumpDown_cons (p : String × Int) (l : List (String × Int)) (k : String) :
    bumpDown (p :: l) k =
      (if p.1 == k then (p.1, p.2 - 1) else p) :: bumpDown l k := rfl

theorem bumpDown_map_fst (deg : List (String × Int)) (k : String) :
    (bumpDown deg k).map Prod.fst = deg.map Prod.fst := by
  induction deg with
  | nil => rfl
  | cons p l ih =>
    rw [bumpDown_cons, List.map_cons, List.map_cons, ih]
    by_cases h : p.1 = k <;> simp [h]

theorem degOf_bumpDown_ne (deg : List (String × Int)) (k n : String) (hne : n ≠ k) :
    degOf (bumpDown deg k) n = degOf deg n := by
  induction deg with
  | nil => rfl
  | cons p l ih =>
    rw [bumpDown_cons]
    by_cases hpk : p.1 = k
    · rw [if_pos (by simp [hpk])]
      rw [degOf_cons, degOf_cons]
      have hpn : ¬ p.1 = n := fun h => hne (h ▸ hpk ▸ rfl)
      rw [if_neg hpn, if_neg hpn]
      exact ih
    · rw [if_neg (by simp [hpk])]
      rw [degOf_cons, degOf_cons]
      by_cases hpn : p.1 = n
      · rw [if_pos hpn, if_pos hpn]
      · rw [if_neg hpn, if_neg hpn]
        exact ih

theorem degOf_bumpDown_self (deg : List (String × Int)) (k : String)
    (hk : k ∈ deg.map Prod.fst) :
    degOf (bumpDown deg k) k = degOf deg k - 1 := by
  induction deg with
  | nil => simp at hk
  | cons p l ih =>
    rw [bumpDown_cons]
    by_cases hpk : p.1 = k
    · rw [if_pos (by simp [hpk])]
      rw [degOf_cons, degOf_cons]
      simp [hpk]
    · rw [if_neg (by simp [hpk])]
      rw [degOf_cons, degOf_cons, if_neg hpk, if_neg hpk]
      apply ih
      rcases List.mem_map.mp hk with ⟨q, hq, hq1⟩
      rcases List.mem_cons.mp hq with rfl | hq'
      · exact absurd hq1 hpk
      · exact List.mem_map.mpr ⟨q, hq', hq1⟩

theorem degOf_mem (deg : List (String × Int)) (n : String)
    (hn : n ∈ deg.map Prod.fst) : (n, degOf deg n) ∈ deg := by
  induction deg with
  | nil => simp at hn
  | cons p l ih =>
    rw [degOf_cons]
    by_cases hpn : p.1 = n
    · rw [if_pos hpn]
      cases p with
      | mk a v =>
        simp only at hpn
        subst hpn
        exact List.mem_cons_self _ _
    · rw [if_neg hpn]
      apply List.mem_cons_of_mem
      apply ih
      rcases List.mem_map.mp hn with ⟨q, hq, hq1⟩
      rcases List.mem_cons.mp hq with rfl | hq'
      · exact absurd hq1 hpn
      · exact List.mem_map.mpr ⟨q, hq', hq1⟩

theorem degOf_of_mem (deg : List (String × Int)) (hnd : (deg.map Prod.fst).Nodup)
    (p : String × Int) (hp : p ∈ deg) : degOf deg p.1 = p.2 := by
  induction deg with
  | nil => simp at hp
  | cons q l ih =>
    rw [degOf_cons]
    rcases List.mem_cons.mp hp with rfl | hp'
    · rw [if_pos rfl]
    · by_cases hq : q.1 = p.1
      · exfalso
        have hin : q.1 ∈ l.map Prod.fst := hq ▸ List.mem_map.mpr ⟨p, hp', rfl⟩
        exact (List.nodup_cons.mp (by simpa using hnd)).1 hin
      · rw [if_neg hq]
        exact ih (by simpa using (List.nodup_cons.mp (by simpa using hnd)).2) hp'

/-- The number of dependencies of `n` not yet inside the processed set `P`:
the remaining in-degree that the Kahn loop tracks. -/
def remDeg (g : DepGraph) (P : List String) (n : String) : Nat :=
  (g.depsOf n).countP (fun d => decide (d ∉ P))

theorem countP_drop_one (P : List String) (d : String) (hd : d ∉ P) :
    ∀ l : List String, l.Nodup →
      (l.countP (fun x => decide (x ∉ P ++ [d])) : Int) =
        l.countP (fun x => decide (x ∉ P)) - (if d ∈ l then 1 else 0) := by
  intro l
  induction l with
  | nil => simp
  | cons a l ih =>
    intro hl
    have hnd := List.nodup_cons.mp hl
    have ih' := ih hnd.2
    rw [List.countP_cons, List.countP_cons]
    by_cases had : a = d
    · subst had
      rw [if_neg (show ¬(decide (a ∉ P ++ [a])) = true by simp)]
      rw [if_pos (show (decide (a ∉ P)) = true by simpa using hd)]
      rw [if_pos (List.mem_cons_self a l)]
      rw [if_neg hnd.1] at ih'
      push_cast at ih' ⊢
      omega
    · have e1 : (decide (a ∉ P ++ [d])) = (decide (a ∉ P)) := by
        by_cases haP : a ∈ P <;> simp [haP, had]
      rw [e1]
      have hDm : (d ∈ a :: l) ↔ (d ∈ l) :=
        ⟨fun h => (List.mem_cons.mp h).resolve_left (fun h' => had h'.symm),
          List.mem_cons_of_mem a⟩
      by_cases haP : a ∈ P
      · rw [if_neg (show ¬(decide (a ∉ P)) = true by simp [haP])]
        by_cases hdl : d ∈ l
        · rw [if_pos hdl] at ih'
          rw [if_pos (hDm.mpr hdl)]
          push_cast at ih' ⊢
          omega
        · rw [if_neg hdl] at ih'
          rw [if_neg (fun h => hdl (hDm.mp h))]
          push_cast at ih' ⊢
          omega
      · rw [if_pos (show (decide (a ∉ P)) = true by simp [haP])]
        by_cases hdl : d ∈ l
        · rw [if_pos hdl] at ih'
          rw [if_pos (hDm.mpr hdl)]
          push_cast at ih' ⊢
          omega
        · rw [if_neg hdl] at ih'
          rw [if_neg (fun h => hdl (hDm.mp h))]
          push_cast at ih' ⊢
          omega

theorem countP_remaining (P : List String) (d : String) (hdP : d ∉ P)
    (l : List String) (hl : l.Nodup) (hd : d ∈ l) :
    l.countP (fun x => decide (x ∉ P)) = 1 ↔ ∀ x ∈ l, x ∈ P ++ [d] := by
  obtain ⟨s, t, rfl⟩ := List.append_of_mem hd
  have hls := List.nodup_append.mp hl
  have hds : d ∉ s := fun hs => hls.2.2 hs (List.mem_cons_self d t)
  have hdt : d ∉ t := (List.nodup_cons.mp hls.2.1).1
  rw [List.countP_append, List.countP_cons]
  rw [show (decide (d ∉ P)) = true by simpa using hdP, if_pos rfl]
  constructor
  · intro h x hx
    have hzero : s.countP (fun x => decide (x ∉ P)) = 0 ∧
        t.countP (fun x => decide (x ∉ P)) = 0 := by omega
    rcases List.mem_append.mp hx with hx | hx
    · have := List.countP_eq_zero.mp hzero.1 x hx
      simp only [decide_eq_true_eq, not_not] at this
      exact List.mem_append.mpr (Or.inl this)
    · rcases List.mem_cons.mp hx with rfl | hx
      · exact List.mem_append.mpr (Or.inr (List.mem_singleton.mpr rfl))
      · have := List.countP_eq_zero.mp hzero.2 x hx
        simp only [decide_eq_true_eq, not_not] at this
        exact List.mem_append.mpr (Or.inl this)
  · intro h
    have hs : s.countP (fun x => decide (x ∉ P)) = 0 := by
      apply List.countP_eq_zero.mpr
      intro x hx
      simp only [decide_eq_true_eq, not_not]
      rcases List.mem_append.mp (h x (List.mem_append.mpr (Or.inl hx))) with hxP | hxd
      · exact hxP
      · exact absurd ((List.mem_singleton.mp hxd) ▸ hx) hds
    have ht : t.countP (fun x => decide (x ∉ P)) = 0 := by
      apply List.countP_eq_zero.mpr
      intro x hx
      simp only [decide_eq_true_eq, not_not]
      have hxm : x ∈ s ++ d :: t :=
        List.mem_append.mpr (Or.inr (List.mem_cons_of_mem d hx))
      rcases List.mem_append.mp (h x hxm) with hxP | hxd
      · exact hxP
      · exact absurd ((List.mem_singleton.mp hxd) ▸ hx) hdt
    omega

/-! ## Invariants of the level-parallel Kahn loop -/

/-- Invariant of the Kahn state at a level boundary: `P` holds the nodes of
all completed levels (in-degree fully accounted), `queue` the next level. -/
def KahnInv (g : DepGraph) (P : List String) (deg : List (String × Int))
    (queue : List String) : Prop :=
  deg.map Prod.fst = g.keys ∧
  (P ++ queue).Nodup ∧
  (∀ p ∈ P, p ∈ g.keys ∧ g.depsOf p ⊆ P) ∧
  (∀ n ∈ g.keys, degOf deg n = (remDeg g P n : Int)) ∧
  (∀ n, n ∈ queue ↔ n ∈ g.keys ∧ n ∉ P ∧ g.depsOf n ⊆ P)

/-- Invariant of the in-degree map and next-level accumulator after the
already-processed prefix `done` of the current level `Q`. -/
def MidInv (g : DepGraph) (P Q done : List String)
    (st : List (String × Int) × List String) : Prop :=
  st.1.map Prod.fst = g.keys ∧
  (∀ n ∈ g.keys, degOf st.1 n = (remDeg g (P ++ done) n : Int)) ∧
  st.2.Nodup ∧
  (∀ n, n ∈ st.2 ↔ n ∈ g.keys ∧ n ∉ P ∧ n ∉ Q ∧
    ¬ g.depsOf n ⊆ P ∧ g.depsOf n ⊆ P ++ done)

/-- Invariant inside the dependents scan of one processed node `d`: `l0` is
the prefix of `d`'s dependents already decremented. -/
def InnerInv (g : DepGraph) (P Q done : List String) (d : String)
    (l0 : List String) (st : List (String × Int) × List String) : Prop :=
  st.1.map Prod.fst = g.keys ∧
  (∀ n ∈ g.keys, degOf st.1 n =
    (remDeg g (P ++ done) n : Int) - (if n ∈ l0 then 1 else 0)) ∧
  st.2.Nodup ∧
  (∀ n, n ∈ st.2 ↔ n ∈ g.keys ∧ n ∉ P ∧ n ∉ Q ∧ ¬ g.depsOf n ⊆ P ∧
    (g.depsOf n ⊆ P ++ done ∨ (n ∈ l0 ∧ g.depsOf n ⊆ (P ++ done) ++ [d])))

theorem processNode_spec (g : DepGraph) (hwf : WellFormed g)
    (P Q done rest : List String) (d : String)
    (hPQ : (P ++ Q).Nodup)
    (hPcl : ∀ p ∈ P, p ∈ g.keys ∧ g.depsOf p ⊆ P)
    (hQchar : ∀ n, n ∈ Q ↔ n ∈ g.keys ∧ n ∉ P ∧ g.depsOf n ⊆ P)
    (hQsplit : Q = done ++ d :: rest)
    (st : List (String × Int) × List String) (hmid : MidInv g P Q done st) :
    MidInv g P Q (done ++ [d]) (processNode g st d) := by
  have hPQd := List.nodup_append.mp hPQ
  have hdQ : d ∈ Q := by
    rw [hQsplit]
    exact List.mem_append.mpr (Or.inr (List.mem_cons_self d rest))
  have hdK : d ∈ g.keys := ((hQchar d).mp hdQ).1
  have hdP : d ∉ P := ((hQchar d).mp hdQ).2.1
  have hQnd : Q.Nodup := hPQd.2.1
  have hddone : d ∉ done := by
    rw [hQsplit] at hQnd
    have hs := List.nodup_append.mp hQnd
    exact fun hd => hs.2.2 hd (List.mem_cons_self d rest)
  have hdPdone : d ∉ P ++ done := fun h => (List.mem_append.mp h).elim hdP hddone
  have hdDeps : ∀ n, d ∈ g.depsOf n ↔ n ∈ g.dependentsOf d := fun n =>
    ⟨fun h => (wf_dep_edge hwf h).2.2, fun h => (wf_dependent_edge hwf h).2.2⟩
  have aux : ∀ (l l0 : List String), g.dependentsOf d = l0 ++ l →
      ∀ st', InnerInv g P Q done d l0 st' →
        InnerInv g P Q done d (g.dependentsOf d)
          (l.foldl (fun st dependent =>
            let deg := bumpDown st.1 dependent
            if degOf deg dependent = 0 then (deg, st.2 ++ [dependent])
            else (deg, st.2)) st') := by
    intro l
    induction l with
    | nil =>
      intro l0 hsplit st' hinv
      rw [List.foldl_nil, hsplit, List.append_nil]
      exact hinv
    | cons m l ihl =>
      intro l0 hsplit st' hinv
      rw [List.foldl_cons]
      have hmTd : m ∈ g.dependentsOf d := by
        rw [hsplit]
        exact List.mem_append.mpr (Or.inr (List.mem_cons_self m l))
      have hedge := wf_dependent_edge hwf hmTd
      have hmK : m ∈ g.keys := hedge.2.1
      have hdDm : d ∈ g.depsOf m := hedge.2.2
      have hTdNd : (g.dependentsOf d).Nodup := wf_dependents_nodup hwf d
      have hml0 : m ∉ l0 := by
        rw [hsplit] at hTdNd
        have hs := List.nodup_append.mp hTdNd
        exact fun hm => hs.2.2 hm (List.mem_cons_self m l)
      have hnsubPd : ¬ g.depsOf m ⊆ P ++ done := fun hsub => hdPdone (hsub hdDm)
      have hnsubP : ¬ g.depsOf m ⊆ P := fun hsub => hdP (hsub hdDm)
      have hmP : m ∉ P := fun hm => hnsubP (hPcl m hm).2
      have hmQ : m ∉ Q := fun hm => hnsubP ((hQchar m).mp hm).2.2
      have hmacc : m ∉ st'.2 := by
        intro hm
        rcases ((hinv.2.2.2 m).mp hm).2.2.2.2 with hsub | hpair
        · exact hnsubPd hsub
        · exact hml0 hpair.1
      have hmap1 : (bumpDown st'.1 m).map Prod.fst = g.keys := by
        rw [bumpDown_map_fst]
        exact hinv.1
      have hdegm : degOf (bumpDown st'.1 m) m = (remDeg g (P ++ done) m : Int) - 1 := by
        rw [degOf_bumpDown_self _ _ (by rw [hinv.1]; exact hmK)]
        rw [hinv.2.1 m hmK, if_neg hml0]
        omega
      have hdeg1 : ∀ n ∈ g.keys, degOf (bumpDown st'.1 m) n =
          (remDeg g (P ++ done) n : Int) - (if n ∈ l0 ++ [m] then 1 else 0) := by
        intro n hn
        by_cases hnm : n = m
        · subst hnm
          rw [hdegm, if_pos (List.mem_append.mpr (Or.inr (List.mem_singleton.mpr rfl)))]
        · rw [degOf_bumpDown_ne _ _ _ hnm, hinv.2.1 n hn]
          by_cases hnl0 : n ∈ l0
          · rw [if_pos hnl0, if_pos (List.mem_append.mpr (Or.inl hnl0))]
          · rw [if_neg hnl0, if_neg (fun h => (List.mem_append.mp h).elim hnl0
              (fun h' => hnm (List.mem_singleton.mp h')))]
      have hDmNd : (g.depsOf m).Nodup := wf_deps_nodup hwf m
      have hsub_iff : remDeg g (P ++ done) m = 1 ↔
          ∀ x ∈ g.depsOf m, x ∈ (P ++ done) ++ [d] :=
        countP_remaining (P ++ done) d hdPdone (g.depsOf m) hDmNd hdDm
      have hstep : InnerInv g P Q done d (l0 ++ [m])
          (if degOf (bumpDown st'.1 m) m = 0
            then (bumpDown st'.1 m, st'.2 ++ [m])
            else (bumpDown st'.1 m, st'.2)) := by
        by_cases hzero : degOf (bumpDown st'.1 m) m = 0
        · rw [if_pos hzero]
          have hrem : remDeg g (P ++ done) m = 1 := by
            rw [hdegm] at hzero
            omega
          refine ⟨hmap1, hdeg1, ?_, ?_⟩
          · rw [List.nodup_append]
            exact ⟨hinv.2.2.1, List.nodup_singleton m, fun x hx hxm =>
              hmacc ((List.mem_singleton.mp hxm) ▸ hx)⟩
          · intro n
            constructor
            · intro hn
              rcases List.mem_append.mp hn with hn | hn
              · have hc := (hinv.2.2.2 n).mp hn
                refine ⟨hc.1, hc.2.1, hc.2.2.1, hc.2.2.2.1, ?_⟩
                rcases hc.2.2.2.2 with h | hpair
                · exact Or.inl h
                · exact Or.inr ⟨List.mem_append.mpr (Or.inl hpair.1), hpair.2⟩
              · have hnm := List.mem_singleton.mp hn
                subst hnm
                exact ⟨hmK, hmP, hmQ, hnsubP,
                  Or.inr ⟨List.mem_append.mpr (Or.inr (List.mem_singleton.mpr rfl)),
                    fun x hx => hsub_iff.mp hrem x hx⟩⟩
            · rintro ⟨hnK, hnP, hnQ, hnsub, hdisj⟩
              by_cases hnm : n = m
              · subst hnm
                exact List.mem_append.mpr (Or.inr (List.mem_singleton.mpr rfl))
              · apply List.mem_append.mpr
                left
                apply (hinv.2.2.2 n).mpr
                refine ⟨hnK, hnP, hnQ, hnsub, ?_⟩
                rcases hdisj with h | hpair
                · exact Or.inl h
                · rcases List.mem_append.mp hpair.1 with h1 | h1
                  · exact Or.inr ⟨h1, hpair.2⟩
                  · exact absurd (List.mem_singleton.mp h1) hnm
        · rw [if_neg hzero]
          have hrem : remDeg g (P ++ done) m ≠ 1 := by
            intro h
            rw [hdegm, h] at hzero
            simp at hzero
          refine ⟨hmap1, hdeg1, hinv.2.2.1, ?_⟩
          intro n
          rw [hinv.2.2.2 n]
          constructor
          · rintro ⟨hnK, hnP, hnQ, hnsub, hdisj⟩
            refine ⟨hnK, hnP, hnQ, hnsub, ?_⟩
            rcases hdisj with h | hpair
            · exact Or.inl h
            · exact Or.inr ⟨List.mem_append.mpr (Or.inl hpair.1), hpair.2⟩
          · rintro ⟨hnK, hnP, hnQ, hnsub, hdisj⟩
            refine ⟨hnK, hnP, hnQ, hnsub, ?_⟩
            rcases hdisj with h | hpair
            · exact Or.inl h
            · rcases List.mem_append.mp hpair.1 with h1 | h1
              · exact Or.inr ⟨h1, hpair.2⟩
              · exfalso
                have hnm := List.mem_singleton.mp h1
                subst hnm
                exact hrem (hsub_iff.mpr (fun x hx => hpair.2 hx))
      exact ihl (l0 ++ [m]) (by rw [hsplit, List.append_assoc]; rfl) _ hstep
  have h0 : InnerInv g P Q done d [] st := by
    refine ⟨hmid.1, ?_, hmid.2.2.1, ?_⟩
    · intro n hn
      rw [hmid.2.1 n hn, if_neg (List.not_mem_nil n)]
      omega
    · intro n
      rw [hmid.2.2.2 n]
      constructor
      · rintro ⟨hnK, hnP, hnQ, hnsub, hsubd⟩
        exact ⟨hnK, hnP, hnQ, hnsub, Or.inl hsubd⟩
      · rintro ⟨hnK, hnP, hnQ, hnsub, hdisj⟩
        refine ⟨hnK, hnP, hnQ, hnsub, ?_⟩
        rcases hdisj with h | hpair
        · exact h
        · exact absurd hpair.1 (List.not_mem_nil n)
  have hfull := aux (g.dependentsOf d) [] rfl st h0
  show MidInv g P Q (done ++ [d]) ((g.dependentsOf d).foldl
    (fun st dependent =>
      let deg := bumpDown st.1 dependent
      if degOf deg dependent = 0 then (deg, st.2 ++ [dependent])
      else (deg, st.2)) st)
  obtain ⟨hm1, hm2, hm3, hm4⟩ := hfull
  refine ⟨hm1, ?_, hm3, ?_⟩
  · intro n hn
    rw [hm2 n hn]
    have hnd := wf_deps_nodup hwf n
    have hdrop := countP_drop_one (P ++ done) d hdPdone (g.depsOf n) hnd
    have hrem_eq : (remDeg g (P ++ (done ++ [d])) n : Int) =
        (remDeg g (P ++ done) n : Int) - (if d ∈ g.depsOf n then 1 else 0) := by
      unfold remDeg
      rw [← List.append_assoc]
      exact hdrop
    rw [hrem_eq]
    by_cases hnTd : n ∈ g.dependentsOf d
    · rw [if_pos hnTd, if_pos ((hdDeps n).mpr hnTd)]
    · rw [if_neg hnTd, if_neg (fun h => hnTd ((hdDeps n).mp h))]
  · intro n
    rw [hm4 n]
    constructor
    · rintro ⟨hnK, hnP, hnQ, hnsub, hdisj⟩
      refine ⟨hnK, hnP, hnQ, hnsub, ?_⟩
      rcases hdisj with h | hpair
      · intro x hx
        rcases List.mem_append.mp (h hx) with h' | h'
        · exact List.mem_append.mpr (Or.inl h')
        · exact List.mem_append.mpr (Or.inr (List.mem_append.mpr (Or.inl h')))
      · intro x hx
        have hxm := hpair.2 hx
        rwa [List.append_assoc] at hxm
    · rintro ⟨hnK, hnP, hnQ, hnsub, hsub⟩
      refine ⟨hnK, hnP, hnQ, hnsub, ?_⟩
      by_cases hdn : d ∈ g.depsOf n
      · right
        refine ⟨(hdDeps n).mp hdn, ?_⟩
        intro x hx
        have hxm := hsub hx
        rwa [← List.append_assoc] at hxm
      · left
        intro x hx
        have hxm := hsub hx
        rcases List.mem_append.mp hxm with h | h
        · exact List.mem_append.mpr (Or.inl h)
        · rcases List.mem_append.mp h with h | h
          · exact List.mem_append.mpr (Or.inr h)
          · exact absurd ((List.mem_singleton.mp h) ▸ hx) hdn

theorem kahnLevel_spec (g : DepGraph) (hwf : WellFormed g) (P : List String)
    (deg : List (String × Int)) (queue : List String)
    (hinv : KahnInv g P deg queue) :
    KahnInv g (P ++ queue) (kahnLevel g deg queue).1 (kahnLevel g deg queue).2 := by
  obtain ⟨hmap, hnd, hPcl, hdeg, hqchar⟩ := hinv
  have main : ∀ (rest done : List String), queue = done ++ rest →
      ∀ st, MidInv g P queue done st →
        MidInv g P queue (done ++ rest)
          (rest.foldl (fun st n => processNode g st n) st) := by
    intro rest
    induction rest with
    | nil =>
      intro done h st hst
      rw [List.foldl_nil, List.append_nil]
      exact hst
    | cons dd rest ih =>
      intro done h st hst
      rw [List.foldl_cons]
      have hproc := processNode_spec g hwf P queue done rest dd hnd hPcl hqchar h st hst
      have hrec := ih (done ++ [dd]) (by rw [h, List.append_assoc]; rfl) _ hproc
      rw [List.append_assoc] at hrec
      exact hrec
  have h0 : MidInv g P queue [] (deg, []) := by
    refine ⟨hmap, ?_, List.nodup_nil, ?_⟩
    · intro n hn
      rw [List.append_nil]
      exact hdeg n hn
    · intro n
      simp only [List.not_mem_nil, false_iff]
      rintro ⟨_, _, _, hnsub, hsub⟩
      rw [List.append_nil] at hsub
      exact hnsub hsub
  have hmid := main queue [] rfl (deg, []) h0
  rw [List.nil_append] at hmid
  obtain ⟨hm1, hm2, hm3, hm4⟩ := hmid
  have hkl : kahnLevel g deg queue =
      queue.foldl (fun st n => processNode g st n) (deg, []) := rfl
  rw [hkl]
  refine ⟨hm1, ?_, ?_, ?_, ?_⟩
  · rw [List.nodup_append]
    refine ⟨hnd, hm3, ?_⟩
    intro x hx hxacc
    have hc := (hm4 x).mp hxacc
    rcases List.mem_append.mp hx with h | h
    · exact hc.2.1 h
    · exact hc.2.2.1 h
  · intro p hp
    rcases List.mem_append.mp hp with h | h
    · exact ⟨(hPcl p h).1, fun x hx => List.mem_append.mpr (Or.inl ((hPcl p h).2 hx))⟩
    · have hc := (hqchar p).mp h
      exact ⟨hc.1, fun x hx => List.mem_append.mpr (Or.inl (hc.2.2 hx))⟩
  · intro n hn
    exact hm2 n hn
  · intro n
    rw [hm4 n]
    constructor
    · rintro ⟨hnK, hnP, hnQ, _, hsub⟩
      exact ⟨hnK, fun h => (List.mem_append.mp h).elim hnP hnQ, hsub⟩
    · rintro ⟨hnK, hnPQ, hsub⟩
      have hnP : n ∉ P := fun h => hnPQ (List.mem_append.mpr (Or.inl h))
      have hnQ : n ∉ queue := fun h => hnPQ (List.mem_append.mpr (Or.inr h))
      refine ⟨hnK, hnP, hnQ, ?_, hsub⟩
      intro hsubP
      exact hnQ ((hqchar n).mpr ⟨hnK, hnP, hsubP⟩)

/-- Every node of a level has all its dependencies inside the prefix of
earlier levels (on top of the initially-processed set `P`). -/
def GoodLevels (g : DepGraph) : List String → List (List String) → Prop
  | _, [] => True
  | P, lvl :: rest => (∀ m ∈ lvl, g.depsOf m ⊆ P) ∧ GoodLevels g (P ++ lvl) rest

/-- On an acyclic well-formed graph, any nonempty unprocessed set contains a
node all of whose dependencies are processed. -/
theorem exists_source (g : DepGraph) (hwf : WellFormed g) (hacyc : Acyclic g)
    (P : List String) (n : String) (hn : n ∈ g.keys) (hnP : n ∉ P) :
    ∃ m ∈ g.keys, m ∉ P ∧ g.depsOf m ⊆ P := by
  classical
  haveI h1 : IsTrans String (Relation.TransGen (fun a b => dependsOn g b a)) :=
    ⟨fun _ _ _ hab hbc => Relation.TransGen.trans hab hbc⟩
  haveI h2 : IsIrrefl String (Relation.TransGen (fun a b => dependsOn g b a)) :=
    ⟨fun a ha => hacyc a (Relation.transGen_swap.mp ha)⟩
  haveI h3 : IsStrictOrder String (Relation.TransGen (fun a b => dependsOn g b a)) :=
    { toIsIrrefl := h2, toIsTrans := h1 }
  have hfin : {x : String | x ∈ g.keys ∧ x ∉ P}.Finite := by
    apply Set.Finite.subset (List.finite_toSet g.keys)
    intro x hx
    exact hx.1
  have hwfd := @Set.Finite.wellFoundedOn String
    (Relation.TransGen (fun a b => dependsOn g b a)) h3 _ hfin
  rw [Set.wellFoundedOn_iff] at hwfd
  obtain ⟨m, hmS, hmin⟩ :=
    hwfd.has_min {x : String | x ∈ g.keys ∧ x ∉ P} ⟨n, hn, hnP⟩
  refine ⟨m, hmS.1, hmS.2, ?_⟩
  intro x hx
  by_contra hxP
  have hxK : x ∈ g.keys := (wf_dep_edge hwf hx).2.1
  exact hmin x ⟨hxK, hxP⟩ ⟨Relation.TransGen.single hx, ⟨hxK, hxP⟩, hmS⟩

theorem subset_of_le_length {P K : List String} (hP : P.Nodup)
    (hPK : ∀ p ∈ P, p ∈ K) (hK : K.Nodup) (hlen : K.length ≤ P.length) :
    ∀ n ∈ K, n ∈ P := by
  classical
  have hsub : P.toFinset ⊆ K.toFinset := by
    intro x hx
    exact List.mem_toFinset.mpr (hPK x (List.mem_toFinset.mp hx))
  have hcard : K.toFinset.card ≤ P.toFinset.card := by
    rw [List.toFinset_card_of_nodup hP, List.toFinset_card_of_nodup hK]
    exact hlen
  have heq := Finset.eq_of_subset_of_card_le hsub hcard
  intro n hn
  have hn' : n ∈ K.toFinset := List.mem_toFinset.mpr hn
  rw [← heq] at hn'
  exact List.mem_toFinset.mp hn'

theorem kahnLoop_spec (g : DepGraph) (hwf : WellFormed g) (hacyc : Acyclic g) :
    ∀ (fuel : Nat) (P : List String) (deg : List (String × Int))
      (queue : List String),
      KahnInv g P deg queue → g.keys.length ≤ fuel + P.length →
      (∀ n ∈ g.keys, n ∈ P ∨ n ∈ (kahnLoop g fuel deg queue).flatten) ∧
      (P ++ (kahnLoop g fuel deg queue).flatten).Nodup ∧
      (∀ n ∈ (kahnLoop g fuel deg queue).flatten, n ∈ g.keys) ∧
      GoodLevels g P (kahnLoop g fuel deg queue) := by
  intro fuel
  induction fuel with
  | zero =>
    intro P deg queue hinv hfuel
    have hstep : kahnLoop g 0 deg queue = [] := by rw [kahnLoop]
    rw [hstep]
    refine ⟨?_, ?_, ?_, trivial⟩
    · intro n hn
      left
      have hPnd : P.Nodup := (List.nodup_append.mp hinv.2.1).1
      exact subset_of_le_length hPnd (fun p hp => (hinv.2.2.1 p hp).1)
        (wf_keys_nodup hwf) (by omega) n hn
    · simpa using (List.nodup_append.mp hinv.2.1).1
    · intro n hn
      simp at hn
  | succ fuel ih =>
    intro P deg queue hinv hfuel
    by_cases hq : queue = []
    · have hstep : kahnLoop g (fuel + 1) deg queue = [] := by
        rw [kahnLoop, if_pos hq]
      rw [hstep]
      refine ⟨?_, ?_, ?_, trivial⟩
      · intro n hn
        left
        by_contra hnP
        obtain ⟨m, hmK, hmP, hmsub⟩ := exists_source g hwf hacyc P n hn hnP
        have hmq : m ∈ queue := (hinv.2.2.2.2 m).mpr ⟨hmK, hmP, hmsub⟩
        rw [hq] at hmq
        exact absurd hmq (List.not_mem_nil m)
      · simpa using (List.nodup_append.mp hinv.2.1).1
      · intro n hn
        simp at hn
    · have hstep : kahnLoop g (fuel + 1) deg queue =
          queue :: kahnLoop g fuel (kahnLevel g deg queue).1 (kahnLevel g deg queue).2 := by
        rw [kahnLoop, if_neg hq]
      rw [hstep]
      have hlev := kahnLevel_spec g hwf P deg queue hinv
      have hql : 1 ≤ queue.length := List.length_pos.mpr hq
      have hfl : g.keys.length ≤ fuel + (P ++ queue).length := by
        rw [List.length_append]
        omega
      have hrec := ih (P ++ queue) (kahnLevel g deg queue).1
        (kahnLevel g deg queue).2 hlev hfl
      refine ⟨?_, ?_, ?_, ?_⟩
      · intro n hn
        rcases hrec.1 n hn with h | h
        · rcases List.mem_append.mp h with h | h
          · exact Or.inl h
          · refine Or.inr ?_
            rw [List.flatten_cons]
            exact List.mem_append.mpr (Or.inl h)
        · refine Or.inr ?_
          rw [List.flatten_cons]
          exact List.mem_append.mpr (Or.inr h)
      · rw [List.flatten_cons, ← List.append_assoc]
        exact hrec.2.1
      · intro n hn
        rw [List.flatten_cons] at hn
        rcases List.mem_append.mp hn with h | h
        · exact ((hinv.2.2.2.2 n).mp h).1
        · exact hrec.2.2.1 n h
      · exact ⟨fun m hm => ((hinv.2.2.2.2 m).mp hm).2.2, hrec.2.2.2⟩

theorem find?_map_keychange {α β : Type} (x : String) (f : String × α → String × β)
    (hf : ∀ p, (f p).1 = p.1) :
    ∀ l : List (String × α),
      (l.map f).find? (fun p => p.1 == x) = (l.find? (fun p => p.1 == x)).map f := by
  intro l
  induction l with
  | nil => rfl
  | cons p l ih =>
    by_cases h : (p.1 == x) = true
    · rw [List.map_cons,
        @List.find?_cons_of_pos _ (fun q => q.1 == x) (f p) (l.map f) (by simpa [hf] using h),
        @List.find?_cons_of_pos _ (fun q => q.1 == x) p l h]
      simp
    · rw [List.map_cons,
        @List.find?_cons_of_neg _ (fun q => q.1 == x) (f p) (l.map f) (by simpa [hf] using h),
        @List.find?_cons_of_neg _ (fun q => q.1 == x) p l h]
      exact ih

theorem remDeg_nil (g : DepGraph) (n : String) :
    remDeg g [] n = (g.depsOf n).length := by
  unfold remDeg
  apply List.countP_eq_length.mpr
  intro a _
  simp

/-- On a well-formed acyclic graph `topological_sort` succeeds, and its levels
enumerate every node exactly once in a dependency-closed order. -/
theorem topologicalSort_ok (g : DepGraph) (hwf : WellFormed g)
    (hacyc : Acyclic g) :
    ∃ res, g.topologicalSort = .ok res ∧
      (∀ n, n ∈ res.flatten ↔ n ∈ g.keys) ∧ res.flatten.Nodup ∧
      GoodLevels g [] res := by
  classical
  have hdet := acyclic_detect_none g hacyc
  have hmapfst : (g.nodes.map
      (fun p => (p.1, (p.2.dependencies.length : Int)))).map Prod.fst = g.keys := by
    rw [List.map_map]
    rfl
  have hdeg0 : ∀ n ∈ g.keys,
      degOf (g.nodes.map (fun p => (p.1, (p.2.dependencies.length : Int)))) n =
        (remDeg g [] n : Int) := by
    intro n hn
    obtain ⟨node, hlook⟩ := Option.isSome_iff_exists.mp (lookup_isSome_of_mem hn)
    have hfind := find?_key_of_nodup g.nodes (wf_keys_nodup hwf) (lookup_mem hlook)
    unfold DepGraph.degOf
    have hkc := @find?_map_keychange DependencyNode Int n
      (fun p => (p.1, (p.2.dependencies.length : Int))) (fun p => rfl) g.nodes
    rw [hkc, hfind]
    have hdeps : g.depsOf n = node.dependencies := by
      unfold DepGraph.depsOf
      rw [hlook]
    rw [remDeg_nil, hdeps]
    rfl
  have hq0 : ∀ n,
      n ∈ ((g.nodes.map (fun p => (p.1, (p.2.dependencies.length : Int)))).filter
        (fun p => p.2 = 0)).map (·.1) ↔
      n ∈ g.keys ∧ n ∉ ([] : List String) ∧ g.depsOf n ⊆ [] := by
    intro n
    constructor
    · intro hn
      obtain ⟨p, hp, hp1⟩ := List.mem_map.mp hn
      have hpf := List.mem_filter.mp hp
      have hnK : n ∈ g.keys := by
        rw [← hmapfst]
        exact hp1 ▸ List.mem_map.mpr ⟨p, hpf.1, rfl⟩
      have hdeg := degOf_of_mem _ (by rw [hmapfst]; exact wf_keys_nodup hwf) p hpf.1
      have hz : p.2 = 0 := by simpa using hpf.2
      have hdeg' : degOf (g.nodes.map (fun p => (p.1, (p.2.dependencies.length : Int)))) n
          = p.2 := by
        rw [← hp1]
        exact hdeg
      have hlen : (remDeg g [] n : Int) = 0 := by
        rw [← hdeg0 n hnK, hdeg', hz]
      have hnil : g.depsOf n = [] := by
        apply List.length_eq_zero.mp
        rw [← remDeg_nil]
        omega
      refine ⟨hnK, List.not_mem_nil n, ?_⟩
      rw [hnil]
      exact fun x hx => hx
    · rintro ⟨hnK, _, hsub⟩
      have hnil : g.depsOf n = [] := List.subset_nil.mp hsub
      have hdz : degOf (g.nodes.map (fun p => (p.1, (p.2.dependencies.length : Int)))) n
          = 0 := by
        rw [hdeg0 n hnK, remDeg_nil, hnil]
        rfl
      have hmem : (n, (0 : Int)) ∈
          g.nodes.map (fun p => (p.1, (p.2.dependencies.length : Int))) := by
        have := degOf_mem (g.nodes.map (fun p => (p.1, (p.2.dependencies.length : Int))))
          n (by rw [hmapfst]; exact hnK)
        rwa [hdz] at this
      apply List.mem_map.mpr
      refine ⟨(n, (0 : Int)), List.mem_filter.mpr ⟨hmem, by simp⟩, rfl⟩
  have hinit : KahnInv g []
      (g.nodes.map (fun p => (p.1, (p.2.dependencies.length : Int))))
      (((g.nodes.map (fun p => (p.1, (p.2.dependencies.length : Int)))).filter
        (fun p => p.2 = 0)).map (·.1)) := by
    refine ⟨hmapfst, ?_, ?_, hdeg0, hq0⟩
    · rw [List.nil_append]
      apply List.Nodup.sublist (List.Sublist.map _ (List.filter_sublist _))
      rw [hmapfst]
      exact wf_keys_nodup hwf
    · intro p hp
      exact absurd hp (List.not_mem_nil p)
  have hfuel : g.keys.length ≤ (g.nodes.length + 1) + ([] : List String).length := by
    unfold DepGraph.keys
    rw [List.length_map]
    simp
  obtain ⟨hcomp, hnd, hkeys, hgl⟩ :=
    kahnLoop_spec g hwf hacyc (g.nodes.length + 1) [] _ _ hinit hfuel
  rw [List.nil_append] at hnd
  refine ⟨kahnLoop g (g.nodes.length + 1)
    (g.nodes.map (fun p => (p.1, (p.2.dependencies.length : Int))))
    (((g.nodes.map (fun p => (p.1, (p.2.dependencies.length : Int)))).filter
      (fun p => p.2 = 0)).map (·.1)), ?_, ?_, hnd, hgl⟩
  · have hmemiff : ∀ n, n ∈ (kahnLoop g (g.nodes.length + 1)
        (g.nodes.map (fun p => (p.1, (p.2.dependencies.length : Int))))
        (((g.nodes.map (fun p => (p.1, (p.2.dependencies.length : Int)))).filter
          (fun p => p.2 = 0)).map (·.1))).flatten ↔ n ∈ g.keys := by
      intro n
      constructor
      · exact hkeys n
      · intro hn
        rcases hcomp n hn with h | h
        · exact absurd h (List.not_mem_nil n)
        · exact h
    have hlen : ((kahnLoop g (g.nodes.length + 1)
        (g.nodes.map (fun p => (p.1, (p.2.dependencies.length : Int))))
        (((g.nodes.map (fun p => (p.1, (p.2.dependencies.length : Int)))).filter
          (fun p => p.2 = 0)).map (·.1))).map List.length).sum = g.nodes.length := by
      rw [← List.length_flatten]
      have hfin : (List.flatten (kahnLoop g (g.nodes.length + 1)
          (g.nodes.map (fun p => (p.1, (p.2.dependencies.length : Int))))
          (((g.nodes.map (fun p => (p.1, (p.2.dependencies.length : Int)))).filter
            (fun p => p.2 = 0)).map (·.1)))).toFinset = g.keys.toFinset := by
        apply Finset.ext
        intro x
        rw [List.mem_toFinset, List.mem_toFinset]
        exact hmemiff x
      have h1 := List.toFinset_card_of_nodup hnd
      have h2 := List.toFinset_card_of_nodup (wf_keys_nodup hwf)
      have h3 : g.keys.length = g.nodes.length := by
        unfold DepGraph.keys
        rw [List.length_map]
      rw [hfin, h2, h3] at h1
      exact h1.symm
    unfold DepGraph.topologicalSort
    rw [hdet]
    simp only [hlen]
    rw [if_neg (by simp)]
  · intro n
    constructor
    · exact hkeys n
    · intro hn
      rcases hcomp n hn with h | h
      · exact absurd h (List.not_mem_nil n)
      · exact h

theorem goodLevels_earlier (g : DepGraph) :
    ∀ (res : List (List String)) (P : List String), GoodLevels g P res →
      ∀ (j : Nat), j < res.length → ∀ B ∈ res.getD j [], ∀ A ∈ g.depsOf B,
        A ∈ P ∨ ∃ i, i < j ∧ A ∈ res.getD i [] := by
  intro res
  induction res with
  | nil =>
    intro P _ j hj
    simp at hj
  | cons lvl rest ih =>
    intro P hgl j hj B hB A hA
    obtain ⟨h1, h2⟩ := hgl
    cases j with
    | zero =>
      rw [List.getD_cons_zero] at hB
      exact Or.inl (h1 B hB hA)
    | succ j =>
      rw [List.getD_cons_succ] at hB
      rcases ih (P ++ lvl) h2 j (by simpa using hj) B hB A hA with h | ⟨i, hi, hAi⟩
      · rcases List.mem_append.mp h with h | h
        · exact Or.inl h
        · refine Or.inr ⟨0, Nat.succ_pos j, ?_⟩
          rw [List.getD_cons_zero]
          exact h
      · refine Or.inr ⟨i + 1, Nat.succ_lt_succ hi, ?_⟩
        rw [List.getD_cons_succ]
        exact hAi

theorem mem_flatten_getD (res : List (List String)) (B : String)
    (h : B ∈ res.flatten) : ∃ j, j < res.length ∧ B ∈ res.getD j [] := by
  induction res with
  | nil => simp at h
  | cons lvl rest ih =>
    rw [List.flatten_cons] at h
    rcases List.mem_append.mp h with h | h
    · exact ⟨0, by simp, by rw [List.getD_cons_zero]; exact h⟩
    · obtain ⟨j, hj, hB⟩ := ih h
      exact ⟨j + 1, by simpa using hj, by rw [List.getD_cons_succ]; exact hB⟩

/-! ## Claim C2 — correctness of `topological_sort` -/

/-- Claim C2: on a well-formed dependency graph with no cycles,
`topological_sort` succeeds with a list of levels in which every node of the
graph appears exactly once, and whenever model `A` is a dependency of model
`B`, `A` appears in a strictly earlier level than `B`. -/
theorem topological_sort_correct (g : DepGraph) (hwf : WellFormed g)
    (hacyc : Acyclic g) :
    ∃ res, g.topologicalSort = .ok res ∧
      (∀ n, res.flatten.count n = if n ∈ g.keys then 1 else 0) ∧
      (∀ A B, dependsOn g B A →
        ∃ i j, i < j ∧ j < res.length ∧ A ∈ res.getD i [] ∧ B ∈ res.getD j []) := by
  obtain ⟨res, hok, hmem, hnd, hgl⟩ := topologicalSort_ok g hwf hacyc
  refine ⟨res, hok, ?_, ?_⟩
  · intro n
    by_cases hn : n ∈ g.keys
    · rw [if_pos hn]
      exact List.count_eq_one_of_mem hnd ((hmem n).mpr hn)
    · rw [if_neg hn]
      exact List.count_eq_zero_of_not_mem (fun h => hn ((hmem n).mp h))
  · intro A B hdep
    have hBk : B ∈ g.keys := mem_keys_of_depsOf hdep
    obtain ⟨j, hj, hBj⟩ := mem_flatten_getD res B ((hmem B).mpr hBk)
    rcases goodLevels_earlier g res [] hgl j hj B hBj A hdep with h | ⟨i, hij, hAi⟩
    · exact absurd h (List.not_mem_nil A)
    · exact ⟨i, j, hij, hj, hAi, hBj⟩

/-- The concrete two-node graph `b` depends on `a`, used to witness C2. -/
def kahnWitnessGraph : DepGraph := emptyGraph.addModel "b" ["a"]

theorem kahnWitnessGraph_edges {x y : String}
    (h : dependsOn kahnWitnessGraph x y) : x = "b" ∧ y = "a" := by
  have hnodes : kahnWitnessGraph.nodes =
      [("b", ⟨"b", ["a"], []⟩), ("a", ⟨"a", [], ["b"]⟩)] := by rfl
  unfold dependsOn at h
  unfold DepGraph.depsOf at h
  cases hl : kahnWitnessGraph.lookup x with
  | none =>
    rw [hl] at h
    exact absurd h (List.not_mem_nil y)
  | some node =>
    rw [hl] at h
    have hmem := lookup_mem hl
    rw [hnodes] at hmem
    rcases List.mem_cons.mp hmem with he | hmem
    · have hx : x = "b" := by
        have := congrArg Prod.fst he
        simpa using this
      have hnd : node = ⟨"b", ["a"], []⟩ := by
        have := congrArg Prod.snd he
        simpa using this
      rw [hnd] at h
      exact ⟨hx, List.mem_singleton.mp h⟩
    · rcases List.mem_cons.mp hmem with he | hmem
      · exfalso
        have hnd : node = ⟨"a", [], ["b"]⟩ := by
          have := congrArg Prod.snd he
          simpa using this
        rw [hnd] at h
        exact absurd h (List.not_mem_nil y)
      · exact absurd hmem (List.not_mem_nil _)

theorem kahnWitnessGraph_acyclic : Acyclic kahnWitnessGraph := by
  intro n hn
  obtain ⟨c, hc, hrest⟩ := Relation.TransGen.head'_iff.mp hn
  obtain ⟨hnb, hca⟩ := kahnWitnessGraph_edges hc
  subst hnb hca
  rcases Relation.ReflTransGen.cases_head hrest with he | ⟨c2, hc2, _⟩
  · exact absurd he (by decide)
  · exact absurd (kahnWitnessGraph_edges hc2).1 (by decide)

/-- Witness for C2 on the concrete graph where `b` depends on `a`. -/
theorem topological_sort_correct_witness :
    WellFormed kahnWitnessGraph ∧ Acyclic kahnWitnessGraph ∧
      ∃ res, kahnWitnessGraph.topologicalSort = .ok res ∧
        (∀ n, res.flatten.count n = if n ∈ kahnWitnessGraph.keys then 1 else 0) ∧
        (∀ A B, dependsOn kahnWitnessGraph B A →
          ∃ i j, i < j ∧ j < res.length ∧ A ∈ res.getD i [] ∧ B ∈ res.getD j []) :=
  ⟨by decide, kahnWitnessGraph_acyclic,
    topological_sort_correct kahnWitnessGraph (by decide) kahnWitnessGraph_acyclic⟩

/-! ## Characterization of `get_all_dependencies` -/

theorem traverseDeps_succ_mem (g : DepGraph) (fuel : Nat) (name : String)
    (st : List String × List String) (h : name ∈ st.2) :
    traverseDeps g (fuel + 1) name st = st := by
  rw [traverseDeps, if_pos h]

theorem traverseDeps_succ_not_mem (g : DepGraph) (fuel : Nat) (name : String)
    (st : List String × List String) (h : name ∉ st.2) :
    traverseDeps g (fuel + 1) name st =
      (g.depsOf name).foldl
        (fun st dep => traverseDeps g fuel dep (pyInsert st.1 dep, st.2))
        (st.1, pyInsert st.2 name) := by
  rw [traverseDeps, if_neg h]

theorem traverse_sound (g : DepGraph) (m : String) :
    ∀ (fuel : Nat) (name : String) (st : List String × List String),
      Relation.ReflTransGen (dependsOn g) m name →
      (∀ x ∈ st.1, TransDep g m x) →
      ∀ x ∈ (traverseDeps g fuel name st).1, TransDep g m x := by
  intro fuel
  induction fuel with
  | zero =>
    intro name st _ hst x hx
    exact hst x hx
  | succ fuel ih =>
    intro name st hname hst x hx
    by_cases hv : name ∈ st.2
    · rw [traverseDeps_succ_mem g fuel name st hv] at hx
      exact hst x hx
    · rw [traverseDeps_succ_not_mem g fuel name st hv] at hx
      have aux : ∀ (l : List String) (st' : List String × List String),
          (∀ d ∈ l, TransDep g m d) → (∀ y ∈ st'.1, TransDep g m y) →
          ∀ y ∈ (l.foldl (fun st dep =>
            traverseDeps g fuel dep (pyInsert st.1 dep, st.2)) st').1,
            TransDep g m y := by
        intro l
        induction l with
        | nil =>
          intro st' _ hst' y hy
          exact hst' y hy
        | cons dep l ihl =>
          intro st' hdeps hst' y hy
          rw [List.foldl_cons] at hy
          refine ihl _ (fun d hd => hdeps d (List.mem_cons_of_mem _ hd)) ?_ y hy
          intro z hz
          refine ih dep (pyInsert st'.1 dep, st'.2)
            ((hdeps dep (List.mem_cons_self _ _)).to_reflTransGen) ?_ z hz
          intro w hw
          rcases (mem_pyInsert _ _ _).mp hw with hw | hw
          · exact hst' w hw
          · rw [hw]
            exact hdeps dep (List.mem_cons_self _ _)
      exact aux (g.depsOf name) (st.1, pyInsert st.2 name)
        (fun d hd => Relation.TransGen.tail' hname hd) hst x hx

theorem filter_visited_decrease (keys visited : List String) (name : String)
    (hk : name ∈ keys) (hv : name ∉ visited) :
    (keys.filter (fun k => decide (k ∉ pyInsert visited name))).length <
      (keys.filter (fun k => decide (k ∉ visited))).length := by
  have h1 : keys.filter (fun k => decide (k ∉ pyInsert visited name)) =
      (keys.filter (fun k => decide (k ∉ visited))).filter
        (fun k => decide (k ≠ name)) := by
    rw [List.filter_filter]
    apply List.filter_congr
    intro a _
    by_cases h1 : a ∈ visited <;> by_cases h2 : a = name <;>
      simp [mem_pyInsert, h1, h2]
  rw [h1]
  apply List.length_filter_lt_length_iff_exists.mpr
  exact ⟨name, List.mem_filter.mpr ⟨hk, by simpa using hv⟩, by simp⟩

theorem traverse_complete (g : DepGraph) (hwf : WellFormed g) :
    ∀ (fuel : Nat) (name : String) (st : List String × List String),
      name ∈ g.keys →
      (g.keys.filter (fun k => decide (k ∉ st.2))).length < fuel →
      (∀ x ∈ st.1, x ∈ (traverseDeps g fuel name st).1) ∧
      (∀ x ∈ st.2, x ∈ (traverseDeps g fuel name st).2) ∧
      name ∈ (traverseDeps g fuel name st).2 ∧
      (∀ x ∈ (traverseDeps g fuel name st).2, x ∉ st.2 →
        ∀ d ∈ g.depsOf x, d ∈ (traverseDeps g fuel name st).1 ∧
          d ∈ (traverseDeps g fuel name st).2) := by
  intro fuel
  induction fuel with
  | zero =>
    intro name st _ hbound
    exact absurd hbound (Nat.not_lt_zero _)
  | succ fuel ih =>
    intro name st hname hbound
    by_cases hv : name ∈ st.2
    · rw [traverseDeps_succ_mem g fuel name st hv]
      exact ⟨fun x hx => hx, fun x hx => hx, hv,
        fun x hx hnx => absurd hx hnx⟩
    · rw [traverseDeps_succ_not_mem g fuel name st hv]
      have hbound1 : (g.keys.filter
          (fun k => decide (k ∉ pyInsert st.2 name))).length < fuel := by
        have := filter_visited_decrease g.keys st.2 name hname hv
        omega
      have aux : ∀ (l : List String) (st' : List String × List String),
          (∀ d ∈ l, d ∈ g.keys) →
          (g.keys.filter (fun k => decide (k ∉ st'.2))).length < fuel →
          (∀ x ∈ st'.1, x ∈ (l.foldl (fun st dep =>
            traverseDeps g fuel dep (pyInsert st.1 dep, st.2)) st').1) ∧
          (∀ x ∈ st'.2, x ∈ (l.foldl (fun st dep =>
            traverseDeps g fuel dep (pyInsert st.1 dep, st.2)) st').2) ∧
          (∀ d ∈ l, d ∈ (l.foldl (fun st dep =>
            traverseDeps g fuel dep (pyInsert st.1 dep, st.2)) st').1 ∧
            d ∈ (l.foldl (fun st dep =>
              traverseDeps g fuel dep (pyInsert st.1 dep, st.2)) st').2) ∧
          (∀ x ∈ (l.foldl (fun st dep =>
            traverseDeps g fuel dep (pyInsert st.1 dep, st.2)) st').2,
            x ∉ st'.2 → ∀ d ∈ g.depsOf x,
              d ∈ (l.foldl (fun st dep =>
                traverseDeps g fuel dep (pyInsert st.1 dep, st.2)) st').1 ∧
              d ∈ (l.foldl (fun st dep =>
                traverseDeps g fuel dep (pyInsert st.1 dep, st.2)) st').2) := by
        intro l
        induction l with
        | nil =>
          intro st' _ _
          refine ⟨fun x hx => hx, fun x hx => hx, ?_, ?_⟩
          · intro d hd
            exact absurd hd (List.not_mem_nil d)
          · intro x hx hnx
            exact absurd hx hnx
        | cons dep l ihl =>
          intro st' hmem hbound'
          rw [List.foldl_cons]
          have hdepK : dep ∈ g.keys := hmem dep (List.mem_cons_self _ _)
          have hsub := ih dep (pyInsert st'.1 dep, st'.2) hdepK hbound'
          obtain ⟨M1, M2, M3, M4⟩ := hsub
          have hbound'' : (g.keys.filter (fun k => decide
              (k ∉ (traverseDeps g fuel dep (pyInsert st'.1 dep, st'.2)).2))).length
              < fuel := by
            have hmono : List.countP (fun k => decide
                (k ∉ (traverseDeps g fuel dep (pyInsert st'.1 dep, st'.2)).2)) g.keys ≤
                List.countP (fun k => decide (k ∉ st'.2)) g.keys := by
              apply List.countP_mono_left
              intro a _ ha
              simp only [decide_eq_true_eq] at ha ⊢
              exact fun hmem2 => ha (M2 a hmem2)
            rw [← List.countP_eq_length_filter] at hbound' ⊢
            omega
          have hrec := ihl (traverseDeps g fuel dep (pyInsert st'.1 dep, st'.2))
            (fun d hd => hmem d (List.mem_cons_of_mem _ hd)) hbound''
          obtain ⟨C1, C2, C3, C4⟩ := hrec
          refine ⟨?_, ?_, ?_, ?_⟩
          · intro x hx
            exact C1 x (M1 x ((mem_pyInsert _ _ _).mpr (Or.inl hx)))
          · intro x hx
            exact C2 x (M2 x hx)
          · intro d hd
            rcases List.mem_cons.mp hd with rfl | hd
            · exact ⟨C1 d (M1 d ((mem_pyInsert _ _ _).mpr (Or.inr rfl))), C2 d M3⟩
            · exact C3 d hd
          · intro x hx hnx
            by_cases hx2 : x ∈ (traverseDeps g fuel dep (pyInsert st'.1 dep, st'.2)).2
            · intro d hd
              have hcl := M4 x hx2 hnx d hd
              exact ⟨C1 d hcl.1, C2 d hcl.2⟩
            · exact C4 x hx hx2
      have hdepsK : ∀ d ∈ g.depsOf name, d ∈ g.keys :=
        fun d hd => (wf_dep_edge hwf hd).2.1
      obtain ⟨C1, C2, C3, C4⟩ :=
        aux (g.depsOf name) (st.1, pyInsert st.2 name) hdepsK hbound1
      refine ⟨?_, ?_, ?_, ?_⟩
      · intro x hx
        exact C1 x hx
      · intro x hx
        exact C2 x ((mem_pyInsert _ _ _).mpr (Or.inl hx))
      · exact C2 name ((mem_pyInsert _ _ _).mpr (Or.inr rfl))
      · intro x hx hnx
        by_cases hxname : x = name
        · subst hxname
          intro d hd
          exact C3 d hd
        · refine C4 x hx ?_
          intro hx1
          rcases (mem_pyInsert _ _ _).mp hx1 with h | h
          · exact hnx h
          · exact hxname h

theorem getAllDependencies_iff (g : DepGraph) (hwf : WellFormed g) (m : String)
    (hm : m ∈ g.keys) (x : String) :
    x ∈ g.getAllDependencies m ↔ TransDep g m x := by
  unfold DepGraph.getAllDependencies
  rw [if_pos (lookup_isSome_of_mem hm)]
  constructor
  · intro hx
    exact traverse_sound g m (g.nodes.length + 1) m ([], [])
      Relation.ReflTransGen.refl
      (fun y hy => absurd hy (List.not_mem_nil y)) x hx
  · intro htd
    have hbound : (g.keys.filter (fun k => decide
        (k ∉ (([], []) : List String × List String).2))).length <
        g.nodes.length + 1 := by
      have h1 := List.length_filter_le
        (fun k => decide (k ∉ (([], []) : List String × List String).2)) g.keys
      have h2 : g.keys.length = g.nodes.length := by
        unfold DepGraph.keys
        rw [List.length_map]
      omega
    obtain ⟨hm1, hm2, hm3, hm4⟩ :=
      traverse_complete g hwf (g.nodes.length + 1) m ([], []) hm hbound
    have hreach : ∀ y, Relation.ReflTransGen (dependsOn g) m y →
        y ∈ (traverseDeps g (g.nodes.length + 1) m ([], [])).2 := by
      intro y hy
      induction hy with
      | refl => exact hm3
      | tail hab hbc ihy => exact (hm4 _ ihy (List.not_mem_nil _) _ hbc).2
    obtain ⟨b, hb, hbx⟩ := Relation.TransGen.tail'_iff.mp htd
    exact (hm4 b (hreach b hb) (List.not_mem_nil b) x hbx).1

/-! ## The required set and filtered subgraph of `get_execution_order` -/

/-- The `required_models` set of `get_execution_order` (dependency.py lines
288-295), as accumulated in order. -/
def requiredOf (g : DepGraph) (ms : List String) : List String :=
  ms.foldl (fun req m => (g.getAllDependencies m).foldl pyInsert req)
    (ms.foldl pyInsert [])

/-- The filtered subgraph of `get_execution_order` (dependency.py lines
297-305). -/
def subgraphOf (g : DepGraph) (required : List String) : DepGraph :=
  required.foldl
    (fun sub m =>
      if (g.lookup m).isSome then
        sub.addModel m ((g.depsOf m).filter (fun d => d ∈ required))
      else sub)
    ⟨[]⟩

theorem getExecutionOrder_some (g : DepGraph) (ms : List String) :
    g.getExecutionOrder (some ms) =
      (subgraphOf g (requiredOf g ms)).topologicalSort := rfl

theorem mem_foldl_pyInsert (l : List String) :
    ∀ (init : List String) (x : String),
      x ∈ l.foldl pyInsert init ↔ x ∈ init ∨ x ∈ l := by
  induction l with
  | nil =>
    intro init x
    simp
  | cons a l ih =>
    intro init x
    rw [List.foldl_cons, ih, mem_pyInsert]
    constructor
    · rintro ((h | h) | h)
      · exact Or.inl h
      · refine Or.inr ?_
        rw [h]
        exact List.mem_cons_self _ _
      · exact Or.inr (List.mem_cons_of_mem _ h)
    · rintro (h | h)
      · exact Or.inl (Or.inl h)
      · rcases List.mem_cons.mp h with rfl | h
        · exact Or.inl (Or.inr rfl)
        · exact Or.inr h

theorem nodup_pyInsert (l : List String) (x : String) (h : l.Nodup) :
    (pyInsert l x).Nodup := by
  unfold pyInsert
  by_cases hx : x ∈ l
  · rw [if_pos hx]
    exact h
  · rw [if_neg hx]
    rw [List.nodup_append]
    exact ⟨h, List.nodup_singleton x, fun a ha ham =>
      hx ((List.mem_singleton.mp ham) ▸ ha)⟩

theorem nodup_foldl_pyInsert (l : List String) :
    ∀ init : List String, init.Nodup → (l.foldl pyInsert init).Nodup := by
  induction l with
  | nil =>
    intro init h
    exact h
  | cons a l ih =>
    intro init h
    rw [List.foldl_cons]
    exact ih _ (nodup_pyInsert init a h)

theorem mem_requiredOf (g : DepGraph) (ms : List String) (x : String) :
    x ∈ requiredOf g ms ↔ x ∈ ms ∨ ∃ m ∈ ms, x ∈ g.getAllDependencies m := by
  unfold requiredOf
  have main : ∀ (L : List String) (init : List String),
      x ∈ L.foldl (fun req m => (g.getAllDependencies m).foldl pyInsert req) init ↔
        x ∈ init ∨ ∃ m ∈ L, x ∈ g.getAllDependencies m := by
    intro L
    induction L with
    | nil =>
      intro init
      simp
    | cons a L ih =>
      intro init
      rw [List.foldl_cons, ih, mem_foldl_pyInsert]
      constructor
      · rintro ((h | h) | ⟨m, hm, hx⟩)
        · exact Or.inl h
        · exact Or.inr ⟨a, List.mem_cons_self _ _, h⟩
        · exact Or.inr ⟨m, List.mem_cons_of_mem _ hm, hx⟩
      · rintro (h | ⟨m, hm, hx⟩)
        · exact Or.inl (Or.inl h)
        · rcases List.mem_cons.mp hm with rfl | hm
          · exact Or.inl (Or.inr hx)
          · exact Or.inr ⟨m, hm, hx⟩
  rw [main, mem_foldl_pyInsert]
  simp

theorem nodup_requiredOf (g : DepGraph) (ms : List String) :
    (requiredOf g ms).Nodup := by
  unfold requiredOf
  have main : ∀ (L : List String) (init : List String), init.Nodup →
      (L.foldl (fun req m =>
        (g.getAllDependencies m).foldl pyInsert req) init).Nodup := by
    intro L
    induction L with
    | nil =>
      intro init h
      exact h
    | cons a L ih =>
      intro init h
      rw [List.foldl_cons]
      exact ih _ (nodup_foldl_pyInsert _ init h)
  exact main ms _ (nodup_foldl_pyInsert ms [] List.nodup_nil)

theorem mem_keys_iff_isSome (g : DepGraph) (x : String) :
    x ∈ g.keys ↔ (g.lookup x).isSome :=
  ⟨lookup_isSome_of_mem, fun h => by
    obtain ⟨node, hn⟩ := Option.isSome_iff_exists.mp h
    exact mem_keys_of_lookup hn⟩

theorem keys_updateNode (g : DepGraph) (k : String)
    (f : DependencyNode → DependencyNode) :
    (g.updateNode k f).keys = g.keys := by
  show (g.nodes.map (fun p => if p.1 == k then (p.1, f p.2) else p)).map Prod.fst
    = g.nodes.map Prod.fst
  rw [List.map_map]
  apply List.map_congr_left
  intro p _
  by_cases h : p.1 = k <;> simp [h]

theorem keys_ensureNode (g : DepGraph) (k : String) :
    (g.ensureNode k).keys =
      if (g.lookup k).isSome then g.keys else g.keys ++ [k] := by
  unfold DepGraph.ensureNode
  by_cases h : (g.lookup k).isSome
  · rw [if_pos h, if_pos h]
  · rw [if_neg h, if_neg h]
    show (g.nodes ++ [(k, (⟨k, [], []⟩ : DependencyNode))]).map Prod.fst
      = g.nodes.map Prod.fst ++ [k]
    rw [List.map_append]
    rfl

theorem keys_nodup_ensureNode (g : DepGraph) (k : String) (h : g.keys.Nodup) :
    (g.ensureNode k).keys.Nodup := by
  rw [keys_ensureNode]
  by_cases hk : (g.lookup k).isSome
  · rw [if_pos hk]
    exact h
  · rw [if_neg hk]
    rw [List.nodup_append]
    refine ⟨h, List.nodup_singleton k, ?_⟩
    intro a ha ham
    rw [List.mem_singleton.mp ham] at ha
    exact hk (lookup_isSome_of_mem ha)

theorem mem_keys_ensureNode (g : DepGraph) (k x : String) :
    x ∈ (g.ensureNode k).keys ↔ x ∈ g.keys ∨ x = k := by
  rw [keys_ensureNode]
  by_cases hk : (g.lookup k).isSome
  · rw [if_pos hk]
    constructor
    · exact Or.inl
    · rintro (h | rfl)
      · exact h
      · exact (mem_keys_iff_isSome g x).mpr hk
  · rw [if_neg hk]
    simp

theorem keys_nodup_addModel (g : DepGraph) (m : String) (D : List String)
    (h : g.keys.Nodup) : (g.addModel m D).keys.Nodup := by
  unfold DepGraph.addModel
  have main : ∀ (L : List String) (h' : DepGraph), h'.keys.Nodup →
      (L.foldl (fun g dep =>
        let g := g.ensureNode dep
        g.updateNode dep (fun n => { n with dependents := pyInsert n.dependents m }))
        h').keys.Nodup := by
    intro L
    induction L with
    | nil =>
      intro h' hh
      exact hh
    | cons d L ih =>
      intro h' hh
      simp only [List.foldl_cons]
      apply ih
      rw [keys_updateNode]
      exact keys_nodup_ensureNode h' d hh
  apply main
  rw [keys_updateNode]
  exact keys_nodup_ensureNode g m h

theorem mem_keys_addModel (g : DepGraph) (m : String) (D : List String)
    (x : String) :
    x ∈ (g.addModel m D).keys ↔ x ∈ g.keys ∨ x = m ∨ x ∈ D := by
  unfold DepGraph.addModel
  have main : ∀ (L : List String) (h' : DepGraph),
      x ∈ (L.foldl (fun g dep =>
        let g := g.ensureNode dep
        g.updateNode dep (fun n => { n with dependents := pyInsert n.dependents m }))
        h').keys ↔ x ∈ h'.keys ∨ x ∈ L := by
    intro L
    induction L with
    | nil =>
      intro h'
      simp
    | cons d L ih =>
      intro h'
      simp only [List.foldl_cons]
      rw [ih, keys_updateNode, mem_keys_ensureNode]
      constructor
      · rintro ((h | h) | h)
        · exact Or.inl h
        · refine Or.inr ?_
          rw [h]
          exact List.mem_cons_self _ _
        · exact Or.inr (List.mem_cons_of_mem _ h)
      · rintro (h | h)
        · exact Or.inl (Or.inl h)
        · rcases List.mem_cons.mp h with rfl | h
          · exact Or.inl (Or.inr rfl)
          · exact Or.inr h
  rw [main, keys_updateNode, mem_keys_ensureNode]
  constructor
  · rintro ((h | h) | h)
    · exact Or.inl h
    · exact Or.inr (Or.inl h)
    · exact Or.inr (Or.inr h)
  · rintro (h | h | h)
    · exact Or.inl (Or.inl h)
    · exact Or.inl (Or.inr h)
    · exact Or.inr h

theorem subgraphOf_depsOf (g : DepGraph) (R : List String)
    (hR : ∀ m ∈ R, (g.lookup m).isSome) (x : String) :
    (subgraphOf g R).depsOf x =
      if x ∈ R then (g.depsOf x).filter (fun d => d ∈ R) else [] := by
  unfold subgraphOf
  have main : ∀ (L : List String) (h' : DepGraph), (∀ m ∈ L, (g.lookup m).isSome) →
      (L.foldl (fun sub m =>
        if (g.lookup m).isSome then
          sub.addModel m ((g.depsOf m).filter (fun d => d ∈ R))
        else sub) h').depsOf x =
      if x ∈ L then (g.depsOf x).filter (fun d => d ∈ R) else h'.depsOf x := by
    intro L
    induction L with
    | nil =>
      intro h' _
      simp
    | cons mm L ih =>
      intro h' hL
      simp only [List.foldl_cons]
      rw [if_pos (hL mm (List.mem_cons_self _ _))]
      rw [ih _ (fun m hm => hL m (List.mem_cons_of_mem _ hm))]
      by_cases hxL : x ∈ L
      · rw [if_pos hxL, if_pos (List.mem_cons_of_mem _ hxL)]
      · rw [if_neg hxL, depsOf_addModel]
        by_cases hxm : x = mm
        · subst hxm
          rw [if_pos rfl, if_pos (List.mem_cons_self _ _)]
        · rw [if_neg hxm,
            if_neg (fun h => (List.mem_cons.mp h).elim hxm hxL)]
  exact main R ⟨[]⟩ hR

theorem subgraphOf_keys_mem (g : DepGraph) (R : List String)
    (hR : ∀ m ∈ R, (g.lookup m).isSome) (x : String) :
    x ∈ (subgraphOf g R).keys ↔
      x ∈ R ∨ ∃ mm ∈ R, x ∈ (g.depsOf mm).filter (fun d => d ∈ R) := by
  unfold subgraphOf
  have main : ∀ (L : List String) (h' : DepGraph), (∀ m ∈ L, (g.lookup m).isSome) →
      (x ∈ (L.foldl (fun sub m =>
        if (g.lookup m).isSome then
          sub.addModel m ((g.depsOf m).filter (fun d => d ∈ R))
        else sub) h').keys ↔
      x ∈ h'.keys ∨ x ∈ L ∨ ∃ mm ∈ L, x ∈ (g.depsOf mm).filter (fun d => d ∈ R)) := by
    intro L
    induction L with
    | nil =>
      intro h' _
      simp
    | cons mm L ih =>
      intro h' hL
      simp only [List.foldl_cons]
      rw [if_pos (hL mm (List.mem_cons_self _ _))]
      rw [ih _ (fun m hm => hL m (List.mem_cons_of_mem _ hm)), mem_keys_addModel]
      constructor
      · rintro ((h | h | h) | h | ⟨m2, hm2, hx2⟩)
        · exact Or.inl h
        · refine Or.inr (Or.inl ?_)
          rw [h]
          exact List.mem_cons_self _ _
        · exact Or.inr (Or.inr ⟨mm, List.mem_cons_self _ _, h⟩)
        · exact Or.inr (Or.inl (List.mem_cons_of_mem _ h))
        · exact Or.inr (Or.inr ⟨m2, List.mem_cons_of_mem _ hm2, hx2⟩)
      · rintro (h | h | ⟨m2, hm2, hx2⟩)
        · exact Or.inl (Or.inl h)
        · rcases List.mem_cons.mp h with rfl | h
          · exact Or.inl (Or.inr (Or.inl rfl))
          · exact Or.inr (Or.inl h)
        · rcases List.mem_cons.mp hm2 with rfl | hm2
          · exact Or.inl (Or.inr (Or.inr hx2))
          · exact Or.inr (Or.inr ⟨m2, hm2, hx2⟩)
  rw [main R ⟨[]⟩ hR]
  constructor
  · rintro (h | h)
    · exact absurd h (List.not_mem_nil x)
    · exact h
  · exact Or.inr

theorem subgraphOf_keys_iff (g : DepGraph) (R : List String)
    (hR : ∀ m ∈ R, (g.lookup m).isSome) (x : String) :
    x ∈ (subgraphOf g R).keys ↔ x ∈ R := by
  rw [subgraphOf_keys_mem g R hR]
  constructor
  · rintro (h | ⟨mm, hmm, hx⟩)
    · exact h
    · exact (by simpa using (List.mem_filter.mp hx).2 : x ∈ R)
  · exact Or.inl

theorem subgraphOf_keys_nodup (g : DepGraph) (R : List String) :
    (subgraphOf g R).keys.Nodup := by
  unfold subgraphOf
  have main : ∀ (L : List String) (h' : DepGraph), h'.keys.Nodup →
      (L.foldl (fun sub m =>
        if (g.lookup m).isSome then
          sub.addModel m ((g.depsOf m).filter (fun d => d ∈ R))
        else sub) h').keys.Nodup := by
    intro L
    induction L with
    | nil =>
      intro h' hh
      exact hh
    | cons mm L ih =>
      intro h' hh
      simp only [List.foldl_cons]
      apply ih
      by_cases hsm : (g.lookup mm).isSome
      · rw [if_pos hsm]
        exact keys_nodup_addModel h' mm _ hh
      · rw [if_neg hsm]
        exact hh
  exact main R ⟨[]⟩ List.nodup_nil

theorem dependents_nodup_addModel (g : DepGraph) (m : String) (D : List String)
    (x : String) (h : (g.dependentsOf x).Nodup) :
    ((g.addModel m D).dependentsOf x).Nodup := by
  rw [dependentsOf_addModel]
  by_cases hx : x ∈ D
  · rw [if_pos hx]
    exact nodup_pyInsert _ m h
  · rw [if_neg hx]
    exact h

theorem subgraphOf_dependents_nodup (g : DepGraph) (R : List String) (x : String) :
    ((subgraphOf g R).dependentsOf x).Nodup := by
  unfold subgraphOf
  have main : ∀ (L : List String) (h' : DepGraph), (h'.dependentsOf x).Nodup →
      ((L.foldl (fun sub m =>
        if (g.lookup m).isSome then
          sub.addModel m ((g.depsOf m).filter (fun d => d ∈ R))
        else sub) h').dependentsOf x).Nodup := by
    intro L
    induction L with
    | nil =>
      intro h' hh
      exact hh
    | cons mm L ih =>
      intro h' hh
      simp only [List.foldl_cons]
      apply ih
      by_cases hsm : (g.lookup mm).isSome
      · rw [if_pos hsm]
        exact dependents_nodup_addModel h' mm _ x hh
      · rw [if_neg hsm]
        exact hh
  exact main R ⟨[]⟩ List.nodup_nil

theorem subgraphOf_dependents_mem (g : DepGraph) (R : List String)
    (hR : ∀ m ∈ R, (g.lookup m).isSome) (x y : String) :
    y ∈ (subgraphOf g R).dependentsOf x ↔
      y ∈ R ∧ x ∈ (g.depsOf y).filter (fun d => d ∈ R) := by
  unfold subgraphOf
  have main : ∀ (L : List String) (h' : DepGraph), (∀ m ∈ L, (g.lookup m).isSome) →
      (y ∈ (L.foldl (fun sub m =>
        if (g.lookup m).isSome then
          sub.addModel m ((g.depsOf m).filter (fun d => d ∈ R))
        else sub) h').dependentsOf x ↔
      y ∈ h'.dependentsOf x ∨
        (y ∈ L ∧ x ∈ (g.depsOf y).filter (fun d => d ∈ R))) := by
    intro L
    induction L with
    | nil =>
      intro h' _
      simp
    | cons mm L ih =>
      intro h' hL
      simp only [List.foldl_cons]
      rw [if_pos (hL mm (List.mem_cons_self _ _))]
      rw [ih _ (fun m hm => hL m (List.mem_cons_of_mem _ hm))]
      rw [dependentsOf_addModel]
      constructor
      · rintro (h | ⟨hyL, hxf⟩)
        · by_cases hx : x ∈ (g.depsOf mm).filter (fun d => d ∈ R)
          · rw [if_pos hx] at h
            rcases (mem_pyInsert _ _ _).mp h with h | h
            · exact Or.inl h
            · refine Or.inr ⟨?_, ?_⟩
              · rw [h]
                exact List.mem_cons_self _ _
              · rw [h]
                exact hx
          · rw [if_neg hx] at h
            exact Or.inl h
        · exact Or.inr ⟨List.mem_cons_of_mem _ hyL, hxf⟩
      · rintro (h | ⟨hyL, hxf⟩)
        · refine Or.inl ?_
          by_cases hx : x ∈ (g.depsOf mm).filter (fun d => d ∈ R)
          · rw [if_pos hx]
            exact (mem_pyInsert _ _ _).mpr (Or.inl h)
          · rw [if_neg hx]
            exact h
        · rcases List.mem_cons.mp hyL with rfl | hyL
          · refine Or.inl ?_
            rw [if_pos hxf]
            exact (mem_pyInsert _ _ _).mpr (Or.inr rfl)
          · exact Or.inr ⟨hyL, hxf⟩
  rw [main R ⟨[]⟩ hR]
  constructor
  · rintro (h | h)
    · exact absurd h (List.not_mem_nil y)
    · exact h
  · exact Or.inr

theorem wellFormed_of_parts (g : DepGraph) (hkeys : g.keys.Nodup)
    (hnd : ∀ n, (g.depsOf n).Nodup ∧ (g.dependentsOf n).Nodup)
    (h3 : ∀ n, ∀ a ∈ g.depsOf n, a ∈ g.keys ∧ n ∈ g.dependentsOf a)
    (h4 : ∀ n, ∀ b ∈ g.dependentsOf n, b ∈ g.keys ∧ n ∈ g.depsOf b) :
    WellFormed g := by
  have hds : ∀ p : String × DependencyNode, p ∈ g.nodes →
      g.depsOf p.1 = p.2.dependencies ∧ g.dependentsOf p.1 = p.2.dependents := by
    intro p hp
    have hl := mem_lookup_of_nodup hkeys (show (p.1, p.2) ∈ g.nodes from hp)
    constructor
    · unfold DepGraph.depsOf
      rw [hl]
    · unfold DepGraph.dependentsOf
      rw [hl]
  refine ⟨hkeys, ?_, ?_, ?_⟩
  · intro p hp
    obtain ⟨e1, e2⟩ := hds p hp
    exact ⟨e1 ▸ (hnd p.1).1, e2 ▸ (hnd p.1).2⟩
  · intro p hp a ha
    obtain ⟨e1, _⟩ := hds p hp
    exact h3 p.1 a (by rw [e1]; exact ha)
  · intro p hp b hb
    obtain ⟨_, e2⟩ := hds p hp
    exact h4 p.1 b (by rw [e2]; exact hb)

theorem wellFormed_subgraphOf (g : DepGraph) (hwf : WellFormed g)
    (R : List String) (hRK : ∀ m ∈ R, m ∈ g.keys) :
    WellFormed (subgraphOf g R) := by
  have hR : ∀ m ∈ R, (g.lookup m).isSome :=
    fun m hm => lookup_isSome_of_mem (hRK m hm)
  apply wellFormed_of_parts
  · exact subgraphOf_keys_nodup g R
  · intro n
    constructor
    · rw [subgraphOf_depsOf g R hR]
      by_cases hn : n ∈ R
      · rw [if_pos hn]
        exact (wf_deps_nodup hwf n).filter _
      · rw [if_neg hn]
        exact List.nodup_nil
    · exact subgraphOf_dependents_nodup g R n
  · intro n a ha
    rw [subgraphOf_depsOf g R hR] at ha
    by_cases hn : n ∈ R
    · rw [if_pos hn] at ha
      have haR : a ∈ R := by simpa using (List.mem_filter.mp ha).2
      constructor
      · exact (subgraphOf_keys_iff g R hR a).mpr haR
      · rw [subgraphOf_dependents_mem g R hR]
        exact ⟨hn, ha⟩
    · rw [if_neg hn] at ha
      exact absurd ha (List.not_mem_nil a)
  · intro n b hb
    rw [subgraphOf_dependents_mem g R hR] at hb
    constructor
    · exact (subgraphOf_keys_iff g R hR b).mpr hb.1
    · rw [subgraphOf_depsOf g R hR, if_pos hb.1]
      exact hb.2

theorem acyclic_subgraphOf (g : DepGraph) (hacyc : Acyclic g) (R : List String)
    (hRK : ∀ m ∈ R, m ∈ g.keys) : Acyclic (subgraphOf g R) := by
  have hR : ∀ m ∈ R, (g.lookup m).isSome :=
    fun m hm => lookup_isSome_of_mem (hRK m hm)
  intro n hn
  apply hacyc n
  refine Relation.TransGen.mono ?_ hn
  intro a b hab
  have hab' : b ∈ (subgraphOf g R).depsOf a := hab
  rw [subgraphOf_depsOf g R hR] at hab'
  by_cases ha : a ∈ R
  · rw [if_pos ha] at hab'
    exact (List.mem_filter.mp hab').1
  · rw [if_neg ha] at hab'
    exact absurd hab' (List.not_mem_nil b)

/-! ## Claim C10 — correctness of `get_execution_order` on a model subset -/

/-- Claim C10: for a well-formed acyclic graph and a subset `ms` of its
models, `get_execution_order` succeeds with levels that together contain
exactly the members of `ms` plus every transitive dependency of a member,
each appearing exactly once (the flattened output is duplicate-free), and
every dependency edge between two emitted models crosses from a strictly
earlier level to a later one. -/
theorem execution_order_correct (g : DepGraph) (hwf : WellFormed g)
    (hacyc : Acyclic g) (ms : List String) (hms : ∀ m ∈ ms, m ∈ g.keys) :
    ∃ res, g.getExecutionOrder (some ms) = .ok res ∧
      (∀ n, n ∈ res.flatten ↔ n ∈ ms ∨ ∃ m ∈ ms, TransDep g m n) ∧
      res.flatten.Nodup ∧
      (∀ A B, B ∈ res.flatten → dependsOn g B A → A ∈ res.flatten →
        ∃ i j, i < j ∧ j < res.length ∧ A ∈ res.getD i [] ∧ B ∈ res.getD j []) := by
  have hreq : ∀ x, x ∈ requiredOf g ms ↔ x ∈ ms ∨ ∃ m ∈ ms, TransDep g m x := by
    intro x
    rw [mem_requiredOf]
    constructor
    · rintro (h | ⟨m, hm, hx⟩)
      · exact Or.inl h
      · exact Or.inr ⟨m, hm, (getAllDependencies_iff g hwf m (hms m hm) x).mp hx⟩
    · rintro (h | ⟨m, hm, hx⟩)
      · exact Or.inl h
      · exact Or.inr ⟨m, hm, (getAllDependencies_iff g hwf m (hms m hm) x).mpr hx⟩
  have hRK : ∀ m ∈ requiredOf g ms, m ∈ g.keys := by
    intro m hm
    rcases (hreq m).mp hm with h | ⟨m', _, htd⟩
    · exact hms m h
    · obtain ⟨b, _, hbx⟩ := Relation.TransGen.tail'_iff.mp htd
      exact (wf_dep_edge hwf hbx).2.1
  have hRsome : ∀ m ∈ requiredOf g ms, (g.lookup m).isSome :=
    fun m hm => lookup_isSome_of_mem (hRK m hm)
  obtain ⟨res, hok, hmem, hnd, hgl⟩ :=
    topologicalSort_ok (subgraphOf g (requiredOf g ms))
      (wellFormed_subgraphOf g hwf _ hRK) (acyclic_subgraphOf g hacyc _ hRK)
  refine ⟨res, ?_, ?_, hnd, ?_⟩
  · rw [getExecutionOrder_some]
    exact hok
  · intro n
    rw [hmem n, subgraphOf_keys_iff g _ hRsome n, hreq n]
  · intro A B hB hdep hA
    have hAR : A ∈ requiredOf g ms :=
      (subgraphOf_keys_iff g _ hRsome A).mp ((hmem A).mp hA)
    have hBR : B ∈ requiredOf g ms :=
      (subgraphOf_keys_iff g _ hRsome B).mp ((hmem B).mp hB)
    have hdepSub : A ∈ (subgraphOf g (requiredOf g ms)).depsOf B := by
      rw [subgraphOf_depsOf g _ hRsome, if_pos hBR]
      exact List.mem_filter.mpr ⟨hdep, by simpa using hAR⟩
    obtain ⟨j, hj, hBj⟩ := mem_flatten_getD res B hB
    rcases goodLevels_earlier _ res [] hgl j hj B hBj A hdepSub with h | ⟨i, hij, hAi⟩
    · exact absurd h (List.not_mem_nil A)
    · exact ⟨i, j, hij, hj, hAi, hBj⟩

/-- The concrete three-node graph (`b` depends on `a`, `c` isolated) used to
witness C10 with the model subset `["b"]`. -/
def execWitnessGraph : DepGraph :=
  (emptyGraph.addModel "b" ["a"]).addModel "c" []

theorem execWitnessGraph_edges {x y : String}
    (h : dependsOn execWitnessGraph x y) : x = "b" ∧ y = "a" := by
  have hnodes : execWitnessGraph.nodes =
      [("b", ⟨"b", ["a"], []⟩), ("a", ⟨"a", [], ["b"]⟩), ("c", ⟨"c", [], []⟩)] := by rfl
  unfold dependsOn at h
  unfold DepGraph.depsOf at h
  cases hl : execWitnessGraph.lookup x with
  | none =>
    rw [hl] at h
    exact absurd h (List.not_mem_nil y)
  | some node =>
    rw [hl] at h
    have hmem := lookup_mem hl
    rw [hnodes] at hmem
    rcases List.mem_cons.mp hmem with he | hmem
    · have hx : x = "b" := by
        have := congrArg Prod.fst he
        simpa using this
      have hnd : node = ⟨"b", ["a"], []⟩ := by
        have := congrArg Prod.snd he
        simpa using this
      rw [hnd] at h
      exact ⟨hx, List.mem_singleton.mp h⟩
    · rcases List.mem_cons.mp hmem with he | hmem
      · exfalso
        have hnd : node = ⟨"a", [], ["b"]⟩ := by
          have := congrArg Prod.snd he
          simpa using this
        rw [hnd] at h
        exact absurd h (List.not_mem_nil y)
      · rcases List.mem_cons.mp hmem with he | hmem
        · exfalso
          have hnd : node = ⟨"c", [], []⟩ := by
            have := congrArg Prod.snd he
            simpa using this
          rw [hnd] at h
          exact absurd h (List.not_mem_nil y)
        · exact absurd hmem (List.not_mem_nil _)

theorem execWitnessGraph_acyclic : Acyclic execWitnessGraph := by
  intro n hn
  obtain ⟨c, hc, hrest⟩ := Relation.TransGen.head'_iff.mp hn
  obtain ⟨hnb, hca⟩ := execWitnessGraph_edges hc
  subst hnb hca
  rcases Relation.ReflTransGen.cases_head hrest with he | ⟨c2, hc2, _⟩
  · exact absurd he (by decide)
  · exact absurd (execWitnessGraph_edges hc2).1 (by decide)

/-- Witness for C10 on the concrete graph (`b` → `a`, isolated `c`) and
subset `["b"]`. -/
theorem execution_order_correct_witness :
    WellFormed execWitnessGraph ∧ Acyclic execWitnessGraph ∧
      (∀ m ∈ ["b"], m ∈ execWitnessGraph.keys) ∧
      ∃ res, execWitnessGraph.getExecutionOrder (some ["b"]) = .ok res ∧
        (∀ n, n ∈ res.flatten ↔ n ∈ ["b"] ∨ ∃ m ∈ ["b"], TransDep execWitnessGraph m n) ∧
        res.flatten.Nodup ∧
        (∀ A B, B ∈ res.flatten → dependsOn execWitnessGraph B A → A ∈ res.flatten →
          ∃ i j, i < j ∧ j < res.length ∧ A ∈ res.getD i [] ∧ B ∈ res.getD j []) :=
  ⟨by decide, execWitnessGraph_acyclic, by decide,
    execution_order_correct execWitnessGraph (by decide) execWitnessGraph_acyclic
      ["b"] (by decide)⟩

end DTF
